import Mathlib

/-!
Verification of the pdf2mkdwn reconstruction engine.

This file gives a shallow embedding, in Lean 4, of the text-normalization,
math-detection, layout-analysis and table-detection functions of the
repository (src/utils/textTransforms.ts, src/utils/layoutAnalyzer.ts,
src/utils/tableDetector.ts), together with theorems settling the claims
about those functions.

Strings are modelled as lists of Unicode code points (JavaScript iterates
code points via the spread operator; all characters appearing in the
claims are in the basic plane, where JavaScript string length agrees with
the code-point count).  JavaScript floating-point arithmetic on the small
decimal constants of the source is modelled by exact rational arithmetic;
none of the comparisons relevant to the claims sits on a rounding
boundary.  Regular-expression tests and global replaces are hand-compiled
into deterministic scanners; each scanner is documented with the regex it
implements.
-/

set_option maxRecDepth 10000

/-- Strings as lists of code points. -/
abbrev Str := List Char

/-- Convert a Lean string literal to the code-point list model. -/
def str (s : String) : Str := s.data

/-- Character class of the JavaScript whitespace escape in regexes and of
String.prototype.trim. -/
def jsSpace (c : Char) : Bool :=
  c = ' ' || c = '\t' || c = '\n' || c = '\r' || c = '\x0b' || c = '\x0c' ||
  c = '\u00A0' || c = '\u1680' || ('\u2000' ≤ c && c ≤ '\u200A') ||
  c = '\u2028' || c = '\u2029' || c = '\u202F' || c = '\u205F' ||
  c = '\u3000' || c = '\uFEFF'

/-- Character class of the word escape in JavaScript regexes. -/
def isWordCh (c : Char) : Bool :=
  ('a' ≤ c && c ≤ 'z') || ('A' ≤ c && c ≤ 'Z') || ('0' ≤ c && c ≤ '9') || c = '_'

/-- ASCII digit. -/
def isDigitCh (c : Char) : Bool := '0' ≤ c && c ≤ '9'

/-- ASCII letter. -/
def isAsciiLetter (c : Char) : Bool := ('a' ≤ c && c ≤ 'z') || ('A' ≤ c && c ≤ 'Z')

/-- ASCII alphanumeric. -/
def isAlnum (c : Char) : Bool := isAsciiLetter c || isDigitCh c

/-- JavaScript String.prototype.trim. -/
def trim (s : Str) : Str :=
  ((s.dropWhile jsSpace).reverse.dropWhile jsSpace).reverse

/-- JavaScript String.prototype.trimEnd. -/
def trimEnd (s : Str) : Str :=
  (s.reverse.dropWhile jsSpace).reverse

/-- Case map used where the source calls toLowerCase (the inputs relevant
to the claims are ASCII). -/
def lowerStr (s : Str) : Str := s.map Char.toLower

/-- Auxiliary scanner for splitRunsMin: walks the input one character at a
time, carrying the current piece and the pending separator run, both in
reversed order. -/
def splitRunsAux (sep : Char → Bool) (minLen : Nat) :
    Str → Str → Str → List Str
  | [], piece, pending =>
      if pending.length ≥ minLen ∧ pending ≠ [] then [piece.reverse, []]
      else [(pending ++ piece).reverse]
  | c :: rest, piece, pending =>
      if sep c then splitRunsAux sep minLen rest piece (c :: pending)
      else
        if pending.length ≥ minLen ∧ pending ≠ [] then
          piece.reverse :: splitRunsAux sep minLen rest [c] []
        else splitRunsAux sep minLen rest (c :: (pending ++ piece)) []

/-- JavaScript String.prototype.split on a regex matching runs of at least
minLen characters of the class sep (for example split on the one-or-more
whitespace regex, or on runs of two or more spaces).  Empty pieces are
kept, as in JavaScript. -/
def splitRunsMin (sep : Char → Bool) (minLen : Nat) (s : Str) : List Str :=
  splitRunsAux sep minLen s [] []

/-- Replace every maximal run of decimal digits by a single hash character
(the global digit-run replace of normalizeForComparison). -/
def replaceDigitRunsAux : Str → Bool → Str
  | [], _ => []
  | c :: rest, inRun =>
      if isDigitCh c then
        if inRun then replaceDigitRunsAux rest true
        else '#' :: replaceDigitRunsAux rest true
      else c :: replaceDigitRunsAux rest false

/-- Replace digit runs by a hash, as in the source. -/
def replaceDigitRuns (s : Str) : Str := replaceDigitRunsAux s false

/-- Replace every maximal whitespace run by a single space (the global
whitespace-collapsing replace used throughout the source). -/
def collapseWsAux : Str → Bool → Str
  | [], _ => []
  | c :: rest, inRun =>
      if jsSpace c then
        if inRun then collapseWsAux rest true
        else ' ' :: collapseWsAux rest true
      else c :: collapseWsAux rest false

/-- Collapse whitespace runs to single spaces. -/
def collapseWs (s : Str) : Str := collapseWsAux s false

/-- Test whether pat is a prefix of s. -/
def beginsWith : Str → Str → Bool
  | [], _ => true
  | _ :: _, [] => false
  | p :: ps, c :: cs => p = c && beginsWith ps cs

/-- Test whether pat occurs as a contiguous substring of s. -/
def hasSubstr (pat : Str) : Str → Bool
  | [] => beginsWith pat []
  | c :: rest => beginsWith pat (c :: rest) || hasSubstr pat rest

/-- Case-insensitive prefix test (both sides lowered). -/
def ciBegins (pat : Str) (s : Str) : Bool := beginsWith (lowerStr pat) (lowerStr s)

/-- Case-insensitive substring test. -/
def ciSubstr (pat : Str) : Str → Bool
  | [] => ciBegins pat []
  | c :: rest => ciBegins pat (c :: rest) || ciSubstr pat rest

/-- Existential scan: does the predicate hold of some suffix of s. -/
def scanAny (p : Str → Bool) : Str → Bool
  | [] => p []
  | c :: rest => p (c :: rest) || scanAny p rest

-- =============================================================================
-- textTransforms.ts: header and footer removal (claim C10)
-- =============================================================================

/-- Model of normalizeForComparison: digit runs become a hash, whitespace
runs collapse to one space, then trim and lowercase. -/
def normalizeForComparison (s : Str) : Str :=
  lowerStr (trim (collapseWs (replaceDigitRuns s)))

/-- Lowercased whitespace-split word set of a string (the JavaScript Set
keeps first insertions; only size and membership are consumed). -/
def wordSet (s : Str) : List Str :=
  (splitRunsMin jsSpace 1 (lowerStr s)).dedup

/-- Model of jaccardSimilarity from textTransforms.ts. -/
def jaccardSimilarity (a b : Str) : ℚ :=
  let setA := wordSet a
  let setB := wordSet b
  if setA.length = 0 ∧ setB.length = 0 then 1
  else if setA.length = 0 ∨ setB.length = 0 then 0
  else
    let inter := setA.filter (fun x => setB.contains x)
    let union := (setA ++ setB).dedup
    (inter.length : ℚ) / (union.length : ℚ)

/-- Model of matchesHeaderFooterPattern from textTransforms.ts. -/
def matchesHeaderFooterPattern (line : Str) (patterns : List Str) (threshold : ℚ) : Bool :=
  let normalized := normalizeForComparison line
  if normalized.length = 0 then false
  else patterns.any (fun pattern => jaccardSimilarity normalized pattern ≥ threshold)

/-- Line-retention predicate of removeHeadersFooters: blank lines are kept,
other lines are kept when their trim matches neither pattern list. -/
def keepsLine (headers footers : List Str) (threshold : ℚ) (line : Str) : Bool :=
  if trim line = [] then true
  else
    !(matchesHeaderFooterPattern (trim line) headers threshold) &&
    !(matchesHeaderFooterPattern (trim line) footers threshold)

/-- Model of removeHeadersFooters from textTransforms.ts: split on newlines,
keep blank lines and unmatched lines, join with newlines. -/
def removeHeadersFooters (text : Str) (headers footers : List Str) (threshold : ℚ) : Str :=
  List.intercalate ['\n'] ((text.splitOn '\n').filter (keepsLine headers footers threshold))

-- =============================================================================
-- textTransforms.ts: hyphenation repair (claim C7)
-- =============================================================================

/-- Head match of the hyphenation-break regex: a word character, the given
dash, a whitespace run containing at least one newline, then a word
character.  Returns the two captured word characters and the total matched
length (the greedy-then-backtracking star pair consumes exactly the
whitespace run, which must contain a newline and be followed by a word
character). -/
def breakMatch (dash : Char) : Str → Option (Char × Char × Nat)
  | w1 :: d :: rest =>
    if isWordCh w1 && d = dash then
      let run := rest.takeWhile jsSpace
      if run.contains '\n' then
        match rest.dropWhile jsSpace with
        | w2 :: _ => if isWordCh w2 then some (w1, w2, run.length + 3) else none
        | [] => none
      else none
    else none
  | _ => none

/-- One global-replace pass joining break matches: leftmost non-overlapping
matches of the original string, each replaced by its two captured word
characters, scanning resuming after each match (JavaScript
String.prototype.replace with a global regex). -/
def joinBreaks (dash : Char) : Str → Str
  | [] => []
  | c :: rest =>
    match breakMatch dash (c :: rest) with
    | some (w1, w2, len) => w1 :: w2 :: joinBreaks dash ((c :: rest).drop (len.max 1))
    | none => c :: joinBreaks dash rest
termination_by s => s.length
decreasing_by
  · simp only [List.length_drop, List.length_cons]
    exact Nat.sub_lt (Nat.succ_pos _)
      (Nat.lt_of_lt_of_le Nat.zero_lt_one (Nat.le_max_right len 1))
  · simp

/-- Strip soft hyphens (the global soft-hyphen replace). -/
def removeSoftHyphens (s : Str) : Str := s.filter (fun c => c ≠ '­')

/-- Model of fixHyphenationAdvanced from textTransforms.ts: join hyphen
line breaks, strip soft hyphens, join en-dash line breaks. -/
def fixHyphenationAdvanced (s : Str) : Str :=
  joinBreaks '–' (removeSoftHyphens (joinBreaks '-' s))

/-- Bounded check: some position of s starts a break occurrence for the
given dash. -/
def hasBreakOcc (dash : Char) (s : Str) : Bool :=
  (List.range s.length).any (fun i => (breakMatch dash (s.drop i)).isSome)

/-- Bounded overlap-freedom check.  Distinct occurrences of the break
pattern can only overlap by sharing the trailing word character of one as
the leading word character of the other, so overlap-freedom states that no
occurrence starts at the final character of another occurrence. -/
def breaksChainFree (dash : Char) (s : Str) : Bool :=
  (List.range s.length).all (fun i =>
    match breakMatch dash (s.drop i) with
    | some (_, _, len) => (breakMatch dash (s.drop (i + len - 1))).isNone
    | none => true)

/-- Number of matches the global-replace join pass performs; the matched
dash of each is the one hyphen the pass deletes. -/
def joinCount (dash : Char) : Str → Nat
  | [] => 0
  | c :: rest =>
    match breakMatch dash (c :: rest) with
    | some (_, _, len) => joinCount dash ((c :: rest).drop (len.max 1)) + 1
    | none => joinCount dash rest
termination_by s => s.length
decreasing_by
  · simp only [List.length_drop, List.length_cons]
    exact Nat.sub_lt (Nat.succ_pos _)
      (Nat.lt_of_lt_of_le Nat.zero_lt_one (Nat.le_max_right len 1))
  · simp

-- =============================================================================
-- textTransforms.ts: bullet-line merging (claim C8)
-- =============================================================================

/-- Bullet glyphs of the standalone-bullet character class in
mergeBulletLines (the source lists some glyphs twice, once as an escape and
once literally; the duplicates are kept). -/
def bulletChars : Str :=
  ['-', '*', '•', '‣', '◦', '⁃', '∙',
   '•', '◦', '‣', '⁃', '●', '○']

/-- Standalone-bullet test: the string is exactly one bullet glyph. -/
def isStandaloneBullet (s : Str) : Bool :=
  match s with
  | [c] => bulletChars.contains c
  | _ => false

/-- Start-of-line guard of mergeBulletLines: the line begins with a bullet
glyph or a digit. -/
def startsWithBulletOrDigit (s : Str) : Bool :=
  match s with
  | c :: _ => bulletChars.contains c || isDigitCh c
  | [] => false

/-- Loop of mergeBulletLines over the list of lines: a standalone bullet
line whose following line is nonempty after trimming and does not begin
with a bullet glyph or digit is merged with that following line. -/
def mergeBulletList : List Str → List Str
  | [] => []
  | [x] => [x]
  | x :: y :: rest =>
    if isStandaloneBullet (trim x) ∧ trim y ≠ [] ∧ ¬ startsWithBulletOrDigit (trim y)
    then (str "- " ++ trim y) :: mergeBulletList rest
    else x :: mergeBulletList (y :: rest)
termination_by l => l.length

/-- Model of mergeBulletLines from textTransforms.ts. -/
def mergeBulletLines (s : Str) : Str :=
  List.intercalate ['\n'] (mergeBulletList (s.splitOn '\n'))

-- =============================================================================
-- Math module: Unicode-to-LaTeX mapping tables
-- =============================================================================

/-- GREEK_LETTERS mapping table, in source order. -/
def greekLetters : List (Char × Str) :=
  [('\u03B1', str "\\alpha"), ('\u03B2', str "\\beta"), ('\u03B3', str "\\gamma"),
   ('\u03B4', str "\\delta"), ('\u03B5', str "\\epsilon"), ('\u03B6', str "\\zeta"),
   ('\u03B7', str "\\eta"), ('\u03B8', str "\\theta"), ('\u03B9', str "\\iota"),
   ('\u03BA', str "\\kappa"), ('\u03BB', str "\\lambda"), ('\u03BC', str "\\mu"),
   ('\u03BD', str "\\nu"), ('\u03BE', str "\\xi"), ('\u03BF', str "o"),
   ('\u03C0', str "\\pi"), ('\u03C1', str "\\rho"), ('\u03C2', str "\\varsigma"),
   ('\u03C3', str "\\sigma"), ('\u03C4', str "\\tau"), ('\u03C5', str "\\upsilon"),
   ('\u03C6', str "\\phi"), ('\u03C7', str "\\chi"), ('\u03C8', str "\\psi"),
   ('\u03C9', str "\\omega"),
   ('\u0391', str "A"), ('\u0392', str "B"), ('\u0393', str "\\Gamma"),
   ('\u0394', str "\\Delta"), ('\u0395', str "E"), ('\u0396', str "Z"),
   ('\u0397', str "H"), ('\u0398', str "\\Theta"), ('\u0399', str "I"),
   ('\u039A', str "K"), ('\u039B', str "\\Lambda"), ('\u039C', str "M"),
   ('\u039D', str "N"), ('\u039E', str "\\Xi"), ('\u039F', str "O"),
   ('\u03A0', str "\\Pi"), ('\u03A1', str "P"), ('\u03A3', str "\\Sigma"),
   ('\u03A4', str "T"), ('\u03A5', str "\\Upsilon"), ('\u03A6', str "\\Phi"),
   ('\u03A7', str "X"), ('\u03A8', str "\\Psi"), ('\u03A9', str "\\Omega"),
   ('\u03D1', str "\\vartheta"), ('\u03D5', str "\\varphi"), ('\u03D6', str "\\varpi"),
   ('\u03F1', str "\\varrho"), ('\u03F5', str "\\varepsilon")]

/-- SUPERSCRIPTS mapping table, in source order. -/
def superscripts : List (Char × Str) :=
  [('\u2070', str "^0"), ('\u00B9', str "^1"), ('\u00B2', str "^2"), ('\u00B3', str "^3"),
   ('\u2074', str "^4"), ('\u2075', str "^5"), ('\u2076', str "^6"), ('\u2077', str "^7"),
   ('\u2078', str "^8"), ('\u2079', str "^9"), ('\u207A', str "^+"), ('\u207B', str "^-"),
   ('\u207C', str "^="), ('\u207D', str "^("), ('\u207E', str "^)"), ('\u207F', str "^n"),
   ('\u2071', str "^i")]

/-- SUBSCRIPTS mapping table, in source order. -/
def subscripts : List (Char × Str) :=
  [('\u2080', str "_0"), ('\u2081', str "_1"), ('\u2082', str "_2"), ('\u2083', str "_3"),
   ('\u2084', str "_4"), ('\u2085', str "_5"), ('\u2086', str "_6"), ('\u2087', str "_7"),
   ('\u2088', str "_8"), ('\u2089', str "_9"), ('\u208A', str "_+"), ('\u208B', str "_-"),
   ('\u208C', str "_="), ('\u208D', str "_("), ('\u208E', str "_)"),
   ('\u2090', str "_a"), ('\u2091', str "_e"), ('\u2092', str "_o"), ('\u2093', str "_x"),
   ('\u2095', str "_h"), ('\u2096', str "_k"), ('\u2097', str "_l"), ('\u2098', str "_m"),
   ('\u2099', str "_n"), ('\u209A', str "_p"), ('\u209B', str "_s"), ('\u209C', str "_t")]

/-- MATH_SYMBOLS mapping table, in source order. -/
def mathSymbols : List (Char × Str) :=
  [('\u2260', str "\\neq"), ('\u2264', str "\\leq"), ('\u2265', str "\\geq"),
   ('\u226A', str "\\ll"), ('\u226B', str "\\gg"), ('\u2248', str "\\approx"),
   ('\u2261', str "\\equiv"), ('\u223C', str "\\sim"), ('\u2245', str "\\cong"),
   ('\u221D', str "\\propto"),
   ('\u00D7', str "\\times"), ('\u00F7', str "\\div"), ('\u00B1', str "\\pm"),
   ('\u2213', str "\\mp"), ('\u22C5', str "\\cdot"), ('\u2217', str "\\ast"),
   ('\u2218', str "\\circ"),
   ('\u2208', str "\\in"), ('\u2209', str "\\notin"), ('\u220B', str "\\ni"),
   ('\u2282', str "\\subset"), ('\u2283', str "\\supset"), ('\u2286', str "\\subseteq"),
   ('\u2287', str "\\supseteq"), ('\u222A', str "\\cup"), ('\u2229', str "\\cap"),
   ('\u2205', str "\\emptyset"),
   ('\u2227', str "\\land"), ('\u2228', str "\\lor"), ('\u00AC', str "\\neg"),
   ('\u21D2', str "\\Rightarrow"), ('\u21D0', str "\\Leftarrow"),
   ('\u21D4', str "\\Leftrightarrow"), ('\u2200', str "\\forall"),
   ('\u2203', str "\\exists"), ('\u2204', str "\\nexists"),
   ('\u2202', str "\\partial"), ('\u221E', str "\\infty"), ('\u2207', str "\\nabla"),
   ('\u222B', str "\\int"), ('\u222C', str "\\iint"), ('\u222D', str "\\iiint"),
   ('\u222E', str "\\oint"), ('\u2211', str "\\sum"), ('\u220F', str "\\prod"),
   ('\u2210', str "\\coprod"),
   ('\u221A', str "\\sqrt"), ('\u221B', str "\\sqrt[3]"), ('\u221C', str "\\sqrt[4]"),
   ('\u2192', str "\\rightarrow"), ('\u2190', str "\\leftarrow"),
   ('\u2194', str "\\leftrightarrow"), ('\u2191', str "\\uparrow"),
   ('\u2193', str "\\downarrow"), ('\u21A6', str "\\mapsto"),
   ('\u2032', str "\x27"), ('\u2033', str "\x27\x27"), ('\u2034', str "\x27\x27\x27"),
   ('\u00B0', str "^\\circ"), ('\u2126', str "\\Omega"), ('\u212B', str "\\text\x7b\\AA\x7d"),
   ('\u210F', str "\\hbar"), ('\u2113', str "\\ell"), ('\u211C', str "\\Re"),
   ('\u2111', str "\\Im"), ('\u2135', str "\\aleph"),
   ('\u27E8', str "\\langle"), ('\u27E9', str "\\rangle"), ('\u2308', str "\\lceil"),
   ('\u2309', str "\\rceil"), ('\u230A', str "\\lfloor"), ('\u230B', str "\\rfloor"),
   ('\u22EF', str "\\cdots"), ('\u22EE', str "\\vdots"), ('\u22F1', str "\\ddots"),
   ('\u2026', str "\\ldots")]

/-- Lookup in one of the mapping tables. -/
def lookupTable (t : List (Char × Str)) (c : Char) : Option Str :=
  (t.find? (fun e => e.1 = c)).map (fun e => e.2)

/-- Keys of the four mapping tables (the alternation built by
findInlineMathSpans). -/
def mathKeys : Str :=
  greekLetters.map (fun e => e.1) ++ superscripts.map (fun e => e.1) ++
  subscripts.map (fun e => e.1) ++ mathSymbols.map (fun e => e.1)

/-- STRONG_MATH_INDICATORS membership: the table keys plus caret and
underscore. -/
def isStrongMath (c : Char) : Bool := mathKeys.contains c || c = '^' || c = '_'

/-- WEAK_MATH_INDICATORS membership. -/
def isWeakMath (c : Char) : Bool := c = '=' || c = '+' || c = '*'

-- =============================================================================
-- Math module: calculateMathDensity (claim C5) and its pattern tests
-- =============================================================================

/-- Head match of the numeric-fraction pattern (one or more digits,
optional whitespace, slash, optional whitespace, one or more digits). -/
def fracFrom (s : Str) : Bool :=
  let ds := s.takeWhile isDigitCh
  if ds = [] then false
  else
    match (s.dropWhile isDigitCh).dropWhile jsSpace with
    | '/' :: r =>
      match r.dropWhile jsSpace with
      | d :: _ => isDigitCh d
      | [] => false
    | _ => false

/-- Test of the fraction pattern anywhere in the string. -/
def fracTest (s : Str) : Bool := scanAny fracFrom s

/-- Character class of the subscript and superscript code-point ranges used
by the variable-with-scripts pattern. -/
def isSubSupCh (c : Char) : Bool :=
  ('\u2080' ≤ c && c ≤ '\u209C') || ('\u2070' ≤ c && c ≤ '\u207F')

/-- Test of an ASCII letter immediately followed by a subscript or
superscript character. -/
def letterSubSupTest : Str → Bool
  | a :: b :: rest => (isAsciiLetter a && isSubSupCh b) || letterSubSupTest (b :: rest)
  | _ => false

/-- Head match of a single-letter equation pattern: a letter, optional
whitespace, an equals sign, then a next character other than an equals sign
(the trailing negated class may also match whitespace after backtracking,
so only the character directly after the equals sign is constrained). -/
def eqFrom : Str → Bool
  | c :: rest =>
    isAsciiLetter c &&
      (match rest.dropWhile jsSpace with
       | '=' :: r =>
         match r with
         | d :: _ => d ≠ '='
         | [] => false
       | _ => false)
  | [] => false

/-- Test of the equation pattern anchored at the start or after a
whitespace character. -/
def eqTest (s : Str) : Bool :=
  eqFrom s ||
  scanAny (fun t =>
    match t with
    | c :: rest => jsSpace c && eqFrom rest
    | [] => false) s

/-- Test of the square-root pattern alternation. -/
def sqrtTest (s : Str) : Bool :=
  hasSubstr (str "sqrt") s || hasSubstr (str "\\sqrt") s || s.contains '\u221A'

/-- Test of the summation-or-integral pattern alternation. -/
def sumIntTest (s : Str) : Bool :=
  hasSubstr (str "sum") s || hasSubstr (str "\\sum") s || s.contains '\u2211' ||
  hasSubstr (str "int") s || hasSubstr (str "\\int") s || s.contains '\u222B'

/-- Model of calculateMathDensity from textTransforms.ts. -/
def calculateMathDensity (s : Str) : ℚ :=
  if s.length = 0 then 0
  else
    let strong := s.countP isStrongMath
    let weak := s.countP (fun c => !(isStrongMath c) && isWeakMath c)
    let mathCharCount : ℚ :=
      if strong > 0 then (strong : ℚ) + (weak : ℚ) * 0.3 else (strong : ℚ)
    let patternBonus : ℚ :=
      if strong > 0 then
        (if fracTest s then 0.05 else 0) +
        (if letterSubSupTest s then 0.15 else 0) +
        (if eqTest s then 0.1 else 0) +
        (if sqrtTest s then 0.15 else 0) +
        (if sumIntTest s then 0.2 else 0)
      else 0
    min 1 (mathCharCount / (s.length : ℚ) + patternBonus)

-- =============================================================================
-- Math module: prose detection and display-math predicate
-- =============================================================================

/-- Word alternation of the prose-words boundary test in looksLikeProse, in
source order. -/
def proseIndicatorWords : List Str :=
  [str "the", str "a", str "an", str "is", str "are", str "was", str "were", str "has",
   str "have", str "had", str "to", str "of", str "in", str "for", str "on", str "with",
   str "at", str "by", str "from", str "that", str "this", str "and", str "or", str "but"]

/-- Case-insensitive whole-word match at the head of s (the trailing word
boundary requires the next character, if any, to be a non-word character). -/
def wordHereCI (w : Str) (s : Str) : Bool :=
  ciBegins w s &&
    (match s.drop w.length with
     | [] => true
     | d :: _ => !(isWordCh d))

/-- Scan for a boundary-delimited occurrence of one of the words, carrying
the previous character to decide the leading word boundary. -/
def hasProseWordFrom (ws : List Str) : Option Char → Str → Bool
  | _, [] => false
  | prev, c :: rest =>
    ((match prev with
      | none => true
      | some p => !(isWordCh p)) &&
      ws.any (fun w => wordHereCI w (c :: rest))) ||
    hasProseWordFrom ws (some c) rest

/-- Test of the case-insensitive boundary-delimited prose-word alternation. -/
def hasProseWord (ws : List Str) (s : Str) : Bool := hasProseWordFrom ws none s

/-- Model of looksLikeProse from textTransforms.ts. -/
def looksLikeProse (s : Str) : Bool :=
  let trimmed := trim s
  if trimmed.length < 20 then false
  else
    let words := splitRunsMin jsSpace 1 trimmed
    if words.length < 5 then false
    else
      let endsWithPunct :=
        match trimmed.getLast? with
        | some c => c = '.' || c = '!' || c = '?'
        | none => false
      let proseWordsFound := hasProseWord proseIndicatorWords trimmed
      let avgWordLength : ℚ :=
        ((trimmed.filter (fun c => !(jsSpace c))).length : ℚ) / (words.length : ℚ)
      let hasLongWords := avgWordLength > 4
      let proseScore : Nat :=
        (if endsWithPunct then 1 else 0) + (if proseWordsFound then 1 else 0) +
        (if hasLongWords then 1 else 0) + (if words.length > 10 then 1 else 0)
      proseScore ≥ 2

/-- Equation-relation operators of the display-math predicate. -/
def eqOpChars : Str :=
  ['=', '\u2264', '\u2265', '\u2260', '\u2248', '\u2243', '\u21D2', '\u2192',
   '\u21D4', '\u21A6', '\u221D']

/-- Environment names of the display-environment pattern. -/
def latexEnvNames : List Str :=
  [str "equation", str "align", str "gather", str "multline", str "eqnarray",
   str "displaymath"]

/-- Test of the display-environment pattern: a begin command, one of the
environment names, an optional star, and a closing brace. -/
def latexEnvTest (s : Str) : Bool :=
  scanAny (fun t =>
    beginsWith (str "\\begin\x7b") t &&
    latexEnvNames.any (fun nm =>
      beginsWith nm (t.drop 7) &&
        (beginsWith (str "\x7d") (t.drop (7 + nm.length)) ||
         beginsWith (str "*\x7d") (t.drop (7 + nm.length))))) s

/-- Suffix test. -/
def endsWith (pat s : Str) : Bool := beginsWith pat.reverse s.reverse

/-- Model of isDisplayMath from textTransforms.ts. -/
def isDisplayMath (s : Str) : Bool :=
  let trimmed := trim s
  if beginsWith (str "$$") trimmed && endsWith (str "$$") trimmed then true
  else if beginsWith (str "\\[") trimmed && endsWith (str "\\]") trimmed then true
  else if latexEnvTest trimmed then true
  else if trimmed.contains '\n' && calculateMathDensity trimmed > 0.35 then true
  else
    let density := calculateMathDensity trimmed
    if trimmed.length < 200 ∧ density > 0.4 then
      let hasEquationOperator := trimmed.any (fun c => eqOpChars.contains c)
      let hasIntegral :=
        trimmed.contains '\u222B' || ciSubstr (str "\\int") trimmed ||
        ciSubstr (str "integral") trimmed
      let hasSummation :=
        trimmed.contains '\u2211' || ciSubstr (str "\\sum") trimmed ||
        ciSubstr (str "summation") trimmed
      let hasMatrix := ciSubstr (str "matrix") trimmed || ciSubstr (str "\\begin\x7b") trimmed
      let hasFraction :=
        hasSubstr (str "\\frac") trimmed || hasSubstr (str "\\dfrac") trimmed ||
        hasSubstr (str "\\tfrac") trimmed
      hasEquationOperator || hasIntegral || hasSummation || hasMatrix || hasFraction
    else false

-- =============================================================================
-- Math module: unicodeToLatex, normalizeLatex, wrapMathDelimiters
-- =============================================================================

/-- Replace every occurrence of one character by a replacement string
(JavaScript String.prototype.replaceAll with a single-character needle). -/
def replaceAllCh (k : Char) (repl : Str) (s : Str) : Str :=
  s.flatMap (fun c => if c = k then repl else [c])

/-- Character class of the superscript-run grouping regex. -/
def isSupCls (c : Char) : Bool :=
  c = '\u2070' || c = '\u00B9' || c = '\u00B2' || c = '\u00B3' ||
  ('\u2074' ≤ c && c ≤ '\u207F') || c = '\u2071'

/-- Character class of the subscript-run grouping regex. -/
def isSubCls (c : Char) : Bool := '\u2080' ≤ c && c ≤ '\u209C'

/-- Replace each maximal run of script characters by the mark, an opening
brace, the per-character mapped bodies (each mapping value with its leading
mark removed), and a closing brace. -/
def groupRunsAux (cls : Char → Bool) (table : List (Char × Str)) (mark : Char) :
    Str → Bool → Str
  | [], inRun => if inRun then ['\x7d'] else []
  | c :: rest, inRun =>
    if cls c then
      let m :=
        match lookupTable table c with
        | some v => v.drop 1
        | none => []
      if inRun then m ++ groupRunsAux cls table mark rest true
      else mark :: '\x7b' :: (m ++ groupRunsAux cls table mark rest true)
    else
      if inRun then '\x7d' :: c :: groupRunsAux cls table mark rest false
      else c :: groupRunsAux cls table mark rest false

/-- Model of unicodeToLatex from textTransforms.ts: Greek replaceAll folds,
grouped superscript and subscript replaces, symbol replaceAll folds, then
whitespace cleanup. -/
def unicodeToLatex (s : Str) : Str :=
  let s1 := greekLetters.foldl (fun acc e => replaceAllCh e.1 (e.2 ++ [' ']) acc) s
  let s2 := groupRunsAux isSupCls superscripts '^' s1 false
  let s3 := groupRunsAux isSubCls subscripts '_' s2 false
  let s4 := mathSymbols.foldl (fun acc e => replaceAllCh e.1 (e.2 ++ [' ']) acc) s3
  trim (collapseWs s4)

/-- Global regex replace driven by a head matcher giving the consumed length
and the replacement.  All matchers used consume at least one character; the
max with one only serves the termination argument. -/
def replaceScan (m : Str → Option (Nat × Str)) : Str → Str
  | [] => []
  | c :: rest =>
    match m (c :: rest) with
    | some (len, repl) => repl ++ replaceScan m ((c :: rest).drop (len.max 1))
    | none => c :: replaceScan m rest
termination_by s => s.length
decreasing_by
  · simp only [List.length_drop, List.length_cons]
    exact Nat.sub_lt (Nat.succ_pos _)
      (Nat.lt_of_lt_of_le Nat.zero_lt_one (Nat.le_max_right _ 1))
  · simp

/-- Head matcher of the operator-spacing replaces of normalizeLatex:
optional whitespace, the operator, optional whitespace, replaced by the
operator with single surrounding spaces. -/
def spacedOpMatcher (op : Char) (s : Str) : Option (Nat × Str) :=
  let run := s.takeWhile jsSpace
  match s.drop run.length with
  | c :: r =>
    if c = op then some (run.length + 1 + (r.takeWhile jsSpace).length, [' ', op, ' '])
    else none
  | [] => none

/-- Head matcher of the fraction replace of normalizeLatex: two digit
groups around a slash become a frac command. -/
def fracMatcher (s : Str) : Option (Nat × Str) :=
  let d1 := s.takeWhile isDigitCh
  if d1 = [] then none
  else
    let r1 := s.drop d1.length
    let sp1 := r1.takeWhile jsSpace
    match r1.drop sp1.length with
    | '/' :: r2 =>
      let sp2 := r2.takeWhile jsSpace
      let d2 := (r2.drop sp2.length).takeWhile isDigitCh
      if d2 = [] then none
      else some (d1.length + sp1.length + 1 + sp2.length + d2.length,
                 str "\\frac\x7b" ++ d1 ++ str "\x7d\x7b" ++ d2 ++ ['\x7d'])
    | _ => none

/-- Model of normalizeLatex from textTransforms.ts. -/
def normalizeLatex (s : Str) : Str :=
  let s1 := replaceScan (spacedOpMatcher '=') s
  let s2 := replaceScan (spacedOpMatcher '+') s1
  let s3 := replaceScan (spacedOpMatcher '-') s2
  let s4 := replaceScan fracMatcher s3
  trim (collapseWs s4)

/-- Model of wrapMathDelimiters from textTransforms.ts. -/
def wrapMathDelimiters (s : Str) (isDisplay : Bool) : Str :=
  let trimmed := trim s
  if beginsWith (str "$") trimmed || beginsWith (str "\\(") trimmed ||
     beginsWith (str "\\[") trimmed then trimmed
  else if isDisplay then str "$$\n" ++ trimmed ++ str "\n$$"
  else '$' :: (trimmed ++ ['$'])

-- =============================================================================
-- Math module: segmentation (claims C3 and C4)
-- =============================================================================

/-- MathSegment record from textTransforms.ts. -/
structure MathSegment where
  text : Str
  isMath : Bool
  isDisplay : Bool
  startIndex : Nat
  endIndex : Nat
deriving DecidableEq

/-- JavaScript String.prototype.slice with in-range indices. -/
def strSlice (s : Str) (a b : Nat) : Str := (s.take b).drop a

/-- Membership in the alternation of mapping-table keys used by
findInlineMathSpans. -/
def isMathKey (c : Char) : Bool := mathKeys.contains c

/-- Context character class of the inline-span regex: word characters,
whitespace, signs, comparisons, caret, underscore, braces and parens. -/
def isCtxCh (c : Char) : Bool :=
  isWordCh c || jsSpace c || c = '+' || c = '-' || c = '=' || c = '<' || c = '>' ||
  c = '^' || c = '_' || c = '\x7b' || c = '\x7d' || c = '(' || c = ')'

/-- Head match length of the inline-span regex: an optional word run, a
mapping-table key, a greedy context run, an optional further key with a
trailing word run.  The classes are pairwise disjoint where it matters, so
the greedy match is deterministic. -/
def inlineMatchLen (s : Str) : Option Nat :=
  let w1 := s.takeWhile isWordCh
  match s.drop w1.length with
  | c :: r =>
    if isMathKey c then
      let ctx := r.takeWhile isCtxCh
      let r2 := r.drop ctx.length
      let extra :=
        match r2 with
        | d :: r3 => if isMathKey d then 1 + (r3.takeWhile isWordCh).length else 0
        | [] => 0
      some (w1.length + 1 + ctx.length + extra)
    else none
  | [] => none

/-- Filter of findInlineMathSpans applied to the trimmed match text: long
matches, matches of many words, sentence-like matches, and low-density
matches are discarded. -/
def spanKeep (matchText : Str) : Bool :=
  if matchText.length > 80 then false
  else
    let ws := splitRunsMin jsSpace 1 matchText
    if ws.length > 6 then false
    else if (match matchText.getLast? with
             | some c => decide (c = '.')
             | none => false) && decide (ws.length > 2) then false
    else calculateMathDensity matchText ≥ 0.2

/-- Scan of the global inline-span regex over the string, collecting the
surviving spans with their absolute start and end positions. -/
def findSpansAux : Str → Nat → List (Nat × Nat × Str)
  | [], _ => []
  | c :: rest, pos =>
    match inlineMatchLen (c :: rest) with
    | some len =>
      let matchText := trim ((c :: rest).take len)
      (if spanKeep matchText then [(pos, pos + len, matchText)] else []) ++
      findSpansAux ((c :: rest).drop (len.max 1)) (pos + len.max 1)
    | none => findSpansAux rest (pos + 1)
termination_by s _ => s.length
decreasing_by
  · simp only [List.length_drop, List.length_cons]
    exact Nat.sub_lt (Nat.succ_pos _)
      (Nat.lt_of_lt_of_le Nat.zero_lt_one (Nat.le_max_right _ 1))
  · simp

/-- Merge loop of findInlineMathSpans: spans are folded in order, an
overlapping or abutting span extending the previous one (with its text
re-sliced from the original string). -/
def mergeSpansAux (orig : Str) :
    (Nat × Nat × Str) → List (Nat × Nat × Str) → List (Nat × Nat × Str)
  | cur, [] => [cur]
  | cur, sp :: more =>
    if sp.1 > cur.2.1 then cur :: mergeSpansAux orig sp more
    else
      let ne := max cur.2.1 sp.2.1
      mergeSpansAux orig (cur.1, ne, strSlice orig cur.1 ne) more

/-- Model of findInlineMathSpans from textTransforms.ts. -/
def findInlineMathSpans (s : Str) : List (Nat × Nat × Str) :=
  let spans := findSpansAux s 0
  let sorted := spans.mergeSort (fun a b => decide (a.1 ≤ b.1))
  match sorted with
  | [] => []
  | sp :: more => mergeSpansAux s sp more

/-- Segment construction of the inline-span branch of
detectMathInPlainText: alternating non-math gaps and math spans, with a
final non-math remainder. -/
def spanSegments (s : Str) (base : Nat) :
    List (Nat × Nat × Str) → Nat → List MathSegment
  | [], lastEnd =>
    if lastEnd < s.length then
      [⟨s.drop lastEnd, false, false, base + lastEnd, base + s.length⟩]
    else []
  | (st, en, _) :: more, lastEnd =>
    (if st > lastEnd then
      [⟨strSlice s lastEnd st, false, false, base + lastEnd, base + st⟩]
     else []) ++
    ⟨strSlice s st en, true, false, base + st, base + en⟩ :: spanSegments s base more en

/-- Non-math single segment covering the whole region. -/
def plainSegment (s : Str) (base : Nat) : List MathSegment :=
  [⟨s, false, false, base, base + s.length⟩]

/-- Common tail of detectMathInPlainText: the length-scaled density
threshold, the strong-indicator minimum for long text, and the whole-region
math segment. -/
def plainTail (s : Str) (base : Nat) (strongCount : Nat) (density : ℚ) :
    List MathSegment :=
  let lengthFactor : ℚ := min 1 ((s.length : ℚ) / 50)
  let requiredDensity : ℚ := 0.12 + lengthFactor * 0.13
  if density < requiredDensity then plainSegment s base
  else if s.length > 100 ∧ strongCount < 3 then plainSegment s base
  else [⟨s, true, isDisplayMath s, base, base + s.length⟩]

/-- Model of detectMathInPlainText from textTransforms.ts. -/
def detectMathInPlainText (s : Str) (base : Nat) : List MathSegment :=
  if trim s = [] then plainSegment s base
  else
    let strongCount := s.countP isStrongMath
    if strongCount = 0 then plainSegment s base
    else
      let density := calculateMathDensity s
      if looksLikeProse s then
        let inlineSpans := findInlineMathSpans s
        if inlineSpans ≠ [] ∧ density < 0.4 then spanSegments s base inlineSpans 0
        else if density < 0.4 then plainSegment s base
        else plainTail s base strongCount density
      else plainTail s base strongCount density

/-- First index at which pat begins within s. -/
def findSub (pat : Str) : Str → Option Nat
  | [] => if beginsWith pat [] then some 0 else none
  | c :: rest =>
    if beginsWith pat (c :: rest) then some 0
    else (findSub pat rest).map (fun j => j + 1)

/-- Head match of the double-dollar display alternative (lazy inner body of
at least one character). -/
def delimAlt1 (s : Str) : Option Nat :=
  if beginsWith (str "$$") s then (findSub (str "$$") (s.drop 3)).map (fun j => 5 + j)
  else none

/-- Head match of the single-dollar inline alternative (at least one
character, none a dollar or newline, then the closing dollar). -/
def delimAlt2 (s : Str) : Option Nat :=
  match s with
  | '$' :: rest =>
    let run := rest.takeWhile (fun c => c ≠ '$' && c ≠ '\n')
    if run ≠ [] ∧ beginsWith (str "$") (rest.drop run.length) then
      some (1 + run.length + 1)
    else none
  | _ => none

/-- Head match of the bracketed display alternative. -/
def delimAlt3 (s : Str) : Option Nat :=
  if beginsWith (str "\\[") s then (findSub (str "\\]") (s.drop 3)).map (fun j => 5 + j)
  else none

/-- Head match of the escaped-paren inline alternative.  The greedy body
excludes closing parens, so the match closes at the first closing paren,
which must be preceded by a backslash with a nonempty body before it. -/
def delimAlt4 (s : Str) : Option Nat :=
  if beginsWith (str "\\(") s then
    let run := (s.drop 2).takeWhile (fun c => c ≠ ')')
    if run.length ≥ 2 ∧ run.getLast? = some '\\' ∧
       beginsWith (str ")") ((s.drop 2).drop run.length) then
      some (2 + run.length + 1)
    else none
  else none

/-- Head match of the delimiter alternation of detectMathSegments, trying
the alternatives in source order. -/
def delimMatchLen (s : Str) : Option Nat :=
  match delimAlt1 s with
  | some n => some n
  | none =>
    match delimAlt2 s with
    | some n => some n
    | none =>
      match delimAlt3 s with
      | some n => some n
      | none => delimAlt4 s

/-- Leftmost delimiter match: offset of the first matching position and the
match length there. -/
def scanDelim : Str → Option (Nat × Nat)
  | [] => none
  | c :: rest =>
    match delimMatchLen (c :: rest) with
    | some len => some (0, len)
    | none => (scanDelim rest).map (fun p => (p.1 + 1, p.2))

/-- Loop of detectMathSegments: delimiter matches become math segments, the
plain regions between them are segmented by detectMathInPlainText. -/
def detectMathSegmentsAux : Str → Nat → List MathSegment
  | [], _ => []
  | c :: rest, base =>
    match scanDelim (c :: rest) with
    | none => detectMathInPlainText (c :: rest) base
    | some (off, len) =>
      let s := c :: rest
      let mathText := (s.drop off).take len
      let isDisp := beginsWith (str "$$") mathText || beginsWith (str "\\[") mathText
      (if off > 0 then detectMathInPlainText (s.take off) base else []) ++
      ⟨mathText, true, isDisp, base + off, base + off + len⟩ ::
      detectMathSegmentsAux (s.drop (off + len.max 1)) (base + off + len.max 1)
termination_by s _ => s.length
decreasing_by
  simp only [List.length_drop, List.length_cons]
  exact Nat.sub_lt (Nat.succ_pos _)
    (Nat.lt_of_lt_of_le Nat.zero_lt_one
      (Nat.le_trans (Nat.le_max_right _ 1) (Nat.le_add_left _ _)))

/-- Model of detectMathSegments from textTransforms.ts. -/
def detectMathSegments (s : Str) : List MathSegment := detectMathSegmentsAux s 0

/-- Model of processMathInText from textTransforms.ts. -/
def processMathInText (s : Str) : Str :=
  (detectMathSegments s).foldl (fun acc seg =>
    if seg.isMath then
      let trimmed := trim seg.text
      if beginsWith (str "$") trimmed || beginsWith (str "\\(") trimmed ||
         beginsWith (str "\\[") trimmed then acc ++ seg.text
      else acc ++ wrapMathDelimiters (normalizeLatex (unicodeToLatex seg.text)) seg.isDisplay
    else
      if seg.text.countP isStrongMath > 0 then acc ++ unicodeToLatex seg.text
      else acc ++ seg.text) []

-- =============================================================================
-- textTransforms.ts: garbled-math-font heuristic (claim C9)
-- =============================================================================

/-- Unicode replacement character test. -/
def isReplacementCh (c : Char) : Bool := c = '\uFFFD'

/-- Private-Use-Area character test. -/
def isPUA (c : Char) : Bool := '\uE000' ≤ c && c ≤ '\uF8FF'

/-- Count of non-overlapping leftmost matches of a head matcher (JavaScript
String.prototype.match with a global regex).  All matchers used consume at
least one character; the max with one only serves the termination
argument. -/
def countPat (m : Str → Option Nat) : Str → Nat
  | [] => 0
  | c :: rest =>
    match m (c :: rest) with
    | some len => 1 + countPat m ((c :: rest).drop (len.max 1))
    | none => countPat m rest
termination_by s => s.length
decreasing_by
  · simp only [List.length_drop, List.length_cons]
    exact Nat.sub_lt (Nat.succ_pos _)
      (Nat.lt_of_lt_of_le Nat.zero_lt_one (Nat.le_max_right _ 1))
  · simp

/-- Head match of the letter, replacement character, letter pattern. -/
def susp1 : Str → Option Nat
  | a :: b :: c :: _ =>
    if isAsciiLetter a && isReplacementCh b && isAsciiLetter c then some 3 else none
  | _ => none

/-- Head match of a run of at least two replacement characters (greedy). -/
def susp2 (s : Str) : Option Nat :=
  let run := s.takeWhile isReplacementCh
  if run.length ≥ 2 then some run.length else none

/-- Mathematical-operator block character. -/
def isMathOpBlock (c : Char) : Bool := '\u2200' ≤ c && c ≤ '\u22FF'

/-- Head match of a run of at least three operator-block characters
(greedy). -/
def susp3 (s : Str) : Option Nat :=
  let run := s.takeWhile isMathOpBlock
  if run.length ≥ 3 then some run.length else none

/-- Comparison-sign class of the garbled-subscript pattern. -/
def isAngleEq (c : Char) : Bool := c = '>' || c = '<' || c = '='

/-- Head match of the garbled-subscript pattern: comparison sign, optional
whitespace, letter, optional whitespace, comparison sign. -/
def susp4 : Str → Option Nat
  | c :: r =>
    if isAngleEq c then
      let sp1 := r.takeWhile jsSpace
      match r.drop sp1.length with
      | l :: r2 =>
        if isAsciiLetter l then
          let sp2 := r2.takeWhile jsSpace
          match r2.drop sp2.length with
          | e :: _ => if isAngleEq e then some (3 + sp1.length + sp2.length) else none
          | [] => none
        else none
      | [] => none
    else none
  | [] => none

/-- Head match of the letter, angle-or-at, optional whitespace, letter
pattern. -/
def susp5 : Str → Option Nat
  | a :: g :: r =>
    if isAsciiLetter a && (g = '>' || g = '@') then
      let sp := r.takeWhile jsSpace
      match r.drop sp.length with
      | l :: _ => if isAsciiLetter l then some (3 + sp.length) else none
      | [] => none
    else none
  | _ => none

/-- Body attempt of the garbled-parenthesis pattern with a fixed inner
length. -/
def susp6Try (r : Str) (k : Nat) : Option Nat :=
  if decide ((r.take k).length = k) && (r.take k).all (fun c => c ≠ ')') &&
     (match r.drop k with
      | f :: _ => isReplacementCh f
      | [] => false) then some (2 + k)
  else none

/-- Head match of the garbled-parenthesis pattern: an opening paren, up to
three non-closing characters (greedy, so longest first), then a replacement
character. -/
def susp6 : Str → Option Nat
  | '(' :: r =>
    match susp6Try r 3 with
    | some n => some n
    | none =>
      match susp6Try r 2 with
      | some n => some n
      | none =>
        match susp6Try r 1 with
        | some n => some n
        | none => susp6Try r 0
  | _ => none

/-- Total count over the six suspicious patterns of hasGarbledMathFont. -/
def suspiciousCount (s : Str) : Nat :=
  countPat susp1 s + countPat susp2 s + countPat susp3 s +
  countPat susp4 s + countPat susp5 s + countPat susp6 s

/-- Test of the math-structure-with-garbled-content pattern: a bracket,
operator or big-operator character, optional whitespace, then a replacement
or Private-Use-Area character. -/
def garbledStructureTest (s : Str) : Bool :=
  scanAny (fun t =>
    match t with
    | c :: r =>
      (c = '(' || c = ')' || c = '=' || c = '+' || c = '-' || c = '*' || c = '/' ||
       c = '\u2211' || c = '\u222B') &&
      (match r.drop (r.takeWhile jsSpace).length with
       | d :: _ => isReplacementCh d || isPUA d
       | [] => false)
    | [] => false) s

/-- Model of hasGarbledMathFont from textTransforms.ts. -/
def hasGarbledMathFont (s : Str) : Bool :=
  if s.countP isReplacementCh ≥ 3 then true
  else if s.countP isPUA ≥ 2 then true
  else if suspiciousCount s ≥ 3 then true
  else garbledStructureTest s

/-- Result record of shouldRecommendVisionAI. -/
structure VisionRecommendation where
  recommend : Bool
  reason : Option Str
  garbledPercentage : Option ℚ
deriving DecidableEq

/-- Head match of the angle-or-at and letter alternation counted when
estimating the garbled percentage, trying the alternatives in source
order. -/
def visionSusp : Str → Option Nat
  | c :: r =>
    if c = '>' || c = '@' then
      let sp := r.takeWhile jsSpace
      match r.drop sp.length with
      | l :: _ => if isAsciiLetter l then some (2 + sp.length) else none
      | [] => none
    else if isAsciiLetter c then
      let sp := r.takeWhile jsSpace
      match r.drop sp.length with
      | g :: _ => if g = '>' || g = '@' then some (2 + sp.length) else none
      | [] => none
    else none
  | [] => none

/-- JavaScript Math.round (half toward positive infinity). -/
def jsRound (q : ℚ) : ℤ := Int.floor (q + 1 / 2)

/-- Reason string of the garbled-font recommendation. -/
def garbledReasonText : Str :=
  str "Detected embedded math fonts that cannot be properly extracted. Vision AI can read equations visually."

/-- Test of the LaTeX-command pattern of the already-has-math check. -/
def latexCmdTest (s : Str) : Bool :=
  [str "\\alpha", str "\\beta", str "\\gamma", str "\\theta",
   str "\\sum", str "\\int", str "\\frac", str "\\sqrt"].any (fun p => ciSubstr p s)

/-- Test of the dollar-delimited-math pattern of the already-has-math
check. -/
def dollarDelimTest (s : Str) : Bool :=
  scanAny (fun t =>
    match t with
    | '$' :: r =>
      let run := r.takeWhile (fun c => c ≠ '$')
      run ≠ [] && beginsWith (str "$") (r.drop run.length)
    | _ => false) s

/-- Test of the LaTeX-environment pattern of the already-has-math check. -/
def latexEnvStartTest (s : Str) : Bool :=
  ciSubstr (str "\\begin\x7bequation") s || ciSubstr (str "\\begin\x7balign") s

/-- Test of any of the three math-document patterns. -/
def mathDocTest (s : Str) : Bool :=
  latexCmdTest s || dollarDelimTest s || latexEnvStartTest s

/-- Model of shouldRecommendVisionAI from textTransforms.ts. -/
def shouldRecommendVisionAI (s : Str) : VisionRecommendation :=
  if s.length < 50 then ⟨false, none, none⟩
  else if hasGarbledMathFont s then
    let totalChars := s.length
    let garbledChars := s.countP (fun c => isReplacementCh c || isPUA c)
    let suspicious := countPat visionSusp s
    let garbledPct : ℚ := ((garbledChars : ℚ) + (suspicious : ℚ) * 2) / (totalChars : ℚ) * 100
    if garbledPct > 1 ∨ garbledChars > 5 then
      ⟨true, some garbledReasonText, some ((jsRound (garbledPct * 10) : ℚ) / 10)⟩
    else if mathDocTest s then ⟨false, none, none⟩
    else ⟨false, none, none⟩
  else if mathDocTest s then ⟨false, none, none⟩
  else ⟨false, none, none⟩

-- =============================================================================
-- layoutAnalyzer.ts: data model
-- =============================================================================

/-- PositionedChar record from layoutAnalyzer.ts. -/
structure PositionedChar where
  char : Char
  x : ℚ
  y : ℚ
  fontSize : ℚ
deriving DecidableEq

/-- PositionedLine record from layoutAnalyzer.ts. -/
structure PositionedLine where
  chars : List PositionedChar
  y : ℚ
  minX : ℚ
  maxX : ℚ
  text : Str
  avgFontSize : ℚ
deriving DecidableEq

/-- Bounding box. -/
structure BBox where
  x : ℚ
  y : ℚ
  w : ℚ
  h : ℚ
deriving DecidableEq

/-- TextBlock record from layoutAnalyzer.ts. -/
structure TextBlock where
  lines : List PositionedLine
  bbox : BBox
  text : Str
  avgFontSize : ℚ
deriving DecidableEq

/-- RegionType union from layoutAnalyzer.ts. -/
inductive RegionType where
  | prose
  | proseColumn
  | potentialTable
  | heading
  | list
  | code
  | unknown
deriving DecidableEq

/-- PageColumn record from layoutAnalyzer.ts. -/
structure PageColumn where
  x : ℚ
  width : ℚ
  blocks : List TextBlock
deriving DecidableEq

/-- ClassifiedRegion record from layoutAnalyzer.ts. -/
structure ClassifiedRegion where
  type : RegionType
  blocks : List TextBlock
  bbox : BBox
  confidence : ℚ
  columnIndex : Option Nat
deriving DecidableEq

/-- PageLayout record from layoutAnalyzer.ts. -/
structure PageLayout where
  columns : List PageColumn
  regions : List ClassifiedRegion
  isMultiColumn : Bool
  pageWidth : ℚ
  pageHeight : ℚ
deriving DecidableEq

/-- Horizontal center of a line. -/
def lineCenter (l : PositionedLine) : ℚ := (l.minX + l.maxX) / 2

/-- Minimum of a list of rationals (blocks are never empty when this is
used). -/
def minOfQ : List ℚ → ℚ
  | [] => 0
  | x :: xs => xs.foldl min x

/-- Maximum of a list of rationals. -/
def maxOfQ : List ℚ → ℚ
  | [] => 0
  | x :: xs => xs.foldl max x

/-- Model of createBlock from layoutAnalyzer.ts. -/
def createBlock (lines : List PositionedLine) : TextBlock :=
  let minX := minOfQ (lines.map (fun l => l.minX))
  let maxX := maxOfQ (lines.map (fun l => l.maxX))
  let minY := minOfQ (lines.map (fun l => l.y))
  let maxY := maxOfQ (lines.map (fun l => l.y))
  let avgFontSize := ((lines.map (fun l => l.avgFontSize)).foldl (· + ·) 0) / (lines.length : ℚ)
  { lines := lines,
    bbox := ⟨minX, minY, maxX - minX, maxY - minY + avgFontSize⟩,
    text := List.intercalate ['\n'] (lines.map (fun l => l.text)),
    avgFontSize := avgFontSize }

/-- Grouping loop of groupLinesIntoBlocks: the gap of each line to the
previous line in sorted order is compared against two and a half times
their mean font size. -/
def groupLinesAux :
    PositionedLine → List PositionedLine → List PositionedLine →
    List (List PositionedLine)
  | _, acc, [] => [acc.reverse]
  | prev, acc, curr :: rest =>
    if curr.y - prev.y > (prev.avgFontSize + curr.avgFontSize) / 2 * 2.5 then
      acc.reverse :: groupLinesAux curr [curr] rest
    else groupLinesAux curr (curr :: acc) rest

/-- Model of groupLinesIntoBlocks from layoutAnalyzer.ts. -/
def groupLinesIntoBlocks (lines : List PositionedLine) (_pageHeight : ℚ) : List TextBlock :=
  match lines.mergeSort (fun a b => decide (a.y ≤ b.y)) with
  | [] => []
  | first :: rest => (groupLinesAux first [first] rest).map createBlock

-- =============================================================================
-- layoutAnalyzer.ts: column detection (claim C6)
-- =============================================================================

/-- Value of one histogram bin: the number of lines whose bin range covers
it (the source increments every bin from the start bin to the end bin,
clamping the end bin at the last bin; increments at negative indices fall
outside the array and are dropped, which the range intersection
reproduces). -/
def histBin (lines : List PositionedLine) (binWidth : ℚ) (i : Nat) : Nat :=
  lines.countP (fun line =>
    decide (Int.floor (line.minX / binWidth) ≤ (i : ℤ)) &&
    decide ((i : ℤ) ≤ min 49 (Int.floor (line.maxX / binWidth))))

/-- The fifty-bin coverage histogram of detectPageColumns. -/
def pageHistogram (lines : List PositionedLine) (binWidth : ℚ) : List Nat :=
  (List.range 50).map (histBin lines binWidth)

/-- One step of the gap-run scan, processing bin i with count h: entering a
gap records its start, leaving a gap emits its center when the run is wider
than three percent of the page. -/
def gapStep (binWidth pageWidth threshold : ℚ)
    (st : List ℚ × Option Nat) (ih : Nat × Nat) : List ℚ × Option Nat :=
  if (ih.2 : ℚ) < threshold then
    match st.2 with
    | none => (st.1, some ih.1)
    | some gs => (st.1, some gs)
  else
    match st.2 with
    | some gs =>
      let gapCenter := (((gs : ℚ) + (ih.1 : ℚ)) / 2) * binWidth
      let gapWidth := ((ih.1 : ℚ) - (gs : ℚ)) * binWidth
      (if gapWidth > pageWidth * 0.03 then st.1 ++ [gapCenter] else st.1, none)
    | none => (st.1, none)

/-- Gap centers of a page (a trailing gap run is never emitted, as in the
source loop). -/
def pageGaps (lines : List PositionedLine) (binWidth pageWidth : ℚ) : List ℚ :=
  let hist := pageHistogram lines binWidth
  let avgDensity : ℚ := ((hist.foldl (· + ·) 0 : ℕ) : ℚ) / 50
  let threshold := avgDensity * 0.2
  (hist.enum.foldl (gapStep binWidth pageWidth threshold) ([], none)).1

/-- Consecutive pairs of a list (the column boundaries walked pairwise). -/
def consecPairs : List ℚ → List (ℚ × ℚ)
  | a :: b :: rest => (a, b) :: consecPairs (b :: rest)
  | _ => []

/-- Column construction of detectPageColumns: boundary slices narrower than
a fifth of the page or holding no line center are dropped. -/
def columnsFromGaps (lines : List PositionedLine) (pageWidth pageHeight : ℚ)
    (gaps : List ℚ) : List PageColumn :=
  (consecPairs (0 :: (gaps ++ [pageWidth]))).filterMap (fun p =>
    let colLeft := p.1
    let colRight := p.2
    let colWidth := colRight - colLeft
    if colWidth < pageWidth * 0.20 then none
    else
      let colLines := lines.filter (fun line =>
        decide (colLeft ≤ lineCenter line) && decide (lineCenter line < colRight))
      if colLines = [] then none
      else some ⟨colLeft, colWidth, groupLinesIntoBlocks colLines pageHeight⟩)

/-- Model of detectPageColumns from layoutAnalyzer.ts. -/
def detectPageColumns (lines : List PositionedLine) (pageWidth pageHeight : ℚ) :
    List PageColumn :=
  if lines = [] then []
  else
    let binWidth := pageWidth / 50
    let gaps := pageGaps lines binWidth pageWidth
    let columns := columnsFromGaps lines pageWidth pageHeight gaps
    if columns = [] then [⟨0, pageWidth, groupLinesIntoBlocks lines pageHeight⟩]
    else columns

/-- All lines of a column, through its blocks. -/
def columnLines (c : PageColumn) : List PositionedLine :=
  c.blocks.flatMap (fun b => b.lines)

-- =============================================================================
-- layoutAnalyzer.ts: block classification (claim C1)
-- =============================================================================

/-- Model of isHeadingBlock from layoutAnalyzer.ts. -/
def isHeadingBlock (block : TextBlock) (_pageWidth : ℚ) : Bool :=
  if block.lines.length > 3 then false
  else if block.text.length > 200 then false
  else
    let trimmed := trim block.text
    if ((match trimmed.getLast? with
         | some c => c = '.' || c = '!' || c = '?'
         | none => false) : Bool) && decide (block.text.length > 50) then false
    else if decide (block.text.length < 100) &&
      !(trimmed.any (fun c =>
          c = '.' || c = '!' || c = '?' || c = ',' || c = ';' || c = ':')) then true
    else false

/-- Bullet-glyph class of the list-line pattern in layoutAnalyzer.ts (the
literal glyphs and the escaped code points of the class, duplicates
included). -/
def layoutBulletClass (c : Char) : Bool :=
  c = '-' || c = '•' || c = '●' || c = '○' || c = '◦' ||
  c = '▪' || c = '▸' || c = '►' || c = '◆' || c = '✓' ||
  c = '✗' || c = '★' || c = '☆' || c = '‣' || c = '⁃' ||
  c = '∙'

/-- Test of the bullet-start pattern: optional whitespace then a bullet
glyph. -/
def lineIsBulletStart (s : Str) : Bool :=
  match s.dropWhile jsSpace with
  | c :: _ => layoutBulletClass c
  | [] => false

/-- Test of the numbered-list pattern: optional whitespace, digits, a dot
or closing paren, then a whitespace character. -/
def lineIsNumberStart (s : Str) : Bool :=
  let t := s.dropWhile jsSpace
  match t with
  | c :: _ =>
    if isDigitCh c then
      let ds := t.takeWhile isDigitCh
      match t.drop ds.length with
      | p :: q :: _ => (p = '.' || p = ')') && jsSpace q
      | _ => false
    else false
  | [] => false

/-- Model of isListBlock from layoutAnalyzer.ts. -/
def isListBlock (block : TextBlock) : Bool :=
  let listLineCount := block.lines.countP (fun line =>
    lineIsBulletStart line.text || lineIsNumberStart line.text)
  decide ((listLineCount : ℚ) ≥ (block.lines.length : ℚ) * 0.6)

/-- Keyword alternation of the code-line pattern. -/
def codeKeywords : List Str :=
  [str "if", str "else", str "for", str "while", str "return",
   str "function", str "def", str "class", str "import", str "from"]

/-- Test whether one line matches any of the six code patterns of
isCodeBlock. -/
def codeLineTest (s : Str) : Bool :=
  -- a lone bracket surrounded only by whitespace
  ((match s.dropWhile jsSpace with
    | c :: r =>
      (c = '\x7b' || c = '\x7d' || c = '(' || c = ')' || c = '[' || c = ']' ||
       c = '<' || c = '>') && r.all jsSpace
    | [] => false) : Bool) ||
  -- a leading keyword at a word boundary
  (let t := s.dropWhile jsSpace
   codeKeywords.any (fun kw =>
     beginsWith kw t &&
       (match t.drop kw.length with
        | [] => true
        | d :: _ => !(isWordCh d)))) ||
  -- a trailing brace or semicolon
  ((match s.getLast? with
    | some c => c = '\x7b' || c = '\x7d' || c = ';'
    | none => false) : Bool) ||
  -- at least four leading whitespace characters
  decide ((s.takeWhile jsSpace).length ≥ 4) ||
  -- a function-call pattern
  scanAny (fun t =>
    match t with
    | c :: r =>
      (isAsciiLetter c || c = '_') &&
      (match (r.dropWhile isWordCh).dropWhile jsSpace with
       | '(' :: _ => true
       | _ => false)
    | [] => false) s ||
  -- an assignment pattern (the char after the equals sign must differ from it)
  scanAny (fun t =>
    match t with
    | c :: r =>
      (isAsciiLetter c || c = '_') &&
      (match (r.dropWhile isWordCh).dropWhile jsSpace with
       | '=' :: d :: _ => d ≠ '='
       | _ => false)
    | [] => false) s

/-- Model of isCodeBlock from layoutAnalyzer.ts. -/
def isCodeBlock (block : TextBlock) : Bool :=
  let codeLineCount := block.lines.countP (fun line => codeLineTest line.text)
  decide ((codeLineCount : ℚ) ≥ (block.lines.length : ℚ) * 0.5)

/-- Function-word list of calculateProseScore, in source order. -/
def proseWordsLayout : List Str :=
  [str "the", str "a", str "an", str "is", str "are", str "was", str "were",
   str "be", str "been", str "have", str "has", str "had", str "do", str "does",
   str "did", str "will", str "would", str "could", str "should", str "may",
   str "might", str "must", str "shall", str "can", str "to", str "of", str "in",
   str "for", str "on", str "with", str "at", str "by", str "from", str "as",
   str "into", str "through", str "during", str "before", str "after", str "and",
   str "but", str "or", str "nor", str "so", str "yet", str "both", str "either",
   str "neither", str "not", str "only", str "also", str "just", str "than",
   str "then", str "now", str "here", str "there", str "this", str "that",
   str "these", str "those", str "it", str "its", str "they", str "their",
   str "them", str "he", str "she", str "his", str "her", str "we", str "our",
   str "you", str "your", str "who", str "which", str "what"]

/-- Closer class of the line-final punctuation pattern (whitespace, quotes,
closing paren, closing bracket). -/
def isCloserCh (c : Char) : Bool :=
  jsSpace c || c = '"' || c = '\x27' || c = ')' || c = ']'

/-- Test of the line-final punctuation pattern: after stripping trailing
closers, the line ends with sentence punctuation. -/
def linePunctEnd (s : Str) : Bool :=
  match s.reverse.dropWhile isCloserCh with
  | c :: _ => c = '.' || c = '!' || c = '?' || c = ',' || c = ';' || c = ':'
  | [] => false

/-- Model of calculateProseScore from layoutAnalyzer.ts. -/
def calculateProseScore (block : TextBlock) : ℚ :=
  let text := block.text
  let words := (splitRunsMin jsSpace 1 text).filter (fun w => w.length > 0)
  if words.length = 0 then 0
  else
    let sentences := (splitRunsMin (fun c => c = '.' || c = '!' || c = '?') 1 text).filter
      (fun x => (trim x).length > 0)
    let avgWordsPerSentence : ℚ := (words.length : ℚ) / ((max 1 sentences.length : ℕ) : ℚ)
    let score1 : ℚ := if avgWordsPerSentence ≥ 5 ∧ avgWordsPerSentence ≤ 30 then 0.25 else 0
    let lowerWords := words.map (fun w => (lowerStr w).filter (fun c => 'a' ≤ c && c ≤ 'z'))
    let proseWordCount := (lowerWords.filter (fun w => proseWordsLayout.contains w)).length
    let proseWordFrac : ℚ := (proseWordCount : ℚ) / (words.length : ℚ)
    let score2 : ℚ :=
      (if proseWordFrac > 0.15 then 0.25 else 0) + (if proseWordFrac > 0.25 then 0.15 else 0)
    let punctuatedLines := block.lines.countP (fun line => linePunctEnd (trim line.text))
    let score3 : ℚ :=
      if (punctuatedLines : ℚ) > (block.lines.length : ℚ) * 0.3 then 0.2 else 0
    let awl : ℚ :=
      (((words.map (fun w => w.length)).foldl (· + ·) 0 : ℕ) : ℚ) / (words.length : ℚ)
    let score4 : ℚ := if awl ≥ 4 ∧ awl ≤ 8 then 0.15 else 0
    min 1 (score1 + score2 + score3 + score4)

/-- Cells of a line for the table score: split on runs of two or more
whitespace characters, dropping blank cells. -/
def cellsOfLine (s : Str) : List Str :=
  (splitRunsMin jsSpace 2 s).filter (fun c => (trim c).length > 0)

/-- Character class of the purely numeric cell pattern of the table
score. -/
def numericCellCh (c : Char) : Bool :=
  isDigitCh c || c = '$' || c = '€' || c = '£' || c = '%' || c = '.' || c = ',' ||
  c = '-' || c = '+' || c = '(' || c = ')'

/-- Full-string test of the numeric-cell pattern. -/
def isNumericCellStr (s : Str) : Bool := s ≠ [] && s.all numericCellCh

/-- Per-line statistics loop of calculateTableScore: short-token lines,
numeric lines, and consistent consecutive cell counts. -/
def tableLineStats :
    List PositionedLine → Int → Nat → Nat → Nat → Nat × Nat × Nat
  | [], _, st, nu, cc => (st, nu, cc)
  | line :: rest, prev, st, nu, cc =>
    let cells := cellsOfLine line.text
    let cc2 := if prev ≠ -1 ∧ (cells.length : Int) = prev ∧ cells.length ≥ 2 then cc + 1 else cc
    let shortToks := (cells.filter (fun c => decide ((trim c).length ≤ 20) && !(c.contains ' '))).length
    let st2 := if (shortToks : ℚ) ≥ (cells.length : ℚ) * 0.5 then st + 1 else st
    let numericCells := (cells.filter (fun c => isNumericCellStr (trim c))).length
    let nu2 := if numericCells ≥ 1 then nu + 1 else nu
    tableLineStats rest (cells.length : Int) st2 nu2 cc2

/-- Model of calculateTableScore from layoutAnalyzer.ts. -/
def calculateTableScore (block : TextBlock) : ℚ :=
  let text := block.text
  let pipeScore : ℚ := if text.contains '|' then 0.4 else 0
  let stats := tableLineStats block.lines (-1) 0 0 0
  let n := block.lines.length
  let s1 : ℚ := if (stats.1 : ℚ) ≥ (n : ℚ) * 0.4 then 0.25 else 0
  let s2 : ℚ := if (stats.2.1 : ℚ) ≥ (n : ℚ) * 0.3 then 0.2 else 0
  let s3 : ℚ := if (stats.2.2 : ℚ) ≥ (n : ℚ) * 0.6 - 1 then 0.15 else 0
  let avgLineLength : ℚ := (text.length : ℚ) / (((max 1 n : ℕ)) : ℚ)
  let pen : ℚ := if avgLineLength > 100 then 0.2 else 0
  max 0 (min 1 (pipeScore + s1 + s2 + s3 - pen))

/-- Model of classifyBlock from layoutAnalyzer.ts. -/
def classifyBlock (block : TextBlock) (pageWidth : ℚ) : RegionType × ℚ :=
  if isListBlock block then (RegionType.list, 0.85)
  else if isCodeBlock block then (RegionType.code, 0.8)
  else if isHeadingBlock block pageWidth then (RegionType.heading, 0.9)
  else
    let proseScore := calculateProseScore block
    let tableScore := calculateTableScore block
    if proseScore > 0.7 ∧ tableScore < 0.3 then (RegionType.prose, proseScore)
    else if tableScore > 0.6 ∧ proseScore < 0.4 then (RegionType.potentialTable, tableScore)
    else if proseScore ≥ tableScore then (RegionType.prose, 0.5)
    else (RegionType.potentialTable, 0.5)

-- =============================================================================
-- layoutAnalyzer.ts: page layout analysis (claim C1)
-- =============================================================================

/-- Sort order of mergeAdjacentRegions: by column index, then by vertical
position. -/
def regionLe (a b : ClassifiedRegion) : Bool :=
  decide (a.columnIndex.getD 0 < b.columnIndex.getD 0) ||
  (decide (a.columnIndex.getD 0 = b.columnIndex.getD 0) && decide (a.bbox.y ≤ b.bbox.y))

/-- Merge of two adjacent regions of the same type and column. -/
def mergeTwoRegions (cur next : ClassifiedRegion) : ClassifiedRegion :=
  { type := cur.type,
    blocks := cur.blocks ++ next.blocks,
    bbox :=
      { x := min cur.bbox.x next.bbox.x,
        y := min cur.bbox.y next.bbox.y,
        w := max (cur.bbox.x + cur.bbox.w) (next.bbox.x + next.bbox.w) -
             min cur.bbox.x next.bbox.x,
        h := max (cur.bbox.y + cur.bbox.h) (next.bbox.y + next.bbox.h) -
             min cur.bbox.y next.bbox.y },
    confidence := (cur.confidence + next.confidence) / 2,
    columnIndex := cur.columnIndex }

/-- Merge loop of mergeAdjacentRegions over the sorted regions. -/
def mergeRegionsAux : ClassifiedRegion → List ClassifiedRegion → List ClassifiedRegion
  | cur, [] => [cur]
  | cur, next :: rest =>
    if cur.type = next.type ∧ cur.columnIndex = next.columnIndex then
      mergeRegionsAux (mergeTwoRegions cur next) rest
    else cur :: mergeRegionsAux next rest

/-- Model of mergeAdjacentRegions from layoutAnalyzer.ts. -/
def mergeAdjacentRegions (regions : List ClassifiedRegion) : List ClassifiedRegion :=
  match regions.mergeSort regionLe with
  | [] => []
  | first :: rest => mergeRegionsAux first rest

/-- Model of analyzePageLayout from layoutAnalyzer.ts.  Blocks classified
as prose on a multi-column page are relabeled prose-column before region
merging. -/
def analyzePageLayout (lines : List PositionedLine) (pageWidth pageHeight : ℚ) :
    PageLayout :=
  let columns := detectPageColumns lines pageWidth pageHeight
  let isMultiColumn : Bool := decide (columns.length > 1)
  let regions := columns.enum.flatMap (fun ci =>
    ci.2.blocks.map (fun block =>
      let tc := classifyBlock block pageWidth
      let finalType :=
        if isMultiColumn && decide (tc.1 = RegionType.prose) then RegionType.proseColumn
        else tc.1
      ({ type := finalType, blocks := [block], bbox := block.bbox,
         confidence := tc.2, columnIndex := some ci.1 } : ClassifiedRegion)))
  { columns := columns, regions := mergeAdjacentRegions regions,
    isMultiColumn := isMultiColumn, pageWidth := pageWidth, pageHeight := pageHeight }

-- =============================================================================
-- tableDetector.ts: cell content classification
-- =============================================================================

/-- Wrapper-punctuation class stripped from short-token candidates. -/
def wrapperCh (c : Char) : Bool :=
  c = '(' || c = ')' || c = '[' || c = ']' || c = '\x7b' || c = '\x7d' ||
  c = '%' || c = '$' || c = '€' || c = '£' || c = '+' || c = '-'

/-- Strip one leading and one trailing wrapper run (the anchored
alternation replace of cellIsShortToken). -/
def stripWrappers (s : Str) : Str :=
  ((s.dropWhile wrapperCh).reverse.dropWhile wrapperCh).reverse

/-- Full-string decimal pattern: optional digits, a dot, then digits. -/
def isDecimalStr (s : Str) : Bool :=
  let ds := s.takeWhile isDigitCh
  match s.drop ds.length with
  | '.' :: rest => rest ≠ [] && rest.all isDigitCh
  | _ => false

/-- Model of cellIsShortToken from tableDetector.ts. -/
def cellIsShortToken (text : Str) : Bool :=
  let s := trim text
  if s = [] || decide (s.length > 24) then false
  else if s.contains ' ' then false
  else
    let sClean := stripWrappers s
    if sClean = [] then false
    else if sClean.all isDigitCh then true
    else if isDecimalStr sClean then true
    else if sClean.all isAlnum then true
    else false

/-- Remove the first occurrence of a character (JavaScript
String.prototype.replace with a string needle). -/
def removeFirst (c : Char) : Str → Str
  | [] => []
  | x :: rest => if x = c then rest else x :: removeFirst c rest

/-- Currency-symbol class of cellIsNumeric. -/
def currencyCh (c : Char) : Bool :=
  c = '$' || c = '€' || c = '£' || c = '¥' || c = '₹'

/-- Strip at most one leading character of the class. -/
def stripOneLeading (p : Char → Bool) : Str → Str
  | [] => []
  | x :: rest => if p x then rest else x :: rest

/-- Strip at most one trailing character of the class. -/
def stripOneTrailing (p : Char → Bool) (s : Str) : Str :=
  (stripOneLeading p s.reverse).reverse

/-- Nonempty all-digit test. -/
def digitsNonempty (s : Str) : Bool := s ≠ [] && s.all isDigitCh

/-- Model of cellIsNumeric from tableDetector.ts (the replaces of a dot and
a percent sign each remove only the first occurrence, as in JavaScript). -/
def cellIsNumeric (text : Str) : Bool :=
  let s := (trim text).filter (fun c => c ≠ ',')
  if s = [] then false
  else
    let stripped := stripOneTrailing currencyCh (stripOneLeading currencyCh s)
    let sClean := removeFirst '%' (removeFirst '.' stripped)
    if digitsNonempty sClean then true
    else
      match sClean with
      | c :: _ =>
        if c = '-' || c = '(' then
          let inner := stripOneTrailing (fun x => x = ')')
            (stripOneLeading (fun x => x = '-' || x = '(') sClean)
          digitsNonempty (removeFirst '.' inner)
        else false
      | [] => false

/-- Model of cellIsSentence from tableDetector.ts. -/
def cellIsSentence (text : Str) : Bool :=
  let s := trim text
  if s = [] then false
  else
    let words := splitRunsMin jsSpace 1 s
    if words.length < 5 then false
    else
      match s.getLast? with
      | some c => c = '.' || c = '!' || c = '?' || c = '…'
      | none => false

/-- Function-word list of cellIsProseFragment, in source order. -/
def proseWordsTable : List Str :=
  [str "the", str "a", str "an", str "is", str "are", str "was", str "were",
   str "be", str "been", str "have", str "has", str "had", str "to", str "of",
   str "in", str "for", str "on", str "with", str "at", str "by", str "from",
   str "that", str "this", str "and", str "or", str "but", str "we", str "it",
   str "as", str "which"]

/-- Model of cellIsProseFragment from tableDetector.ts. -/
def cellIsProseFragment (text : Str) : Bool :=
  let s := trim text
  if s = [] then false
  else if decide (s.length > 60) then true
  else
    let words := splitRunsMin jsSpace 1 s
    let funcWordHeavy :=
      if words.length ≥ 4 ∧ s.length > 40 then
        let lowerWords := words.map (fun w => (lowerStr w).filter (fun c => 'a' ≤ c && c ≤ 'z'))
        let proseWordCount := (lowerWords.filter (fun w => proseWordsTable.contains w)).length
        decide ((proseWordCount : ℚ) ≥ (words.length : ℚ) * 0.15)
      else false
    if funcWordHeavy then true
    else if words.length ≥ 5 ∧
      (match s with
       | c :: _ => decide ('A' ≤ c) && decide (c ≤ 'Z')
       | [] => false) = true then
      let awl : ℚ := (((s.filter (fun c => !(jsSpace c))).length : ℕ) : ℚ) / (words.length : ℚ)
      decide (awl ≥ 3.5)
    else false

/-- Model of isListLikeLine from tableDetector.ts. -/
def isListLikeLine (text : Str) : Bool :=
  let s := trim text
  if s = [] then false
  else
    ((match s with
      | c :: d :: _ => (c = '-' || c = '•' || c = '◦' || c = '*') && jsSpace d
      | _ => false) : Bool) ||
    (let ds := s.takeWhile isDigitCh
     if ds ≠ [] then
       match s.drop ds.length with
       | p :: q :: _ => (p = '.' || p = ')') && jsSpace q
       | _ => false
     else
       match s with
       | a :: p :: q :: _ => isAsciiLetter a && (p = '.' || p = ')') && jsSpace q
       | _ => false)

/-- Code-symbol set of isCodeLikeBlock. -/
def codeSymbolCh (c : Char) : Bool :=
  c = '\x7b' || c = '\x7d' || c = '[' || c = ']' || c = '(' || c = ')' || c = ';' ||
  c = '<' || c = '>' || c = '/' || c = '=' || c = '*' || c = '+' || c = '-'

/-- Keyword prefixes of isCodeLikeBlock. -/
def codePrefixes : List Str :=
  [str "def ", str "class ", str "for ", str "while ", str "if ",
   str "import ", str "const ", str "let ", str "var ", str "function "]

/-- Per-line suspicion test of isCodeLikeBlock (keyword prefix, type
annotations, or high symbol density). -/
def codeSuspiciousLine (t : Str) : Bool :=
  (codePrefixes.any (fun p => beginsWith p (lowerStr t))) ||
  (hasSubstr (str " -> ") t || (hasSubstr (str ": ") t && t.contains '=')) ||
  (let nonSpace := t.filter (fun c => !(jsSpace c))
   decide (nonSpace.length > 0) &&
     decide (((nonSpace.filter codeSymbolCh).length : ℚ) ≥ (nonSpace.length : ℚ) * 0.35))

/-- Model of isCodeLikeBlock from tableDetector.ts. -/
def isCodeLikeBlock (lines : List Str) : Bool :=
  let texts := (lines.map trim).filter (fun t => t ≠ [])
  if texts.length = 0 then false
  else
    let suspicious := texts.countP codeSuspiciousLine
    decide ((suspicious : ℚ) ≥ max 2 ((texts.length : ℚ) / 2))

-- =============================================================================
-- tableDetector.ts: grid profiling and the acceptance gate (claim C2)
-- =============================================================================

/-- GridProfile record from tableDetector.ts (the prose-fragment count is
computed inside profileGrid but not part of the returned record). -/
structure GridProfile where
  nRows : Nat
  nCols : Nat
  nonEmptyCells : Nat
  shortTokenCells : Nat
  numericCells : Nat
  sentenceCells : Nat
  avgLen : ℚ
  maxLen : Nat
  score : ℚ
  density : ℚ
deriving DecidableEq

/-- Per-cell accumulators of profileGrid. -/
structure CellStats where
  nonEmpty : Nat
  shortTokens : Nat
  numeric : Nat
  sentences : Nat
  proseFragments : Nat
  totalLen : Nat
  maxLen : Nat
deriving DecidableEq

/-- One cell step of the profiling loop. -/
def cellStep (acc : CellStats) (cell : Str) : CellStats :=
  let text := trim cell
  if text = [] then acc
  else
    { nonEmpty := acc.nonEmpty + 1,
      shortTokens := acc.shortTokens + (if cellIsShortToken text then 1 else 0),
      numeric := acc.numeric + (if cellIsNumeric text then 1 else 0),
      sentences := acc.sentences + (if cellIsSentence text then 1 else 0),
      proseFragments := acc.proseFragments + (if cellIsProseFragment text then 1 else 0),
      totalLen := acc.totalLen + text.length,
      maxLen := max acc.maxLen text.length }

/-- Cell statistics of a grid. -/
def gridStats (grid : List (List Str)) : CellStats :=
  grid.foldl (fun acc row => row.foldl cellStep acc) ⟨0, 0, 0, 0, 0, 0, 0⟩

/-- Maximum of a list of naturals. -/
def maxOfNat : List Nat → Nat
  | [] => 0
  | x :: xs => xs.foldl max x

/-- Model of profileGrid from tableDetector.ts. -/
def profileGrid (grid : List (List Str)) : GridProfile :=
  let nRows := grid.length
  let nCols := if nRows > 0 then maxOfNat (grid.map (fun r => r.length)) else 0
  let st := gridStats grid
  let totalCells := nRows * nCols
  let density : ℚ := if totalCells > 0 then (st.nonEmpty : ℚ) / (totalCells : ℚ) else 0
  let avgLen : ℚ := if st.nonEmpty > 0 then (st.totalLen : ℚ) / (st.nonEmpty : ℚ) else 0
  let base : ℚ := 1.0 * (nRows : ℚ) + 0.8 * (nCols : ℚ)
  let contentScore : ℚ :=
    if st.nonEmpty > 0 then
      let ne : ℚ := (st.nonEmpty : ℚ)
      let sentenceFrac : ℚ := (st.sentences : ℚ) / ne
      let fragFrac : ℚ := (st.proseFragments : ℚ) / ne
      3.0 * ((st.shortTokens : ℚ) / ne) + 2.0 * ((st.numeric : ℚ) / ne)
      - (if sentenceFrac > 0.8 then 4.0 * sentenceFrac
         else if sentenceFrac > 0.4 then 2.0 * sentenceFrac else 0)
      - (if fragFrac > 0.5 then 6.0 * fragFrac
         else if fragFrac > 0.3 then 3.0 * fragFrac
         else if fragFrac > 0.15 then 1.5 * fragFrac else 0)
      - (if max sentenceFrac fragFrac > 0.6 ∧
            ((st.shortTokens + st.numeric : ℕ) : ℚ) < ne * 0.3 then 5.0 else 0)
    else 0
  let lenPenalty : ℚ :=
    (if avgLen > 80 then 4.0 else if avgLen > 50 then 2.0 else 0) +
    (if st.maxLen > 100 then 2.0 else 0)
  let bonus : ℚ :=
    (if nRows ≥ 4 ∧ nCols ≥ 3 ∧ (st.proseFragments : ℚ) < (st.nonEmpty : ℚ) * 0.3
     then 2.0 else 0) +
    (if (grid.map (fun r => r.length)).dedup.length = 1 then 1.5 else 0) +
    (if density ≥ 0.6 then 1.0 else 0)
  { nRows := nRows, nCols := nCols, nonEmptyCells := st.nonEmpty,
    shortTokenCells := st.shortTokens, numericCells := st.numeric,
    sentenceCells := st.sentences, avgLen := avgLen, maxLen := st.maxLen,
    score := base + contentScore - lenPenalty + bonus, density := density }

/-- Model of gridPassesProfile from tableDetector.ts: the acceptance
gate. -/
def gridPassesProfile (prof : GridProfile) : Bool :=
  if prof.nRows < 2 || prof.nCols < 2 then false
  else if prof.nonEmptyCells = 0 then false
  else if prof.density < 0.25 then false
  else if decide (prof.avgLen > 60) &&
    decide (((prof.shortTokenCells + prof.numericCells : ℕ) : ℚ) / (prof.nonEmptyCells : ℚ) < 0.5)
    then false
  else if decide (prof.maxLen > 80) && decide (prof.avgLen > 40) &&
    decide (((prof.shortTokenCells + prof.numericCells : ℕ) : ℚ) / (prof.nonEmptyCells : ℚ) < 0.4)
    then false
  else if decide ((prof.sentenceCells : ℚ) ≥ 0.4 * (prof.nonEmptyCells : ℚ)) &&
    !(decide ((prof.numericCells : ℚ) ≥ 0.2 * (prof.nonEmptyCells : ℚ)) ||
      decide ((prof.shortTokenCells : ℚ) ≥ 0.3 * (prof.nonEmptyCells : ℚ))) then false
  else if decide ((prof.shortTokenCells : ℚ) < 0.15 * (prof.nonEmptyCells : ℚ)) &&
    decide (prof.numericCells = 0) &&
    (decide (prof.nRows < 4) || decide (prof.nCols < 3) || decide (prof.avgLen > 30))
    then false
  else if prof.score < 2.0 then false
  else true

-- =============================================================================
-- tableDetector.ts: table data model and shared helpers
-- =============================================================================

/-- TableCell record (column and row spans are never set by the source). -/
structure TableCell where
  text : Str
deriving DecidableEq

/-- TableRow record. -/
structure TableRow where
  cells : List TableCell
  isHeader : Bool
deriving DecidableEq

/-- Column alignment union. -/
inductive ColAlign where
  | left
  | center
  | right
deriving DecidableEq

/-- Detection strategy union. -/
inductive DetectionType where
  | bordered
  | ascii
  | vertical
deriving DecidableEq

/-- DetectedTable record from tableDetector.ts. -/
structure DetectedTable where
  rows : List TableRow
  columnAlignments : List ColAlign
  confidence : ℚ
  startLine : Nat
  endLine : Nat
  detectionType : DetectionType
deriving DecidableEq

/-- Row records built from a grid of cell texts, as each strategy emits
them. -/
def gridRows (g : List (List Str)) : List TableRow :=
  g.enum.map (fun ir =>
    ({ cells := ir.2.map (fun text => (⟨text⟩ : TableCell)),
       isHeader := ir.1 = 0 } : TableRow))

/-- The grid of cell texts carried by a detected table's rows. -/
def tableGrid (t : DetectedTable) : List (List Str) :=
  t.rows.map (fun r => r.cells.map (fun c => c.text))

/-- TextLine input record of tableDetector.ts. -/
structure TextLine where
  text : Str
  y : ℚ
  x : ℚ
  width : ℚ
  fontSize : ℚ
deriving DecidableEq

/-- Model of inferColumnAlignments from tableDetector.ts. -/
def inferColumnAlignments (rows : List TableRow) (columnCount : Nat) : List ColAlign :=
  (List.range columnCount).map (fun col =>
    let cells := (rows.filter (fun r => !r.isHeader)).filterMap (fun r => r.cells[col]?)
    let valid := cells.filter (fun c => trim c.text ≠ [])
    let numericCount := (valid.filter (fun c => cellIsNumeric c.text)).length
    if valid.length > 0 ∧ decide ((numericCount : ℚ) / (valid.length : ℚ) > 0.7) = true
    then ColAlign.right
    else ColAlign.left)

/-- Space-or-tab separator class of splitCells. -/
def spaceTab (c : Char) : Bool := c = ' ' || c = '\t'

/-- Model of splitCells from tableDetector.ts: split on runs of three or
more spaces or tabs, falling back to runs of two or more. -/
def splitCells (text : Str) : List Str :=
  let s := trimEnd text
  if s = [] then [[]]
  else
    let cells := splitRunsMin spaceTab 3 s
    if cells.length ≥ 2 then cells else splitRunsMin spaceTab 2 s

/-- Insertion-ordered counting map of mostCommonInt. -/
def insertCount : List (Nat × Nat) → Nat → List (Nat × Nat)
  | [], n => [(n, 1)]
  | (v, c) :: rest, n => if v = n then (v, c + 1) :: rest else (v, c) :: insertCount rest n

/-- Model of mostCommonInt from tableDetector.ts (ties keep the earlier
inserted value, as the source uses a strict comparison over insertion
order). -/
def mostCommonInt (arr : List Nat) : Nat × Nat :=
  let counts := arr.foldl insertCount []
  counts.foldl (fun best vc => if vc.2 > best.2 then vc else best) (0, 0)

-- =============================================================================
-- tableDetector.ts: bordered strategy (claim C2)
-- =============================================================================

/-- Separator-line pattern of parseBorderedTable (whitespace, pipes, colons
and dashes only). -/
def isSeparatorLine (s : Str) : Bool :=
  s ≠ [] && s.all (fun c => jsSpace c || c = '|' || c = ':' || c = '-')

/-- Cell extraction of parseBorderedTable for one line: split on pipes,
trim, and drop an empty leading and trailing cell. -/
def borderedRowCells (line : Str) : Option (List Str) :=
  if isSeparatorLine line then none
  else
    let cells0 := (line.splitOn '|').map trim
    let cells1 :=
      match cells0 with
      | first :: rest => if first = [] then rest else first :: rest
      | [] => []
    let cells2 :=
      match cells1.getLast? with
      | some last => if last = [] then cells1.dropLast else cells1
      | none => cells1
    if cells2.length ≥ 2 then some cells2 else none

/-- Model of parseBorderedTable from tableDetector.ts.  The profile score
receives the fixed bordered bonus of two before the gate. -/
def parseBorderedTable (lines : List Str) (startLine : Nat) : Option DetectedTable :=
  let normalized := lines.map (replaceAllCh '¦' (str "|"))
  let pipeLines := normalized.filter (fun t => t.contains '|')
  if pipeLines.length < 2 then none
  else if maxOfNat (pipeLines.map (fun t => t.countP (fun c => c = '|'))) < 2 then none
  else
    let grid := pipeLines.filterMap borderedRowCells
    if grid.length < 2 then none
    else
      let maxCols := maxOfNat (grid.map (fun r => r.length))
      let normalizedGrid := grid.map (fun row => row ++ List.replicate (maxCols - row.length) [])
      let prof0 := profileGrid normalizedGrid
      let prof := { prof0 with score := prof0.score + 2.0 }
      if !(gridPassesProfile prof) then none
      else
        let rows := normalizedGrid.enum.map (fun ir =>
          ({ cells := ir.2.map (fun text => (⟨text⟩ : TableCell)),
             isHeader := ir.1 = 0 } : TableRow))
        some { rows := rows,
               columnAlignments := inferColumnAlignments rows maxCols,
               confidence := min 1 (prof.score / 10),
               startLine := startLine,
               endLine := startLine + lines.length - 1,
               detectionType := DetectionType.bordered }

/-- Run-collecting loop of detectBorderedTables. -/
def detectBorderedAux : List TextLine → Nat → Option Nat → List Str → List DetectedTable
  | [], _, tableStart, tableLines =>
    (match tableStart with
     | some st =>
       if tableLines.length ≥ 2 then (parseBorderedTable tableLines st).toList else []
     | none => [])
  | l :: rest, i, tableStart, tableLines =>
    let text := l.text
    let hasPipe := text.contains '|' || text.contains '¦'
    let isSeparatorOnly :=
      (text ≠ [] && text.all (fun c =>
        jsSpace c || c = '-' || c = '+' || c = '|' || c = '=' || c = ':' || c = '¦')) &&
      text.contains '-'
    if hasPipe || isSeparatorOnly then
      match tableStart with
      | some st => detectBorderedAux rest (i + 1) (some st) (tableLines ++ [text])
      | none => detectBorderedAux rest (i + 1) (some i) [text]
    else
      match tableStart with
      | some st =>
        (if tableLines.length ≥ 2 then (parseBorderedTable tableLines st).toList else []) ++
        detectBorderedAux rest (i + 1) none []
      | none => detectBorderedAux rest (i + 1) none []

/-- Model of detectBorderedTables from tableDetector.ts. -/
def detectBorderedTables (lines : List TextLine) : List DetectedTable :=
  detectBorderedAux lines 0 none []

-- =============================================================================
-- tableDetector.ts: ASCII whitespace strategy (claim C2)
-- =============================================================================

/-- Model of detectAsciiTables from tableDetector.ts. -/
def detectAsciiTables (lines : List TextLine) (_pageWidth : ℚ) : List DetectedTable :=
  let texts := lines.map (fun l => l.text)
  if texts.length < 2 then []
  else if isCodeLikeBlock texts then []
  else
    let splitLines := texts.map splitCells
    let isRow := splitLines.map (fun cells => decide (cells.length ≥ 2))
    if (isRow.filter (fun b => b)).length < 2 then []
    else
      let firstRow := isRow.findIdx (fun b => b)
      let lastRow := isRow.length - 1 - isRow.reverse.findIdx (fun b => b)
      if lastRow = firstRow then []
      else
        let coreLines := (splitLines.drop firstRow).take (lastRow + 1 - firstRow)
        let coreFlags := (isRow.drop firstRow).take (lastRow + 1 - firstRow)
        let rowCounts := ((coreLines.zip coreFlags).filter (fun p => p.2)).map (fun p => p.1.length)
        let tc := mostCommonInt rowCounts
        if tc.1 < 2 ∨ decide ((tc.2 : ℚ) < max 2 ((rowCounts.length : ℚ) * 0.6)) = true then []
        else
          let targetCols := tc.1
          let grid := coreLines.filterMap (fun cells =>
            let row :=
              if cells.length < targetCols then
                cells ++ List.replicate (targetCols - cells.length) []
              else if cells.length > targetCols then
                cells.take (targetCols - 1) ++
                  [trim (List.intercalate [' '] (cells.drop (targetCols - 1)))]
              else cells
            let cleaned := row.map trim
            if cleaned.any (fun c => c ≠ []) then some cleaned else none)
          if grid.length < 2 then []
          else
            let prof := profileGrid grid
            if !(gridPassesProfile prof) then []
            else
              let rows := grid.enum.map (fun ir =>
                ({ cells := ir.2.map (fun text => (⟨text⟩ : TableCell)),
                   isHeader := ir.1 = 0 } : TableRow))
              [{ rows := rows,
                 columnAlignments := inferColumnAlignments rows targetCols,
                 confidence := min 1 (prof.score / 10),
                 startLine := firstRow, endLine := lastRow,
                 detectionType := DetectionType.ascii }]

-- =============================================================================
-- tableDetector.ts: positioned-row strategy (claim C2)
-- =============================================================================

/-- PositionedCell input record. -/
structure PositionedCell where
  text : Str
  x : ℚ
  width : ℚ
deriving DecidableEq

/-- PositionedRow input record. -/
structure PositionedRow where
  cells : List PositionedCell
  y : ℚ
deriving DecidableEq

/-- One clustering step of findColumnBoundaries: a position within the
growing tolerance of the running centroid joins the cluster, otherwise the
centroid is emitted and a new cluster starts. -/
def clusterStep (tolerance : ℚ) (st : List ℚ × ℚ × ℕ) (x : ℚ) : List ℚ × ℚ × ℕ :=
  if x - st.2.1 ≤ tolerance * (st.2.2 : ℚ) then
    (st.1, (st.2.1 * (st.2.2 : ℚ) + x) / ((st.2.2 : ℚ) + 1), st.2.2 + 1)
  else
    (st.1 ++ [st.2.1], x, 1)

/-- Model of findColumnBoundaries from tableDetector.ts. -/
def findColumnBoundaries (rows : List PositionedRow) (tolerance : ℚ) : List ℚ :=
  let xPositions := rows.flatMap (fun r => r.cells.map (fun c => c.x))
  match xPositions.mergeSort (fun a b => decide (a ≤ b)) with
  | [] => []
  | x0 :: restS =>
    let fin := restS.foldl (clusterStep tolerance) ([], x0, 1)
    fin.1 ++ [fin.2.1]

/-- Model of assignCellToColumn from tableDetector.ts: index of the nearest
boundary (strictly closer boundaries win, so ties keep the earlier one). -/
def assignCellToColumn (cellX : ℚ) (boundaries : List ℚ) : Nat :=
  match boundaries with
  | [] => 0
  | b0 :: rest =>
    (rest.enum.foldl (fun best ib =>
      let dist := |cellX - ib.2|
      if dist < best.2 then (ib.1 + 1, dist) else best) ((0 : ℕ), |cellX - b0|)).1

/-- Row of the grid built from positioned cells: cells mapping to the same
column are concatenated with a space. -/
def buildRowCells (boundaries : List ℚ) (row : PositionedRow) : List Str :=
  row.cells.foldl (fun rowCells cell =>
    let colIdx := assignCellToColumn cell.x boundaries
    let existing := rowCells.getD colIdx []
    let nv := if existing ≠ [] then existing ++ [' '] ++ trim cell.text else trim cell.text
    rowCells.set colIdx nv) (List.replicate boundaries.length ([] : Str))

/-- Model of buildGridFromPositionedRows from tableDetector.ts. -/
def buildGridFromPositionedRows (rows : List PositionedRow) (boundaries : List ℚ) :
    List (List Str) :=
  rows.map (buildRowCells boundaries)

/-- Model of determineColumnAlignmentsFromGrid from tableDetector.ts. -/
def determineColumnAlignmentsFromGrid (grid : List (List Str)) : List ColAlign :=
  let nCols := (grid.headD []).length
  (List.range nCols).map (fun col =>
    let cells := grid.filterMap (fun row => row[col]?)
    let valid := cells.filter (fun c => trim c ≠ [])
    let numericCount := (valid.filter cellIsNumeric).length
    if valid.length > 0 ∧ decide ((numericCount : ℚ) / (valid.length : ℚ) > 0.5) = true
    then ColAlign.right
    else ColAlign.left)

/-- Model of tryBuildTable from tableDetector.ts: the boundary clustering,
the profile gate, the two post-gate vetoes, and the confidence floored at
two fifths. -/
def tryBuildTable (rows : List PositionedRow) (startLine endLine : Nat) :
    Option DetectedTable :=
  let boundaries := findColumnBoundaries rows 15
  if boundaries.length < 2 then none
  else
    let grid := buildGridFromPositionedRows rows boundaries
    let prof := profileGrid grid
    if !(gridPassesProfile prof) then none
    else if prof.sentenceCells > 0 ∧
      decide ((prof.sentenceCells : ℚ) ≥ 0.3 * (prof.nonEmptyCells : ℚ)) = true ∧
      decide (((prof.shortTokenCells + prof.numericCells : ℕ) : ℚ) <
        0.4 * (prof.nonEmptyCells : ℚ)) = true then none
    else if decide (prof.avgLen > 50) = true ∧
      decide (((prof.shortTokenCells + prof.numericCells : ℕ) : ℚ) /
        (prof.nonEmptyCells : ℚ) < 0.5) = true then none
    else
      let tableRows := grid.enum.map (fun ir =>
        ({ cells := ir.2.map (fun text => (⟨text⟩ : TableCell)),
           isHeader := ir.1 = 0 } : TableRow))
      some { rows := tableRows,
             columnAlignments := determineColumnAlignmentsFromGrid grid,
             confidence := min 1 (max 0.4 (prof.score / 10)),
             startLine := startLine, endLine := endLine,
             detectionType := DetectionType.vertical }

/-- Region-extension walk of detectTablesFromPositionedRows: rows continue
a region until a vertical gap above fifty or a degenerate column-count
change. -/
def regionExtent : PositionedRow → List PositionedRow → Nat → Nat
  | _, [], _ => 0
  | prev, r :: rest, startColCount =>
    if r.y - prev.y > 50 then 0
    else if Int.natAbs ((r.cells.length : Int) - (startColCount : Int)) > 2 ∧
      r.cells.length < 2 then 0
    else 1 + regionExtent r rest startColCount

/-- Region loop of detectTablesFromPositionedRows over the y-sorted rows. -/
def dtfprAux : List PositionedRow → Nat → List DetectedTable
  | [], _ => []
  | r :: rest, idx =>
    if r.cells.length < 2 then dtfprAux rest (idx + 1)
    else
      let ext := regionExtent r rest r.cells.length
      let regionRows := r :: rest.take ext
      let emitted :=
        if regionRows.length ≥ 2 then
          let cand := regionRows.filter (fun rr => rr.cells.length ≥ 2)
          if cand.length ≥ 2 then (tryBuildTable cand idx (idx + ext)).toList else []
        else []
      emitted ++ dtfprAux (rest.drop ext) (idx + ext + 1)
termination_by rows _ => rows.length
decreasing_by
  · simp only [List.length_cons]
    omega
  · simp only [List.length_drop, List.length_cons]
    omega

/-- Model of detectTablesFromPositionedRows from tableDetector.ts. -/
def detectTablesFromPositionedRows (rows : List PositionedRow) : List DetectedTable :=
  if rows.length < 2 then []
  else dtfprAux (rows.mergeSort (fun a b => decide (a.y ≤ b.y))) 0

-- =============================================================================
-- Theorems: claim C10 (removeHeadersFooters deletes whole lines)
-- =============================================================================

/-- Blank lines always satisfy the retention predicate. -/
theorem keepsLine_of_blank (headers footers : List Str) (threshold : ℚ) (l : Str)
    (h : trim l = []) : keepsLine headers footers threshold l = true := by
  simp [keepsLine, h]

/-- Claim C10 (counterexample): removing every line of a one-line text
yields the empty string, whose newline split is the one-element list
holding the empty line, which is not a subsequence of the input lines. -/
theorem C10_counterexample :
    (removeHeadersFooters (str "abc") [str "abc"] [] (4/5)).splitOn '\n' = [([] : Str)] ∧
    ¬ ((removeHeadersFooters (str "abc") [str "abc"] [] (4/5)).splitOn '\n').Sublist
        ((str "abc").splitOn '\n') := by
  constructor
  · with_unfolding_all decide
  · with_unfolding_all decide

/-- Claim C10 (amended): removeHeadersFooters only deletes whole lines: the
output is the newline join of a subsequence of the input lines, so every
retained line is character-for-character an input line, and every blank or
whitespace-only line is retained; only when every line is removed does the
join degenerate to the empty string, whose own newline split is no longer a
subsequence of the input lines. -/
theorem C10_header_footer_amended (text : Str) (headers footers : List Str) (threshold : ℚ) :
    ∃ kept : List Str,
      kept.Sublist (text.splitOn '\n') ∧
      ((text.splitOn '\n').filter (fun l => decide (trim l = []))).Sublist kept ∧
      removeHeadersFooters text headers footers threshold = List.intercalate ['\n'] kept := by
  refine ⟨(text.splitOn '\n').filter (keepsLine headers footers threshold),
    List.filter_sublist _, ?_, rfl⟩
  apply List.monotone_filter_right
  intro l hl
  exact keepsLine_of_blank _ _ _ _ (by simpa using hl)

-- =============================================================================
-- Theorems: claim C8 (bullet-line merging)
-- =============================================================================

/-- A standalone bullet line begins with a bullet glyph. -/
theorem bullet_starts_marker (s : Str) (h : isStandaloneBullet s = true) :
    startsWithBulletOrDigit s = true := by
  cases s with
  | nil => simp [isStandaloneBullet] at h
  | cons c cs =>
    cases cs with
    | nil =>
      simp only [isStandaloneBullet] at h
      simp only [startsWithBulletOrDigit, h, Bool.true_or]
    | cons d ds => simp [isStandaloneBullet] at h

/-- Claim C8 (counterexample): on two consecutive standalone bullets, the
first bullet line is emitted unchanged rather than merged with its
successor. -/
theorem C8_counterexample :
    mergeBulletLines (str "•\n•\nfoo") = str "•\n- foo" ∧
    (mergeBulletLines (str "•\n•\nfoo")).splitOn '\n' = [str "•", str "- foo"] ∧
    str "•" ≠ str "- " ++ trim (str "•") := by
  refine ⟨by with_unfolding_all decide, by with_unfolding_all decide,
    by with_unfolding_all decide⟩

/-- Reaching lemma for the merge loop: a standalone bullet followed by a
mergeable line is merged no matter what precedes it, because a standalone
bullet can never be consumed as the successor of an earlier bullet line. -/
theorem mergeBulletList_reaches (b t : Str) (rest : List Str)
    (hb : isStandaloneBullet (trim b) = true) (ht : trim t ≠ [])
    (hm : startsWithBulletOrDigit (trim t) = false) :
    ∀ pre : List Str, ∃ out : List Str,
      mergeBulletList (pre ++ b :: t :: rest) =
        out ++ (str "- " ++ trim t) :: mergeBulletList rest := by
  have hmarker := bullet_starts_marker (trim b) hb
  have H : ∀ n : Nat, ∀ pre : List Str, pre.length = n →
      ∃ out : List Str,
        mergeBulletList (pre ++ b :: t :: rest) =
          out ++ (str "- " ++ trim t) :: mergeBulletList rest := by
    intro n
    induction n using Nat.strong_induction_on with
    | _ n ih =>
      intro pre hlen
      match pre with
      | [] =>
        refine ⟨[], ?_⟩
        simp only [List.nil_append]
        rw [mergeBulletList]
        simp [hb, ht, hm]
      | [p] =>
        obtain ⟨out0, hout0⟩ := ih 0 (by simp at hlen; omega) [] rfl
        simp only [List.nil_append] at hout0
        refine ⟨p :: out0, ?_⟩
        have h1 : ([p] ++ b :: t :: rest) = p :: b :: (t :: rest) := by simp
        rw [h1, mergeBulletList, if_neg ?_]
        · simp [hout0]
        · intro hcontra
          exact hcontra.2.2 (by simp [hmarker])
      | p :: q :: pre2 =>
        have h1 : ((p :: q :: pre2) ++ b :: t :: rest) = p :: q :: (pre2 ++ b :: t :: rest) := by
          simp
        by_cases hc : isStandaloneBullet (trim p) = true ∧ trim q ≠ [] ∧
            ¬ startsWithBulletOrDigit (trim q) = true
        · obtain ⟨out0, hout0⟩ := ih pre2.length (by simp at hlen; omega) pre2 rfl
          refine ⟨(str "- " ++ trim q) :: out0, ?_⟩
          rw [h1, mergeBulletList, if_pos hc]
          simp [hout0]
        · obtain ⟨out0, hout0⟩ := ih (q :: pre2).length (by simp at hlen ⊢; omega) (q :: pre2) rfl
          refine ⟨p :: out0, ?_⟩
          rw [h1, mergeBulletList, if_neg hc]
          simp only [List.cons_append] at hout0
          simp [hout0]
  exact fun pre => H pre.length pre rfl

/-- Head computation of the merge loop on a mergeable pair. -/
theorem mergeBulletList_head (b t : Str) (rest : List Str)
    (hb : isStandaloneBullet (trim b) = true) (ht : trim t ≠ [])
    (hm : startsWithBulletOrDigit (trim t) = false) :
    mergeBulletList (b :: t :: rest) = (str "- " ++ trim t) :: mergeBulletList rest := by
  rw [mergeBulletList]
  simp [hb, ht, hm]

/-- Two consecutive standalone bullets: the first is emitted unchanged and
only the second merges with the following line. -/
theorem mergeBulletList_two_bullets (b1 b2 t : Str) (rest : List Str)
    (hb1 : isStandaloneBullet (trim b1) = true) (hb2 : isStandaloneBullet (trim b2) = true)
    (ht : trim t ≠ []) (hm : startsWithBulletOrDigit (trim t) = false) :
    ∀ pre : List Str, ∃ out : List Str,
      mergeBulletList (pre ++ b1 :: b2 :: t :: rest) =
        out ++ b1 :: (str "- " ++ trim t) :: mergeBulletList rest := by
  have hmarker1 := bullet_starts_marker (trim b1) hb1
  have hmarker2 := bullet_starts_marker (trim b2) hb2
  have hbase : mergeBulletList (b1 :: b2 :: t :: rest) =
      b1 :: (str "- " ++ trim t) :: mergeBulletList rest := by
    rw [mergeBulletList, if_neg ?_]
    · rw [mergeBulletList_head b2 t rest hb2 ht hm]
    · intro hcontra
      exact hcontra.2.2 (by simp [hmarker2])
  have H : ∀ n : Nat, ∀ pre : List Str, pre.length = n →
      ∃ out : List Str,
        mergeBulletList (pre ++ b1 :: b2 :: t :: rest) =
          out ++ b1 :: (str "- " ++ trim t) :: mergeBulletList rest := by
    intro n
    induction n using Nat.strong_induction_on with
    | _ n ih =>
      intro pre hlen
      match pre with
      | [] => exact ⟨[], by simpa using hbase⟩
      | [p] =>
        refine ⟨[p], ?_⟩
        have h1 : ([p] ++ b1 :: b2 :: t :: rest) = p :: b1 :: (b2 :: t :: rest) := by simp
        rw [h1, mergeBulletList, if_neg ?_]
        · simpa using hbase
        · intro hcontra
          exact hcontra.2.2 (by simp [hmarker1])
      | p :: q :: pre2 =>
        have h1 : ((p :: q :: pre2) ++ b1 :: b2 :: t :: rest) =
            p :: q :: (pre2 ++ b1 :: b2 :: t :: rest) := by simp
        by_cases hc : isStandaloneBullet (trim p) = true ∧ trim q ≠ [] ∧
            ¬ startsWithBulletOrDigit (trim q) = true
        · obtain ⟨out0, hout0⟩ := ih pre2.length (by simp at hlen; omega) pre2 rfl
          refine ⟨(str "- " ++ trim q) :: out0, ?_⟩
          rw [h1, mergeBulletList, if_pos hc]
          simp [hout0]
        · obtain ⟨out0, hout0⟩ := ih (q :: pre2).length (by simp at hlen ⊢; omega) (q :: pre2) rfl
          refine ⟨p :: out0, ?_⟩
          rw [h1, mergeBulletList, if_neg hc]
          simp only [List.cons_append] at hout0
          simp [hout0]
  exact fun pre => H pre.length pre rfl

/-- Claim C8 (amended): a line whose trimmed content is a single bullet
glyph, followed by a line whose trimmed content is nonempty and does not
begin with a bullet glyph, asterisk, hyphen or digit, is replaced together
with that following line by a dash, a space and the trimmed following line;
when two consecutive lines are standalone bullets, the first is emitted
unchanged and only the second merges with its successor. -/
theorem C8_bullet_merge_amended :
    (∀ (pre : List Str) (b t : Str) (rest : List Str),
      isStandaloneBullet (trim b) = true → trim t ≠ [] →
      startsWithBulletOrDigit (trim t) = false →
      ∃ out : List Str,
        mergeBulletList (pre ++ b :: t :: rest) =
          out ++ (str "- " ++ trim t) :: mergeBulletList rest) ∧
    (∀ (pre : List Str) (b1 b2 t : Str) (rest : List Str),
      isStandaloneBullet (trim b1) = true → isStandaloneBullet (trim b2) = true →
      trim t ≠ [] → startsWithBulletOrDigit (trim t) = false →
      ∃ out : List Str,
        mergeBulletList (pre ++ b1 :: b2 :: t :: rest) =
          out ++ b1 :: (str "- " ++ trim t) :: mergeBulletList rest) :=
  ⟨fun pre b t rest hb ht hm => mergeBulletList_reaches b t rest hb ht hm pre,
   fun pre b1 b2 t rest h1 h2 h3 h4 => mergeBulletList_two_bullets b1 b2 t rest h1 h2 h3 h4 pre⟩

/-- Witness for the amended bullet-merge claim at a concrete input. -/
theorem C8_bullet_merge_amended_witness :
    isStandaloneBullet (trim (str "•")) = true ∧
    trim (str "foo") ≠ [] ∧
    startsWithBulletOrDigit (trim (str "foo")) = false ∧
    (∃ out : List Str,
      mergeBulletList ([str "x"] ++ (str "•") :: (str "foo") :: [str "y"]) =
        out ++ (str "- " ++ trim (str "foo")) :: mergeBulletList [str "y"]) :=
  ⟨by with_unfolding_all decide, by with_unfolding_all decide,
   by with_unfolding_all decide,
   C8_bullet_merge_amended.1 [str "x"] (str "•") (str "foo") [str "y"]
     (by with_unfolding_all decide) (by with_unfolding_all decide)
     (by with_unfolding_all decide)⟩

-- =============================================================================
-- Theorems: claim C9 (garbled-math-font recommendation)
-- =============================================================================

/-- The garbled page text of the end-to-end scenario. -/
def garbledSample : Str := str "K(��LC>@�+ ��Mℎ>@�)"

/-- Claim C9 (counterexample): on the exact nineteen-character scenario
input, shouldRecommendVisionAI returns a record whose recommend field is
false, because the page-length gate requires at least fifty characters. -/
theorem C9_counterexample :
    (shouldRecommendVisionAI garbledSample).recommend = false := by
  with_unfolding_all decide

/-- Claim C9 (amended): the scenario input is nineteen characters long, so
shouldRecommendVisionAI returns recommend = false through its length gate,
even though hasGarbledMathFont holds of the text; embedding the same
garbled text in a page of at least fifty characters yields
recommend = true. -/
theorem C9_vision_amended :
    garbledSample.length = 19 ∧
    hasGarbledMathFont garbledSample = true ∧
    (shouldRecommendVisionAI garbledSample).recommend = false ∧
    (shouldRecommendVisionAI (garbledSample ++ List.replicate 31 'a')).recommend = true := by
  refine ⟨by with_unfolding_all decide, by with_unfolding_all decide,
    by with_unfolding_all decide, by with_unfolding_all decide⟩

-- =============================================================================
-- Theorems: claim C4 (inline-math scenario)
-- =============================================================================

/-- Claim C4 (counterexample): on the scenario input the whole string is
below the prose-detection length threshold and passes the density gate, so
processMathInText wraps the entire string in inline math delimiters; the
prose prefix does not stay outside the dollars. -/
theorem C4_counterexample :
    processMathInText (str "The area is A = πr²") =
      str "$The area is A = \\pi r^\x7b2\x7d$" ∧
    str "$The area is A = \\pi r^\x7b2\x7d$" ≠ str "The area is A = $\\pi r^\x7b2\x7d$" := by
  refine ⟨by with_unfolding_all decide, by with_unfolding_all decide⟩

/-- Claim C4 (amended): processMathInText on the scenario input returns the
whole string wrapped as one inline math span, with the Greek letter mapped
to its LaTeX command and the superscript two mapped to a grouped
superscript. -/
theorem C4_math_processing_amended :
    processMathInText (str "The area is A = πr²") =
      str "$The area is A = \\pi r^\x7b2\x7d$" := by
  with_unfolding_all decide

-- =============================================================================
-- Theorems: claim C7 (hyphenation repair)
-- =============================================================================

/-- A JavaScript whitespace character is never a word character. -/
theorem jsSpace_not_word (c : Char) (h : jsSpace c = true) : isWordCh c = false := by
  simp only [jsSpace, Bool.or_eq_true, decide_eq_true_eq, Bool.and_eq_true] at h
  simp only [or_assoc] at h
  rcases h with h | h | h | h | h | h | h | h | ⟨ha, hb⟩ | h | h | h | h | h | h
  all_goals try (subst h; decide)
  have hz : ¬ c ≤ 'z' := fun hc => absurd (le_trans ha hc) (by decide)
  have hZ : ¬ c ≤ 'Z' := fun hc => absurd (le_trans ha hc) (by decide)
  have h9 : ¬ c ≤ '9' := fun hc => absurd (le_trans ha hc) (by decide)
  have hu : ¬ (c = '_') := fun hc => absurd (hc ▸ ha) (by decide)
  simp [isWordCh, hz, hZ, h9, hu]

/-- The break regex never matches the empty string. -/
theorem breakMatch_nil (dash : Char) : breakMatch dash [] = none := rfl

/-- The break regex never matches a one-character string. -/
theorem breakMatch_one (dash c : Char) : breakMatch dash [c] = none := rfl

/-- The break regex cannot match starting at a non-word character. -/
theorem breakMatch_not_word (dash c : Char) (t : Str) (hc : isWordCh c = false) :
    breakMatch dash (c :: t) = none := by
  cases t with
  | nil => rfl
  | cons d r => simp [breakMatch, hc]

/-- Inversion of a successful break match: the string decomposes into the
leading word character, the dash, a whitespace run containing a newline,
and a trailing word character. -/
theorem breakMatch_some_inv (dash : Char) (s : Str) (w1 w2 : Char) (len : Nat)
    (h : breakMatch dash s = some (w1, w2, len)) :
    ∃ r t2, s = w1 :: dash :: r ∧ isWordCh w1 = true ∧
      (r.takeWhile jsSpace).contains '\n' = true ∧
      r.dropWhile jsSpace = w2 :: t2 ∧ isWordCh w2 = true ∧
      len = (r.takeWhile jsSpace).length + 3 := by
  match s with
  | [] => exact absurd h (by simp [breakMatch])
  | [a] => exact absurd h (by simp [breakMatch])
  | a :: b :: r =>
    simp only [breakMatch] at h
    by_cases h1 : (isWordCh a && decide (b = dash)) = true
    · rw [if_pos h1] at h
      by_cases h2 : (r.takeWhile jsSpace).contains '\n' = true
      · rw [if_pos h2] at h
        rcases hd : r.dropWhile jsSpace with _ | ⟨w, t2⟩
        · simp only [hd] at h; exact absurd h (by simp)
        · simp only [hd] at h
          by_cases h3 : isWordCh w = true
          · rw [if_pos h3] at h
            simp only [Option.some.injEq, Prod.mk.injEq] at h
            obtain ⟨e1, e2, e3⟩ := h
            simp only [Bool.and_eq_true, decide_eq_true_eq] at h1
            refine ⟨r, t2, ?_, ?_, h2, ?_, ?_, e3.symm⟩
            · rw [e1, h1.2]
            · rw [← e1]; exact h1.1
            · rw [hd, e2]
            · rw [← e2]; exact h3
          · rw [if_neg h3] at h; simp at h
      · rw [if_neg h2] at h; simp at h
    · rw [if_neg h1] at h; simp at h

/-- A successful break match consumes at least three characters. -/
theorem breakMatch_len_pos (dash : Char) (s : Str) (w1 w2 : Char) (len : Nat)
    (h : breakMatch dash s = some (w1, w2, len)) : 3 ≤ len := by
  obtain ⟨r, t2, _, _, _, _, _, hl⟩ := breakMatch_some_inv dash s w1 w2 len h
  omega

/-- The join pass maps the empty string to itself. -/
theorem joinBreaks_nil (dash : Char) : joinBreaks dash [] = [] := by
  rw [joinBreaks]

/-- Join-pass step when no match starts at the head. -/
theorem joinBreaks_cons_none (dash c : Char) (rest : Str)
    (h : breakMatch dash (c :: rest) = none) :
    joinBreaks dash (c :: rest) = c :: joinBreaks dash rest := by
  rw [joinBreaks, h]

/-- Join-pass step when a match starts at the head. -/
theorem joinBreaks_cons_some (dash c : Char) (rest : Str) (w1 w2 : Char) (len : Nat)
    (h : breakMatch dash (c :: rest) = some (w1, w2, len)) :
    joinBreaks dash (c :: rest) = w1 :: w2 :: joinBreaks dash ((c :: rest).drop (len.max 1)) := by
  rw [joinBreaks, h]

/-- The join pass preserves the first character of its input. -/
theorem joinBreaks_head (dash c : Char) (rest : Str) :
    ∃ t : Str, joinBreaks dash (c :: rest) = c :: t := by
  rcases h : breakMatch dash (c :: rest) with _ | ⟨w1, w2, len⟩
  · exact ⟨joinBreaks dash rest, joinBreaks_cons_none dash c rest h⟩
  · obtain ⟨r, t2, hs, _, _, _, _, _⟩ := breakMatch_some_inv dash _ w1 w2 len h
    have h1 : c = w1 := by injection hs
    refine ⟨w2 :: joinBreaks dash ((c :: rest).drop (len.max 1)), ?_⟩
    rw [joinBreaks_cons_some dash c rest w1 w2 len h, h1]

/-- Every character of the join pass output is a character of the input. -/
theorem joinBreaks_mem (dash : Char) :
    ∀ s : Str, ∀ c : Char, c ∈ joinBreaks dash s → c ∈ s := by
  have H : ∀ n : Nat, ∀ s : Str, s.length = n → ∀ c, c ∈ joinBreaks dash s → c ∈ s := by
    intro n
    induction n using Nat.strong_induction_on with
    | _ n ih =>
      intro s hlen c hc
      match s with
      | [] => rw [joinBreaks_nil] at hc; exact hc
      | a :: rest =>
        rcases h : breakMatch dash (a :: rest) with _ | ⟨w1, w2, len⟩
        · rw [joinBreaks_cons_none dash a rest h] at hc
          rcases List.mem_cons.mp hc with h1 | h1
          · exact h1 ▸ List.mem_cons_self a rest
          · exact List.mem_cons_of_mem a
              (ih rest.length (by simp at hlen; omega) rest rfl c h1)
        · obtain ⟨r, t2, hs, hw1, hnl, hdw, hw2, hl3⟩ := breakMatch_some_inv dash _ w1 w2 len h
          rw [joinBreaks_cons_some dash a rest w1 w2 len h] at hc
          rcases List.mem_cons.mp hc with h1 | h1
          · rw [hs, h1]; exact List.mem_cons_self _ _
          rcases List.mem_cons.mp h1 with h2 | h2
          · rw [hs, h2]
            have hmem : w2 ∈ r := (List.dropWhile_sublist jsSpace).subset
              (hdw ▸ List.mem_cons_self w2 t2)
            exact List.mem_cons_of_mem _ (List.mem_cons_of_mem _ hmem)
          · have hlp : 3 ≤ len := by omega
            have hmem := ih ((a :: rest).drop (len.max 1)).length
              (by
                have hge : 1 ≤ len.max 1 := Nat.le_max_right len 1
                simp only [List.length_drop, List.length_cons] at *
                omega)
              ((a :: rest).drop (len.max 1)) rfl c h2
            exact List.drop_subset (len.max 1) (a :: rest) hmem
  exact fun s => H s.length s rfl

/-- The join pass copies a prefix of non-word characters unchanged. -/
theorem joinBreaks_nonword_copy (dash : Char) (p q : Str)
    (hp : ∀ c ∈ p, isWordCh c = false) :
    joinBreaks dash (p ++ q) = p ++ joinBreaks dash q := by
  induction p with
  | nil => simp
  | cons c p2 ih =>
    have h0 : breakMatch dash (c :: (p2 ++ q)) = none :=
      breakMatch_not_word dash c _ (hp c (List.mem_cons_self c p2))
    simp only [List.cons_append]
    rw [joinBreaks_cons_none dash c _ h0, ih (fun x hx => hp x (List.mem_cons_of_mem c hx))]

/-- takeWhile over a satisfying run stopped by a failing character. -/
theorem takeWhile_append_of (p : Char → Bool) (run : Str) (w : Char) (tl : Str)
    (hrun : ∀ c ∈ run, p c = true) (hw : p w = false) :
    (run ++ w :: tl).takeWhile p = run := by
  induction run with
  | nil => simp [List.takeWhile_cons, hw]
  | cons c r ih =>
    simp only [List.cons_append, List.takeWhile_cons, hrun c (List.mem_cons_self c r), if_true]
    rw [ih (fun x hx => hrun x (List.mem_cons_of_mem c hx))]

/-- dropWhile over a satisfying run stopped by a failing character. -/
theorem dropWhile_append_of (p : Char → Bool) (run : Str) (w : Char) (tl : Str)
    (hrun : ∀ c ∈ run, p c = true) (hw : p w = false) :
    (run ++ w :: tl).dropWhile p = w :: tl := by
  induction run with
  | nil => simp [List.dropWhile_cons, hw]
  | cons c r ih =>
    simp only [List.cons_append, List.dropWhile_cons, hrun c (List.mem_cons_self c r), if_true]
    exact ih (fun x hx => hrun x (List.mem_cons_of_mem c hx))

/-- The first character surviving dropWhile fails the predicate. -/
theorem dropWhile_head_false (p : Char → Bool) :
    ∀ (l : Str) (b : Char) (t : Str), l.dropWhile p = b :: t → p b = false := by
  intro l
  induction l with
  | nil => intro b t h; simp at h
  | cons c r ih =>
    intro b t h
    rw [List.dropWhile_cons] at h
    by_cases hc : p c = true
    · rw [if_pos hc] at h; exact ih b t h
    · rw [if_neg hc] at h
      injection h with h1 h2
      rw [← h1]
      cases hpc : p c with
      | false => rfl
      | true => exact absurd hpc hc

/-- Value of the break regex on the decomposed shape: word character, dash,
whitespace run, then a non-whitespace character. -/
theorem breakMatch_shape (dash x w : Char) (run tl : Str)
    (hx : isWordCh x = true) (hrun : ∀ c ∈ run, jsSpace c = true) (hw : jsSpace w = false) :
    breakMatch dash (x :: dash :: (run ++ w :: tl)) =
      if run.contains '\n' = true ∧ isWordCh w = true
      then some (x, w, run.length + 3) else none := by
  have ht : (run ++ w :: tl).takeWhile jsSpace = run := takeWhile_append_of _ _ _ _ hrun hw
  have hd2 : (run ++ w :: tl).dropWhile jsSpace = w :: tl := dropWhile_append_of _ _ _ _ hrun hw
  simp only [breakMatch]
  rw [if_pos (show (isWordCh x && decide True) = true by simp [hx])]
  simp only [ht, hd2]
  by_cases h1 : run.contains '\n' = true
  · rw [if_pos h1]
    by_cases h2 : isWordCh w = true
    · rw [if_pos h2, if_pos ⟨h1, h2⟩]
    · rw [if_neg h2, if_neg (fun hcon => h2 hcon.2)]
  · rw [if_neg h1, if_neg (fun hcon => h1 hcon.1)]

/-- No-match propagation: if no break starts at a character in the
original string, none starts there in the joined remainder either. -/
theorem breakMatch_propagate (dash x : Char) (r : Str) (hd : isWordCh dash = false)
    (h : breakMatch dash (x :: r) = none) :
    breakMatch dash (x :: joinBreaks dash r) = none := by
  match r with
  | [] => rw [joinBreaks_nil]; exact breakMatch_one dash x
  | d :: v =>
    cases hx : isWordCh x with
    | false => exact breakMatch_not_word dash x _ hx
    | true =>
      by_cases hdd : d = dash
      · rw [hdd] at h ⊢
        have hhead : breakMatch dash (dash :: v) = none := breakMatch_not_word dash dash v hd
        rw [joinBreaks_cons_none dash dash v hhead]
        have hrun : ∀ c ∈ v.takeWhile jsSpace, jsSpace c = true :=
          fun c hc => List.mem_takeWhile_imp hc
        have hnw : ∀ c ∈ v.takeWhile jsSpace, isWordCh c = false :=
          fun c hc => jsSpace_not_word c (hrun c hc)
        have hsplit : v = v.takeWhile jsSpace ++ v.dropWhile jsSpace :=
          (List.takeWhile_append_dropWhile jsSpace v).symm
        rcases hdw : v.dropWhile jsSpace with _ | ⟨w, t2⟩
        · have hveq : v = v.takeWhile jsSpace := by
            conv_lhs => rw [hsplit, hdw, List.append_nil]
          have hvnw : ∀ c ∈ v, isWordCh c = false := by
            intro c hc; exact hnw c (hveq ▸ hc)
          have hjv : joinBreaks dash v = v := by
            have := joinBreaks_nonword_copy dash v [] hvnw
            rwa [List.append_nil, joinBreaks_nil, List.append_nil] at this
          rw [hjv]; exact h
        · have hw : jsSpace w = false := dropWhile_head_false jsSpace v w t2 hdw
          obtain ⟨J, hJ⟩ := joinBreaks_head dash w t2
          have hjv : joinBreaks dash v = v.takeWhile jsSpace ++ w :: J := by
            conv_lhs => rw [hsplit, hdw]
            rw [joinBreaks_nonword_copy dash _ _ hnw, hJ]
          rw [hjv]
          rw [breakMatch_shape dash x w (v.takeWhile jsSpace) J hx hrun hw]
          rw [hsplit, hdw] at h
          rw [breakMatch_shape dash x w (v.takeWhile jsSpace) t2 hx hrun hw] at h
          by_cases hP : (v.takeWhile jsSpace).contains '\n' = true ∧ isWordCh w = true
          · rw [if_pos hP] at h; exact absurd h (by simp)
          · rw [if_neg hP]
      · obtain ⟨t, ht⟩ := joinBreaks_head dash d v
        rw [ht]
        simp [breakMatch, hdd]

/-- hasBreakOcc is false exactly when no suffix carries a head match. -/
theorem hasBreakOcc_eq_false_iff (dash : Char) (t : Str) :
    hasBreakOcc dash t = false ↔ ∀ i : Nat, breakMatch dash (t.drop i) = none := by
  constructor
  · intro h i
    by_cases hi : i < t.length
    · simp only [hasBreakOcc, List.any_eq_false, List.mem_range] at h
      have h2 := h i hi
      rcases hm : breakMatch dash (t.drop i) with _ | v
      · rfl
      · rw [hm] at h2; simp at h2
    · rw [List.drop_eq_nil_of_le (Nat.le_of_not_lt hi)]
      exact breakMatch_nil dash
  · intro h
    simp only [hasBreakOcc, List.any_eq_false, List.mem_range]
    intro i _
    rw [h i]
    simp

/-- Chain-freedom restated over all suffixes: after any match, no new match
starts at the matched trailing word character. -/
theorem breaksChainFree_spec (dash : Char) (s : Str) (h : breaksChainFree dash s = true) :
    ∀ i w1 w2 len, breakMatch dash (s.drop i) = some (w1, w2, len) →
      breakMatch dash (s.drop (i + len - 1)) = none := by
  intro i w1 w2 len hm
  have hi : i < s.length := by
    by_contra hge
    rw [List.drop_eq_nil_of_le (Nat.le_of_not_lt hge), breakMatch_nil] at hm
    simp at hm
  simp only [breaksChainFree, List.all_eq_true, List.mem_range] at h
  have h2 := h i hi
  simp only [hm] at h2
  exact Option.isNone_iff_eq_none.mp h2

/-- A string with no dash character has no break occurrence. -/
theorem breakMatch_no_dash (dash : Char) (s : Str) (h : dash ∉ s) :
    breakMatch dash s = none := by
  match s with
  | [] => exact breakMatch_nil dash
  | [a] => exact breakMatch_one dash a
  | a :: b :: r =>
    have hb : ¬ (b = dash) := fun he =>
      h (he ▸ List.mem_cons_of_mem a (List.mem_cons_self b r))
    simp [breakMatch, hb]

/-- A string with no break occurrence passes through the join unchanged. -/
theorem joinBreaks_id_of_none (dash : Char) :
    ∀ s : Str, (∀ i, breakMatch dash (s.drop i) = none) → joinBreaks dash s = s := by
  intro s
  induction s with
  | nil => intro _; exact joinBreaks_nil dash
  | cons c rest ih =>
    intro h
    have h0 : breakMatch dash (c :: rest) = none := by
      have := h 0; rwa [List.drop_zero] at this
    rw [joinBreaks_cons_none dash c rest h0]
    rw [ih (fun i => by have := h (i + 1); rwa [List.drop_succ_cons] at this)]

/-- Main completeness lemma: on a chain-free string one join pass removes
every break occurrence. -/
theorem joinBreaks_no_occ (dash : Char) (hd : isWordCh dash = false) :
    ∀ s : Str,
      (∀ i w1 w2 len, breakMatch dash (s.drop i) = some (w1, w2, len) →
        breakMatch dash (s.drop (i + len - 1)) = none) →
      ∀ j, breakMatch dash ((joinBreaks dash s).drop j) = none := by
  have H : ∀ n : Nat, ∀ s : Str, s.length = n →
      (∀ i w1 w2 len, breakMatch dash (s.drop i) = some (w1, w2, len) →
        breakMatch dash (s.drop (i + len - 1)) = none) →
      ∀ j, breakMatch dash ((joinBreaks dash s).drop j) = none := by
    intro n
    induction n using Nat.strong_induction_on with
    | _ n ih =>
      intro s hlen hch j
      match s with
      | [] =>
        rw [joinBreaks_nil, List.drop_nil]
        exact breakMatch_nil dash
      | a :: rest =>
        rcases hm : breakMatch dash (a :: rest) with _ | ⟨w1, w2, len⟩
        · rw [joinBreaks_cons_none dash a rest hm]
          match j with
          | 0 =>
            rw [List.drop_zero]
            exact breakMatch_propagate dash a rest hd hm
          | j + 1 =>
            rw [List.drop_succ_cons]
            refine ih rest.length (by simp at hlen; omega) rest rfl ?_ j
            intro i v1 v2 lenx hmi
            have h1 : rest.drop i = (a :: rest).drop (i + 1) := by
              rw [List.drop_succ_cons]
            have h2 := hch (i + 1) v1 v2 lenx (by rw [← h1]; exact hmi)
            have hlp : 3 ≤ lenx := breakMatch_len_pos dash _ _ _ _ hmi
            have h3 : (a :: rest).drop (i + 1 + lenx - 1) = rest.drop (i + lenx - 1) := by
              rw [show i + 1 + lenx - 1 = (i + lenx - 1) + 1 by omega, List.drop_succ_cons]
            rwa [h3] at h2
        · obtain ⟨r, t2, hs, hw1, hnl, hdw, hw2, hl3⟩ := breakMatch_some_inv dash _ w1 w2 len hm
          rw [joinBreaks_cons_some dash a rest w1 w2 len hm]
          have hmax : len.max 1 = len := Nat.max_eq_left (by omega)
          have hr : r = r.takeWhile jsSpace ++ w2 :: t2 := by
            conv_lhs => rw [← List.takeWhile_append_dropWhile (p := jsSpace) (l := r), hdw]
          have hassoc : a :: rest = (w1 :: dash :: (r.takeWhile jsSpace ++ [w2])) ++ t2 := by
            rw [hs]
            conv_lhs => rw [hr]
            simp
          have hdrop_len : (a :: rest).drop len = t2 := by
            rw [hassoc, hl3]
            have hL : (w1 :: dash :: (r.takeWhile jsSpace ++ [w2])).length =
                (r.takeWhile jsSpace).length + 3 := by simp
            rw [← hL, List.drop_left]
          have hassoc2 : a :: rest = (w1 :: dash :: r.takeWhile jsSpace) ++ (w2 :: t2) := by
            rw [hs]
            conv_lhs => rw [hr]
            simp
          have hdrop_len1 : (a :: rest).drop (len - 1) = w2 :: t2 := by
            rw [hassoc2, hl3]
            have hL : (w1 :: dash :: r.takeWhile jsSpace).length =
                (r.takeWhile jsSpace).length + 3 - 1 := by simp
            rw [← hL, List.drop_left]
          have hchain0 : breakMatch dash (w2 :: t2) = none := by
            have hz := hch 0 w1 w2 len (by rw [List.drop_zero]; exact hm)
            rw [Nat.zero_add] at hz
            rwa [hdrop_len1] at hz
          have ht2hyp : ∀ i v1 v2 lenx, breakMatch dash (t2.drop i) = some (v1, v2, lenx) →
              breakMatch dash (t2.drop (i + lenx - 1)) = none := by
            intro i v1 v2 lenx hmi
            have hdd1 : t2.drop i = (a :: rest).drop (i + len) := by
              rw [← hdrop_len, List.drop_drop]
              congr 1
              omega
            have h2 := hch (i + len) v1 v2 lenx (by rw [← hdd1]; exact hmi)
            have hlp : 3 ≤ lenx := breakMatch_len_pos dash _ _ _ _ hmi
            have hdd2 : t2.drop (i + lenx - 1) = (a :: rest).drop (i + len + lenx - 1) := by
              rw [← hdrop_len, List.drop_drop]
              congr 1
              omega
            rwa [← hdd2] at h2
          have hlt2 : t2.length < n := by
            have hL := congrArg List.length hassoc
            simp only [List.length_cons, List.length_append] at hL
            simp only [List.length_cons] at hlen
            omega
          have hrec := ih t2.length hlt2 t2 rfl ht2hyp
          rw [hmax, hdrop_len]
          match j with
          | 0 =>
            rw [List.drop_zero]
            have hne : ¬ (w2 = dash) := fun he => by
              rw [he, hd] at hw2
              exact Bool.false_ne_true hw2
            simp [breakMatch, hne]
          | 1 =>
            show breakMatch dash (w2 :: joinBreaks dash t2) = none
            exact breakMatch_propagate dash w2 t2 hd hchain0
          | j + 2 =>
            show breakMatch dash ((joinBreaks dash t2).drop j) = none
            exact hrec j
  exact fun s => H s.length s rfl

/-- The join count of the empty string is zero. -/
theorem joinCount_nil (dash : Char) : joinCount dash [] = 0 := by
  rw [joinCount]

/-- Join-count step when no match starts at the head. -/
theorem joinCount_cons_none (dash c : Char) (rest : Str)
    (h : breakMatch dash (c :: rest) = none) :
    joinCount dash (c :: rest) = joinCount dash rest := by
  rw [joinCount, h]

/-- Join-count step when a match starts at the head. -/
theorem joinCount_cons_some (dash c : Char) (rest : Str) (w1 w2 : Char) (len : Nat)
    (h : breakMatch dash (c :: rest) = some (w1, w2, len)) :
    joinCount dash (c :: rest) = joinCount dash ((c :: rest).drop (len.max 1)) + 1 := by
  rw [joinCount, h]

/-- Full decomposition of a successful break match, with the two drop
identities that follow the join pass. -/
theorem breakMatch_decomp (dash : Char) (s : Str) (w1 w2 : Char) (len : Nat)
    (h : breakMatch dash s = some (w1, w2, len)) :
    ∃ run t2, s = w1 :: dash :: (run ++ w2 :: t2) ∧ (∀ c ∈ run, jsSpace c = true) ∧
      isWordCh w1 = true ∧ isWordCh w2 = true ∧ len = run.length + 3 ∧
      s.drop len = t2 ∧ s.drop (len - 1) = w2 :: t2 := by
  obtain ⟨r, t2, hs, hw1, hnl, hdw, hw2, hl3⟩ := breakMatch_some_inv dash s w1 w2 len h
  have hrun : ∀ c ∈ r.takeWhile jsSpace, jsSpace c = true :=
    fun c hc => List.mem_takeWhile_imp hc
  have hr : r = r.takeWhile jsSpace ++ w2 :: t2 := by
    conv_lhs => rw [← List.takeWhile_append_dropWhile (p := jsSpace) (l := r), hdw]
  have hs2 : s = w1 :: dash :: (r.takeWhile jsSpace ++ w2 :: t2) := by
    rw [hs]
    conv_lhs => rw [hr]
  refine ⟨r.takeWhile jsSpace, t2, hs2, hrun, hw1, hw2, hl3, ?_, ?_⟩
  · have hassoc : s = (w1 :: dash :: (r.takeWhile jsSpace ++ [w2])) ++ t2 := by
      rw [hs2]
      simp
    rw [hassoc, hl3]
    have hL : (w1 :: dash :: (r.takeWhile jsSpace ++ [w2])).length =
        (r.takeWhile jsSpace).length + 3 := by simp
    rw [← hL, List.drop_left]
  · have hassoc2 : s = (w1 :: dash :: r.takeWhile jsSpace) ++ (w2 :: t2) := by
      rw [hs2]
      simp
    rw [hassoc2, hl3]
    have hL : (w1 :: dash :: r.takeWhile jsSpace).length =
        (r.takeWhile jsSpace).length + 3 - 1 := by simp
    rw [← hL, List.drop_left]

/-- A join pass deletes only its dash and whitespace characters: the count
of any other character is preserved. -/
theorem joinBreaks_count_other (dash c : Char) (hcd : ¬ c = dash) (hcs : jsSpace c = false) :
    ∀ s : Str, (joinBreaks dash s).count c = s.count c := by
  have H : ∀ n : Nat, ∀ s : Str, s.length = n →
      (joinBreaks dash s).count c = s.count c := by
    intro n
    induction n using Nat.strong_induction_on with
    | _ n ih =>
      intro s hlen
      match s with
      | [] => rw [joinBreaks_nil]
      | a :: rest =>
        rcases hm : breakMatch dash (a :: rest) with _ | ⟨w1, w2, len⟩
        · rw [joinBreaks_cons_none dash a rest hm]
          simp only [List.count_cons]
          rw [ih rest.length (by simp at hlen; omega) rest rfl]
        · obtain ⟨run, t2, hs, hrun, hw1, hw2, hl3, hdl, hdl1⟩ :=
            breakMatch_decomp dash _ w1 w2 len hm
          rw [joinBreaks_cons_some dash a rest w1 w2 len hm]
          have hmax : len.max 1 = len := Nat.max_eq_left (by omega)
          rw [hmax, hdl]
          have hlt : t2.length < n := by
            have hL := congrArg List.length hs
            simp only [List.length_cons, List.length_append] at hL
            simp only [List.length_cons] at hlen
            omega
          have hrec := ih t2.length hlt t2 rfl
          have hrun0 : run.count c = 0 := by
            rw [List.count_eq_zero]
            intro hmem
            rw [hrun c hmem] at hcs
            exact Bool.false_ne_true hcs.symm
          have hdd : (dash == c) = false :=
            beq_eq_false_iff_ne.mpr (fun he => hcd he.symm)
          have h0 : (if (dash == c) = true then 1 else 0) = 0 := by
            rw [hdd]
            simp
          conv_rhs => rw [hs]
          simp only [List.count_cons, List.count_append]
          rw [hrec, hrun0, h0]
          omega
  exact fun s => H s.length s rfl

/-- The dash-join pass deletes exactly one dash per match it joins, and no
other dash. -/
theorem joinBreaks_count_dash (dash : Char) (hd : isWordCh dash = false)
    (hds : jsSpace dash = false) :
    ∀ s : Str, (joinBreaks dash s).count dash + joinCount dash s = s.count dash := by
  have H : ∀ n : Nat, ∀ s : Str, s.length = n →
      (joinBreaks dash s).count dash + joinCount dash s = s.count dash := by
    intro n
    induction n using Nat.strong_induction_on with
    | _ n ih =>
      intro s hlen
      match s with
      | [] =>
        rw [joinBreaks_nil, joinCount_nil]
        omega
      | a :: rest =>
        rcases hm : breakMatch dash (a :: rest) with _ | ⟨w1, w2, len⟩
        · rw [joinBreaks_cons_none dash a rest hm, joinCount_cons_none dash a rest hm]
          simp only [List.count_cons]
          have hrec := ih rest.length (by simp at hlen; omega) rest rfl
          omega
        · obtain ⟨run, t2, hs, hrun, hw1, hw2, hl3, hdl, hdl1⟩ :=
            breakMatch_decomp dash _ w1 w2 len hm
          rw [joinBreaks_cons_some dash a rest w1 w2 len hm,
            joinCount_cons_some dash a rest w1 w2 len hm]
          have hmax : len.max 1 = len := Nat.max_eq_left (by omega)
          rw [hmax, hdl]
          have hlt : t2.length < n := by
            have hL := congrArg List.length hs
            simp only [List.length_cons, List.length_append] at hL
            simp only [List.length_cons] at hlen
            omega
          have hrec := ih t2.length hlt t2 rfl
          have hrun0 : run.count dash = 0 := by
            rw [List.count_eq_zero]
            intro hmem
            rw [hrun dash hmem] at hds
            exact Bool.false_ne_true hds.symm
          have hw1d : (w1 == dash) = false :=
            beq_eq_false_iff_ne.mpr (fun he => by
              rw [he, hd] at hw1
              exact Bool.false_ne_true hw1)
          have hw2d : (w2 == dash) = false :=
            beq_eq_false_iff_ne.mpr (fun he => by
              rw [he, hd] at hw2
              exact Bool.false_ne_true hw2)
          have h1 : (if (w1 == dash) = true then 1 else 0) = 0 := by
            rw [hw1d]
            simp
          have h2 : (if (w2 == dash) = true then 1 else 0) = 0 := by
            rw [hw2d]
            simp
          have h3 : (if (dash == dash) = true then 1 else 0) = 1 := by simp
          conv_rhs => rw [hs]
          simp only [List.count_cons, List.count_append]
          rw [hrun0, h1, h2, h3]
          omega
  exact fun s => H s.length s rfl

/-- Soft-hyphen removal preserves the hyphen count. -/
theorem count_removeSoftHyphens (s : Str) :
    (removeSoftHyphens s).count '-' = s.count '-' :=
  List.count_filter (by decide)

/-- The break regex cannot match a string that holds no newline. -/
theorem breakMatch_no_newline (dash : Char) (s : Str) (h : '\n' ∉ s) :
    breakMatch dash s = none := by
  rcases hm : breakMatch dash s with _ | ⟨w1, w2, len⟩
  · rfl
  · exfalso
    obtain ⟨r, t2, hs, hw1, hnl, hdw, hw2, hl3⟩ := breakMatch_some_inv dash s w1 w2 len hm
    apply h
    have h1 : '\n' ∈ r.takeWhile jsSpace := by simpa using hnl
    have h2 : '\n' ∈ r := (List.takeWhile_sublist jsSpace).subset h1
    rw [hs]
    exact List.mem_cons_of_mem _ (List.mem_cons_of_mem _ h2)

/-- Cross-pass no-match propagation: if no break for the first dash starts
at a character of the original string, none starts there after the join
pass of a second dash runs on the remainder. -/
theorem breakMatch_cross_propagate (d1 d2 x : Char) (r : Str) (hd1 : isWordCh d1 = false)
    (h : breakMatch d1 (x :: r) = none) :
    breakMatch d1 (x :: joinBreaks d2 r) = none := by
  match r with
  | [] => rw [joinBreaks_nil]; exact breakMatch_one d1 x
  | d :: v =>
    cases hx : isWordCh x with
    | false => exact breakMatch_not_word d1 x _ hx
    | true =>
      by_cases hdd : d = d1
      · rw [hdd] at h ⊢
        have hhead : breakMatch d2 (d1 :: v) = none := breakMatch_not_word d2 d1 v hd1
        rw [joinBreaks_cons_none d2 d1 v hhead]
        have hrun : ∀ c ∈ v.takeWhile jsSpace, jsSpace c = true :=
          fun c hc => List.mem_takeWhile_imp hc
        have hnw : ∀ c ∈ v.takeWhile jsSpace, isWordCh c = false :=
          fun c hc => jsSpace_not_word c (hrun c hc)
        have hsplit : v = v.takeWhile jsSpace ++ v.dropWhile jsSpace :=
          (List.takeWhile_append_dropWhile jsSpace v).symm
        rcases hdw : v.dropWhile jsSpace with _ | ⟨w, t2⟩
        · have hveq : v = v.takeWhile jsSpace := by
            conv_lhs => rw [hsplit, hdw, List.append_nil]
          have hvnw : ∀ c ∈ v, isWordCh c = false := by
            intro c hc
            exact hnw c (hveq ▸ hc)
          have hjv : joinBreaks d2 v = v := by
            have hcopy := joinBreaks_nonword_copy d2 v [] hvnw
            rwa [List.append_nil, joinBreaks_nil, List.append_nil] at hcopy
          rw [hjv]
          exact h
        · have hw : jsSpace w = false := dropWhile_head_false jsSpace v w t2 hdw
          obtain ⟨J, hJ⟩ := joinBreaks_head d2 w t2
          have hjv : joinBreaks d2 v = v.takeWhile jsSpace ++ w :: J := by
            conv_lhs => rw [hsplit, hdw]
            rw [joinBreaks_nonword_copy d2 _ _ hnw, hJ]
          rw [hjv]
          rw [breakMatch_shape d1 x w (v.takeWhile jsSpace) J hx hrun hw]
          rw [hsplit, hdw] at h
          rw [breakMatch_shape d1 x w (v.takeWhile jsSpace) t2 hx hrun hw] at h
          by_cases hP : (v.takeWhile jsSpace).contains '\n' = true ∧ isWordCh w = true
          · rw [if_pos hP] at h
            exact absurd h (by simp)
          · rw [if_neg hP]
      · obtain ⟨t, ht⟩ := joinBreaks_head d2 d v
        rw [ht]
        simp [breakMatch, hdd]

/-- A join pass for one dash cannot create break occurrences for another
dash: a string free of breaks for the first dash stays free of them after
the second pass runs. -/
theorem joinBreaks_cross_none (d1 d2 : Char) (hd1 : isWordCh d1 = false) :
    ∀ s : Str, (∀ i, breakMatch d1 (s.drop i) = none) →
      ∀ j, breakMatch d1 ((joinBreaks d2 s).drop j) = none := by
  have H : ∀ n : Nat, ∀ s : Str, s.length = n →
      (∀ i, breakMatch d1 (s.drop i) = none) →
      ∀ j, breakMatch d1 ((joinBreaks d2 s).drop j) = none := by
    intro n
    induction n using Nat.strong_induction_on with
    | _ n ih =>
      intro s hlen h j
      match s with
      | [] =>
        rw [joinBreaks_nil, List.drop_nil]
        exact breakMatch_nil d1
      | a :: rest =>
        rcases hm : breakMatch d2 (a :: rest) with _ | ⟨w1, w2, len⟩
        · rw [joinBreaks_cons_none d2 a rest hm]
          match j with
          | 0 =>
            rw [List.drop_zero]
            refine breakMatch_cross_propagate d1 d2 a rest hd1 ?_
            have h0 := h 0
            rwa [List.drop_zero] at h0
          | j + 1 =>
            rw [List.drop_succ_cons]
            refine ih rest.length (by simp at hlen; omega) rest rfl ?_ j
            intro i
            have hi := h (i + 1)
            rwa [List.drop_succ_cons] at hi
        · obtain ⟨run, t2, hs, hrun, hw1, hw2, hl3, hdl, hdl1⟩ :=
            breakMatch_decomp d2 _ w1 w2 len hm
          rw [joinBreaks_cons_some d2 a rest w1 w2 len hm]
          have hmax : len.max 1 = len := Nat.max_eq_left (by omega)
          rw [hmax, hdl]
          have ht2hyp : ∀ i, breakMatch d1 (t2.drop i) = none := by
            intro i
            have hdd1 : t2.drop i = (a :: rest).drop (i + len) := by
              rw [← hdl, List.drop_drop]
              congr 1
              omega
            rw [hdd1]
            exact h (i + len)
          have hlt2 : t2.length < n := by
            have hL := congrArg List.length hs
            simp only [List.length_cons, List.length_append] at hL
            simp only [List.length_cons] at hlen
            omega
          have hrec := ih t2.length hlt2 t2 rfl ht2hyp
          match j with
          | 0 =>
            rw [List.drop_zero]
            have hne : ¬ (w2 = d1) := fun he => by
              rw [he, hd1] at hw2
              exact Bool.false_ne_true hw2
            simp [breakMatch, hne]
          | 1 =>
            show breakMatch d1 (w2 :: joinBreaks d2 t2) = none
            refine breakMatch_cross_propagate d1 d2 w2 t2 hd1 ?_
            have hl1 := h (len - 1)
            rwa [hdl1] at hl1
          | j + 2 =>
            show breakMatch d1 ((joinBreaks d2 t2).drop j) = none
            exact hrec j
  exact fun s => H s.length s rfl
/-- Claim C7 (counterexample): on chained hyphen breaks, one global replace
pass joins only the first break, because scanning resumes after the match;
a word-hyphen-newline-word occurrence survives in the output. -/
theorem C7_counterexample :
    fixHyphenationAdvanced (str "a-\nb-\nc") = str "ab-\nc" ∧
    hasBreakOcc '-' (fixHyphenationAdvanced (str "a-\nb-\nc")) = true := by
  refine ⟨by with_unfolding_all decide, by with_unfolding_all decide⟩

/-- Claim C7 (amended): fixHyphenationAdvanced removes every soft hyphen;
hyphens inside a line are preserved unconditionally — the only hyphens the
function deletes are the matched dashes of the break occurrences its first
global-replace pass joins, one per join, and a string without a newline
changes only by soft-hyphen removal; a string with no hyphen or en-dash
break occurrence and no soft hyphen passes through unchanged; and when no
hyphen break occurrence starts at the trailing word character of another
(chain-freedom), a single pass removes every hyphen break occurrence from
a string free of soft hyphens. -/
theorem C7_hyphenation_amended :
    (∀ s : Str, '­' ∉ fixHyphenationAdvanced s) ∧
    (∀ s : Str, (fixHyphenationAdvanced s).count '-' + joinCount '-' s = s.count '-') ∧
    (∀ s : Str, '\n' ∉ s → fixHyphenationAdvanced s = removeSoftHyphens s) ∧
    (∀ s : Str, hasBreakOcc '-' s = false → hasBreakOcc '–' s = false →
      '­' ∉ s → fixHyphenationAdvanced s = s) ∧
    (∀ s : Str, breaksChainFree '-' s = true → '­' ∉ s →
      hasBreakOcc '-' (fixHyphenationAdvanced s) = false) := by
  refine ⟨?_, ?_, ?_, ?_, ?_⟩
  · intro s hmem
    have h1 := joinBreaks_mem '–' _ _ hmem
    have h2 := (List.mem_filter.mp h1).2
    simp at h2
  · intro s
    have h3 : (joinBreaks '–' (removeSoftHyphens (joinBreaks '-' s))).count '-' =
        (removeSoftHyphens (joinBreaks '-' s)).count '-' :=
      joinBreaks_count_other '–' '-' (by decide) (by decide) _
    have h2 : (removeSoftHyphens (joinBreaks '-' s)).count '-' =
        (joinBreaks '-' s).count '-' := count_removeSoftHyphens _
    have h1 : (joinBreaks '-' s).count '-' + joinCount '-' s = s.count '-' :=
      joinBreaks_count_dash '-' (by decide) (by decide) s
    show (joinBreaks '–' (removeSoftHyphens (joinBreaks '-' s))).count '-' +
      joinCount '-' s = s.count '-'
    rw [h3, h2]
    exact h1
  · intro s hn
    have hb1 : ∀ i, breakMatch '-' (s.drop i) = none := fun i =>
      breakMatch_no_newline '-' _ (fun hm => hn (List.drop_subset i s hm))
    have e1 : joinBreaks '-' s = s := joinBreaks_id_of_none '-' s hb1
    have hn2 : '\n' ∉ removeSoftHyphens s := fun hm => hn (List.mem_of_mem_filter hm)
    have hb3 : ∀ i, breakMatch '–' ((removeSoftHyphens s).drop i) = none := fun i =>
      breakMatch_no_newline '–' _ (fun hm => hn2 (List.drop_subset i _ hm))
    have e3 : joinBreaks '–' (removeSoftHyphens s) = removeSoftHyphens s :=
      joinBreaks_id_of_none '–' _ hb3
    simp only [fixHyphenationAdvanced, e1, e3]
  · intro s h1 h2 h3
    have e1 : joinBreaks '-' s = s :=
      joinBreaks_id_of_none '-' s ((hasBreakOcc_eq_false_iff '-' s).mp h1)
    have e2 : removeSoftHyphens s = s := by
      refine List.filter_eq_self.mpr ?_
      intro a ha
      simp only [decide_eq_true_eq]
      exact fun he => h3 (he ▸ ha)
    have e3 : joinBreaks '–' s = s :=
      joinBreaks_id_of_none '–' s ((hasBreakOcc_eq_false_iff '–' s).mp h2)
    simp only [fixHyphenationAdvanced, e1, e2, e3]
  · intro s hcf hshy
    have hnot : isWordCh '-' = false := by decide
    have hocc := joinBreaks_no_occ '-' hnot s (breaksChainFree_spec '-' s hcf)
    have hshy1 : '­' ∉ joinBreaks '-' s := fun hm => hshy (joinBreaks_mem '-' s _ hm)
    have e2 : removeSoftHyphens (joinBreaks '-' s) = joinBreaks '-' s := by
      refine List.filter_eq_self.mpr ?_
      intro a ha
      simp only [decide_eq_true_eq]
      exact fun he => hshy1 (he ▸ ha)
    have hcross := joinBreaks_cross_none '-' '–' hnot (joinBreaks '-' s) hocc
    simp only [fixHyphenationAdvanced, e2]
    exact (hasBreakOcc_eq_false_iff '-' _).mpr hcross

/-- Witness for the amended hyphenation claim at concrete inputs. -/
theorem C7_hyphenation_amended_witness :
    ('\n' ∉ str "well-known" ∧
      fixHyphenationAdvanced (str "well-known") = removeSoftHyphens (str "well-known")) ∧
    (hasBreakOcc '-' (str "x-y") = false ∧ hasBreakOcc '–' (str "x-y") = false ∧
      '­' ∉ str "x-y" ∧ fixHyphenationAdvanced (str "x-y") = str "x-y") ∧
    (breaksChainFree '-' (str "a-\nb") = true ∧ '­' ∉ str "a-\nb" ∧
      hasBreakOcc '-' (fixHyphenationAdvanced (str "a-\nb")) = false) :=
  ⟨⟨by decide, C7_hyphenation_amended.2.2.1 (str "well-known") (by decide)⟩,
   ⟨by decide, by decide, by decide,
    C7_hyphenation_amended.2.2.2.1 (str "x-y") (by decide) (by decide) (by decide)⟩,
   ⟨by decide, by decide,
    C7_hyphenation_amended.2.2.2.2 (str "a-\nb") (by decide) (by decide)⟩⟩

-- =============================================================================
-- Theorems: claim C5 (math-density monotonicity and range)
-- =============================================================================

/-- A string whose match survives appending still satisfies the scan. -/
theorem scanAny_of_head (p : Str → Bool) (t : Str) (h : p t = true) : scanAny p t = true := by
  cases t with
  | nil => simpa [scanAny] using h
  | cons c r => simp [scanAny, h]

/-- scanAny is monotone under appending when the head predicate is. -/
theorem scanAny_mono (p : Str → Bool) (t : Str)
    (hp : ∀ u, p u = true → p (u ++ t) = true) :
    ∀ s : Str, scanAny p s = true → scanAny p (s ++ t) = true := by
  intro s
  induction s with
  | nil =>
    intro h
    rw [List.nil_append]
    exact scanAny_of_head p t (by simpa using hp [] (by simpa [scanAny] using h))
  | cons c r ih =>
    intro h
    simp only [scanAny, Bool.or_eq_true] at h
    rcases h with h | h
    · have h2 := hp (c :: r) h
      simp only [List.cons_append] at h2 ⊢
      simp [scanAny, h2]
    · simp only [List.cons_append]
      simp [scanAny, ih h]

/-- A prefix match survives appending on the right. -/
theorem beginsWith_append (pat : Str) : ∀ (u t : Str), beginsWith pat u = true →
    beginsWith pat (u ++ t) = true := by
  induction pat with
  | nil => intro u t _; rfl
  | cons p ps ih =>
    intro u t h
    cases u with
    | nil => simp [beginsWith] at h
    | cons c cs =>
      simp only [beginsWith, Bool.and_eq_true] at h
      simp only [List.cons_append, beginsWith, Bool.and_eq_true]
      exact ⟨h.1, ih cs t h.2⟩

/-- The empty pattern occurs in every string. -/
theorem hasSubstr_nil_pat : ∀ t : Str, hasSubstr [] t = true := by
  intro t
  cases t with
  | nil => rfl
  | cons c r => simp [hasSubstr, beginsWith]

/-- Only the empty pattern is a prefix of the empty string. -/
theorem beginsWith_nil_inv (pat : Str) (h : beginsWith pat [] = true) : pat = [] := by
  cases pat with
  | nil => rfl
  | cons p ps => simp [beginsWith] at h

/-- Substring occurrence survives appending on the right. -/
theorem hasSubstr_mono (pat : Str) (t : Str) :
    ∀ s : Str, hasSubstr pat s = true → hasSubstr pat (s ++ t) = true := by
  intro s
  induction s with
  | nil =>
    intro h
    simp only [hasSubstr] at h
    rw [List.nil_append, beginsWith_nil_inv pat h]
    exact hasSubstr_nil_pat t
  | cons c r ih =>
    intro h
    simp only [hasSubstr, Bool.or_eq_true] at h
    simp only [List.cons_append, hasSubstr, Bool.or_eq_true]
    rcases h with h | h
    · exact Or.inl (by have h2 := beginsWith_append pat (c :: r) t h; simpa using h2)
    · exact Or.inr (ih h)

/-- Containment survives appending on the right. -/
theorem contains_append_left (u t : Str) (c : Char) (h : u.contains c = true) :
    (u ++ t).contains c = true :=
  List.elem_eq_true_of_mem (List.mem_append_left t (List.mem_of_elem_eq_true h))

/-- dropWhile distributes over append when it stops inside the left part. -/
theorem dropWhile_append_nonnil (p : Char → Bool) :
    ∀ u t : Str, u.dropWhile p ≠ [] → (u ++ t).dropWhile p = u.dropWhile p ++ t := by
  intro u
  induction u with
  | nil => intro t h; exact absurd rfl h
  | cons c u2 ih =>
    intro t h
    by_cases hc : p c = true
    · simp only [List.dropWhile_cons, hc, if_true] at h
      simp only [List.cons_append, List.dropWhile_cons, hc, if_true]
      exact ih t h
    · simp [List.dropWhile_cons, hc]

/-- takeWhile ignores an appended tail when it stops inside the left
part. -/
theorem takeWhile_append_nonnil (p : Char → Bool) :
    ∀ u t : Str, u.dropWhile p ≠ [] → (u ++ t).takeWhile p = u.takeWhile p := by
  intro u
  induction u with
  | nil => intro t h; exact absurd rfl h
  | cons c u2 ih =>
    intro t h
    by_cases hc : p c = true
    · simp only [List.dropWhile_cons, hc, if_true] at h
      simp only [List.cons_append, List.takeWhile_cons, hc, if_true]
      rw [ih t h]
    · simp [List.takeWhile_cons, hc]

/-- Match-free characterization of the fraction head pattern. -/
theorem fracFrom_iff (s : Str) : fracFrom s = true ↔
    s.takeWhile isDigitCh ≠ [] ∧
    ∃ r, (s.dropWhile isDigitCh).dropWhile jsSpace = '/' :: r ∧
      ∃ d tl, r.dropWhile jsSpace = d :: tl ∧ isDigitCh d = true := by
  constructor
  · intro h
    simp only [fracFrom] at h
    split at h
    · simp at h
    · rename_i hds
      split at h
      · rename_i r heq1
        split at h
        · rename_i d tl heq2
          exact ⟨hds, r, heq1, d, tl, heq2, h⟩
        · simp at h
      · simp at h
  · intro ⟨h1, r, h2, d, tl, h3, h4⟩
    simp [fracFrom, h1, h2, h3, h4]

/-- The fraction head pattern survives appending on the right. -/
theorem fracFrom_mono (t : Str) (u : Str) (h : fracFrom u = true) :
    fracFrom (u ++ t) = true := by
  rw [fracFrom_iff] at h ⊢
  obtain ⟨h1, r, h2, d, tl, h3, h4⟩ := h
  have hdnn : u.dropWhile isDigitCh ≠ [] := by
    intro he
    rw [he] at h2
    simp at h2
  have hjnn : (u.dropWhile isDigitCh).dropWhile jsSpace ≠ [] := by
    rw [h2]; simp
  have hrnn : r.dropWhile jsSpace ≠ [] := by
    rw [h3]; simp
  refine ⟨?_, r ++ t, ?_, d, tl ++ t, ?_, h4⟩
  · rw [takeWhile_append_nonnil isDigitCh u t hdnn]; exact h1
  · rw [dropWhile_append_nonnil isDigitCh u t hdnn,
      dropWhile_append_nonnil jsSpace _ t hjnn, h2]
    simp
  · rw [dropWhile_append_nonnil jsSpace r t hrnn, h3]
    simp

/-- The fraction test survives appending on the right. -/
theorem fracTest_mono (u t : Str) (h : fracTest u = true) : fracTest (u ++ t) = true :=
  scanAny_mono fracFrom t (fun v hv => fracFrom_mono t v hv) u h

/-- The letter-subscript test survives appending on the right. -/
theorem letterSubSupTest_mono (t : Str) :
    ∀ u : Str, letterSubSupTest u = true → letterSubSupTest (u ++ t) = true := by
  intro u
  induction u with
  | nil => intro h; simp [letterSubSupTest] at h
  | cons a u2 ih =>
    intro h
    cases u2 with
    | nil => simp [letterSubSupTest] at h
    | cons b rest =>
      simp only [letterSubSupTest, Bool.or_eq_true] at h
      simp only [List.cons_append, letterSubSupTest, Bool.or_eq_true]
      rcases h with h | h
      · exact Or.inl h
      · have h2 := ih h
        simp only [List.cons_append] at h2
        exact Or.inr h2

/-- Match-free characterization of the single-letter equation head
pattern. -/
theorem eqFrom_iff (s : Str) : eqFrom s = true ↔
    ∃ c rest, s = c :: rest ∧ isAsciiLetter c = true ∧
      ∃ d tl, rest.dropWhile jsSpace = '=' :: d :: tl ∧ ¬ (d = '=') := by
  constructor
  · intro h
    match s with
    | [] => simp [eqFrom] at h
    | c :: rest =>
      simp only [eqFrom, Bool.and_eq_true] at h
      obtain ⟨hc, h⟩ := h
      split at h
      · rename_i r heq1
        split at h
        · rename_i d dtail
          exact ⟨c, rest, rfl, hc, d, dtail, heq1, by simpa using h⟩
        · simp at h
      · simp at h
  · intro ⟨c, rest, hs, hc, d, tl, heq, hne⟩
    rw [hs]
    simp [eqFrom, hc, heq, hne]

/-- The equation head pattern survives appending on the right. -/
theorem eqFrom_mono (t : Str) (u : Str) (h : eqFrom u = true) : eqFrom (u ++ t) = true := by
  rw [eqFrom_iff] at h ⊢
  obtain ⟨c, rest, hs, hc, d, tl, heq, hne⟩ := h
  have hrnn : rest.dropWhile jsSpace ≠ [] := by rw [heq]; simp
  refine ⟨c, rest ++ t, by rw [hs]; simp, hc, d, tl ++ t, ?_, hne⟩
  rw [dropWhile_append_nonnil jsSpace rest t hrnn, heq]
  simp

/-- The anchored equation test survives appending on the right. -/
theorem eqTest_mono (u t : Str) (h : eqTest u = true) : eqTest (u ++ t) = true := by
  simp only [eqTest, Bool.or_eq_true] at h ⊢
  rcases h with h | h
  · exact Or.inl (eqFrom_mono t u h)
  · refine Or.inr (scanAny_mono _ t ?_ u h)
    intro v hv
    match v with
    | [] => simp at hv
    | c :: rest =>
      simp only [Bool.and_eq_true] at hv
      simp only [List.cons_append, Bool.and_eq_true]
      exact ⟨hv.1, eqFrom_mono t rest hv.2⟩

/-- The square-root test survives appending on the right. -/
theorem sqrtTest_mono (u t : Str) (h : sqrtTest u = true) : sqrtTest (u ++ t) = true := by
  simp only [sqrtTest, Bool.or_eq_true] at h ⊢
  rcases h with (h | h) | h
  · exact Or.inl (Or.inl (hasSubstr_mono _ t u h))
  · exact Or.inl (Or.inr (hasSubstr_mono _ t u h))
  · exact Or.inr (contains_append_left u t _ h)

/-- The summation-or-integral test survives appending on the right. -/
theorem sumIntTest_mono (u t : Str) (h : sumIntTest u = true) : sumIntTest (u ++ t) = true := by
  simp only [sumIntTest, Bool.or_eq_true] at h ⊢
  rcases h with ((((h | h) | h) | h) | h) | h
  · exact Or.inl (Or.inl (Or.inl (Or.inl (Or.inl (hasSubstr_mono _ t u h)))))
  · exact Or.inl (Or.inl (Or.inl (Or.inl (Or.inr (hasSubstr_mono _ t u h)))))
  · exact Or.inl (Or.inl (Or.inl (Or.inr (contains_append_left u t _ h))))
  · exact Or.inl (Or.inl (Or.inr (hasSubstr_mono _ t u h)))
  · exact Or.inl (Or.inr (hasSubstr_mono _ t u h))
  · exact Or.inr (contains_append_left u t _ h)

/-- The math density always lies in the unit interval. -/
theorem mathDensity_bounds (s : Str) :
    0 ≤ calculateMathDensity s ∧ calculateMathDensity s ≤ 1 := by
  simp only [calculateMathDensity]
  split
  · norm_num
  · rename_i hlen
    have hlen0 : 0 < (s.length : ℚ) := by
      have h1 : 0 < s.length := Nat.pos_of_ne_zero hlen
      exact_mod_cast h1
    constructor
    · apply le_min (by norm_num)
      apply add_nonneg
      · apply div_nonneg _ (le_of_lt hlen0)
        split
        · positivity
        · positivity
      · split
        · refine add_nonneg (add_nonneg (add_nonneg (add_nonneg ?_ ?_) ?_) ?_) ?_ <;>
            (split <;> norm_num)
        · norm_num
    · exact min_le_left 1 _

/-- Claim C5: appending a letter of the Greek mapping table never lowers
the math density, and both the old and the new density lie in the unit
interval. -/
theorem C5_density_monotone (s : Str) (g : Char)
    (hg : g ∈ greekLetters.map (fun e => e.1)) :
    calculateMathDensity s ≤ calculateMathDensity (s ++ [g]) ∧
    0 ≤ calculateMathDensity s ∧ calculateMathDensity s ≤ 1 ∧
    0 ≤ calculateMathDensity (s ++ [g]) ∧ calculateMathDensity (s ++ [g]) ≤ 1 := by
  refine ⟨?_, (mathDensity_bounds s).1, (mathDensity_bounds s).2,
    (mathDensity_bounds (s ++ [g])).1, (mathDensity_bounds (s ++ [g])).2⟩
  have hgs : isStrongMath g = true := by
    have hmk : mathKeys.contains g = true := by
      simp only [mathKeys]
      exact contains_append_left _ _ g (contains_append_left _ _ g
        (contains_append_left _ _ g (List.elem_eq_true_of_mem hg)))
    have hmem : g ∈ mathKeys := List.mem_of_elem_eq_true hmk
    simp [isStrongMath, hmem]
  by_cases hzero : s.length = 0
  · have hs0 : s = [] := List.length_eq_zero.mp hzero
    rw [hs0]
    have h0 : calculateMathDensity [] = 0 := by simp [calculateMathDensity]
    rw [h0]
    exact (mathDensity_bounds ([] ++ [g])).1
  · have hlen : 0 < s.length := Nat.pos_of_ne_zero hzero
    have hcount_a : (s ++ [g]).countP isStrongMath = s.countP isStrongMath + 1 := by
      rw [List.countP_append]
      simp [List.countP_cons, hgs]
    have hcount_w : (s ++ [g]).countP (fun c => !(isStrongMath c) && isWeakMath c) =
        s.countP (fun c => !(isStrongMath c) && isWeakMath c) := by
      rw [List.countP_append]
      simp [List.countP_cons, hgs]
    have hlen2 : (s ++ [g]).length = s.length + 1 := by simp
    have hsum : s.countP isStrongMath +
        s.countP (fun c => !(isStrongMath c) && isWeakMath c) ≤ s.length := by
      have h1 : s.countP (fun c => !(isStrongMath c) && isWeakMath c) ≤
          s.countP (fun c => !(isStrongMath c)) := by
        apply List.countP_mono_left
        intro x _ hx
        simp only [Bool.and_eq_true] at hx
        exact hx.1
      have h2 := List.length_eq_countP_add_countP isStrongMath s
      have h3 : s.countP (fun c => !(isStrongMath c)) =
          s.countP (fun c => decide ¬ isStrongMath c = true) := by
        apply List.countP_congr
        intro x _
        simp
      omega
    simp only [calculateMathDensity, hcount_a, hcount_w, hlen2]
    rw [if_neg hzero, if_neg (by omega : ¬ (s.length + 1 = 0))]
    apply min_le_min (le_refl 1)
    apply add_le_add
    · rw [if_pos (by omega : s.countP isStrongMath + 1 > 0)]
      by_cases ha0 : s.countP isStrongMath > 0
      · rw [if_pos ha0]
        rw [div_le_div_iff₀ (by exact_mod_cast hlen)
          (by exact_mod_cast Nat.succ_pos s.length)]
        have hsq : (s.countP isStrongMath : ℚ) +
            (s.countP (fun c => !(isStrongMath c) && isWeakMath c) : ℚ) ≤ s.length := by
          exact_mod_cast hsum
        have hwn : (0:ℚ) ≤ (s.countP (fun c => !(isStrongMath c) && isWeakMath c) : ℚ) := by
          positivity
        push_cast
        nlinarith [hsq, hwn]
      · rw [if_neg ha0]
        have haz : s.countP isStrongMath = 0 := by omega
        rw [haz]
        norm_num
        positivity
    · by_cases hapos : s.countP isStrongMath > 0
      · rw [if_pos hapos, if_pos (by omega : s.countP isStrongMath + 1 > 0)]
        refine add_le_add (add_le_add (add_le_add (add_le_add ?_ ?_) ?_) ?_) ?_
        · by_cases hft : fracTest s = true
          · rw [if_pos hft, if_pos (fracTest_mono s [g] hft)]
          · rw [if_neg hft]; split <;> norm_num
        · by_cases hft : letterSubSupTest s = true
          · rw [if_pos hft, if_pos (letterSubSupTest_mono [g] s hft)]
          · rw [if_neg hft]; split <;> norm_num
        · by_cases hft : eqTest s = true
          · rw [if_pos hft, if_pos (eqTest_mono s [g] hft)]
          · rw [if_neg hft]; split <;> norm_num
        · by_cases hft : sqrtTest s = true
          · rw [if_pos hft, if_pos (sqrtTest_mono s [g] hft)]
          · rw [if_neg hft]; split <;> norm_num
        · by_cases hft : sumIntTest s = true
          · rw [if_pos hft, if_pos (sumIntTest_mono s [g] hft)]
          · rw [if_neg hft]; split <;> norm_num
      · rw [if_neg hapos, if_pos (by omega : s.countP isStrongMath + 1 > 0)]
        refine add_nonneg (add_nonneg (add_nonneg (add_nonneg ?_ ?_) ?_) ?_) ?_ <;>
          (split <;> norm_num)

/-- Witness for the density claim at a concrete input. -/
theorem C5_density_monotone_witness :
    'π' ∈ greekLetters.map (fun e => e.1) ∧
    (calculateMathDensity (str "x") ≤ calculateMathDensity (str "x" ++ ['π']) ∧
      0 ≤ calculateMathDensity (str "x") ∧ calculateMathDensity (str "x") ≤ 1 ∧
      0 ≤ calculateMathDensity (str "x" ++ ['π']) ∧
      calculateMathDensity (str "x" ++ ['π']) ≤ 1) :=
  ⟨by decide, C5_density_monotone (str "x") 'π' (by decide)⟩

-- =============================================================================
-- Theorems: claim C6 (column detection coverage)
-- =============================================================================

/-- Invariant of the gap-scan fold: the accumulated gap centers are sorted
and bounded by the number of processed bins times the bin width, and a
pending gap start dominates every accumulated center. -/
theorem gapFold_inv (b pw th : ℚ) (hb : 0 ≤ b) :
    ∀ (l : List Nat) (k : Nat) (acc : List ℚ) (pend : Option Nat),
      List.Pairwise (· ≤ ·) acc →
      (∀ x ∈ acc, 0 ≤ x ∧ x ≤ (k:ℚ) * b) →
      (∀ gs, pend = some gs → gs ≤ k ∧ ∀ x ∈ acc, x ≤ (gs:ℚ) * b) →
      List.Pairwise (· ≤ ·)
        (List.foldl (gapStep b pw th) (acc, pend) (l.enumFrom k)).1 ∧
      (∀ x ∈ (List.foldl (gapStep b pw th) (acc, pend) (l.enumFrom k)).1,
        0 ≤ x ∧ x ≤ ((k + l.length : ℕ):ℚ) * b) := by
  intro l
  induction l with
  | nil =>
    intro k acc pend hchain hbound _
    simpa using ⟨hchain, hbound⟩
  | cons h t iht =>
    intro k acc pend hchain hbound hpend
    have hstep : List.enumFrom k (h :: t) = (k, h) :: List.enumFrom (k + 1) t := rfl
    rw [hstep, List.foldl_cons]
    have hlen : ((k + (h :: t).length : ℕ):ℚ) * b = (((k + 1) + t.length : ℕ):ℚ) * b := by
      congr 1
      simp only [List.length_cons]
      push_cast
      ring
    rw [hlen]
    by_cases hth : ((h:ℚ) < th)
    · rcases hpd : pend with _ | gs
      · have hg : gapStep b pw th (acc, none) (k, h) = (acc, some k) := by
          simp [gapStep, hth]
        rw [hg]
        refine iht (k + 1) acc (some k) hchain ?_ ?_
        · intro x hx
          refine ⟨(hbound x hx).1, le_trans (hbound x hx).2 ?_⟩
          have : ((k:ℕ):ℚ) ≤ (((k + 1):ℕ):ℚ) := by push_cast; linarith
          exact mul_le_mul_of_nonneg_right this hb
        · intro gs2 hgs2
          injection hgs2 with hgs2
          refine ⟨by omega, ?_⟩
          intro x hx
          rw [← hgs2]
          exact (hbound x hx).2
      · have hg : gapStep b pw th (acc, some gs) (k, h) = (acc, some gs) := by
          simp [gapStep, hth]
        rw [hg]
        obtain ⟨hgk, hgb⟩ := hpend gs hpd
        refine iht (k + 1) acc (some gs) hchain ?_ ?_
        · intro x hx
          refine ⟨(hbound x hx).1, le_trans (hbound x hx).2 ?_⟩
          have : ((k:ℕ):ℚ) ≤ (((k + 1):ℕ):ℚ) := by push_cast; linarith
          exact mul_le_mul_of_nonneg_right this hb
        · intro gs2 hgs2
          injection hgs2 with hgs2
          subst hgs2
          exact ⟨by omega, hgb⟩
    · rcases hpd : pend with _ | gs
      · have hg : gapStep b pw th (acc, none) (k, h) = (acc, none) := by
          simp [gapStep, hth]
        rw [hg]
        refine iht (k + 1) acc none hchain ?_ (by simp)
        intro x hx
        refine ⟨(hbound x hx).1, le_trans (hbound x hx).2 ?_⟩
        have : ((k:ℕ):ℚ) ≤ (((k + 1):ℕ):ℚ) := by push_cast; linarith
        exact mul_le_mul_of_nonneg_right this hb
      · obtain ⟨hgk, hgb⟩ := hpend gs hpd
        have hcast : ((gs:ℕ):ℚ) ≤ ((k:ℕ):ℚ) := Nat.cast_le.mpr hgk
        have hkk : ((k:ℕ):ℚ) ≤ (((k + 1):ℕ):ℚ) := by push_cast; linarith
        by_cases hwide : ((k:ℚ) - (gs:ℚ)) * b > pw * 0.03
        · have hg : gapStep b pw th (acc, some gs) (k, h) =
              (acc ++ [((gs:ℚ) + (k:ℚ)) / 2 * b], none) := by
            simp [gapStep, hth, hwide]
          rw [hg]
          have hcb : 0 ≤ ((gs:ℚ) + (k:ℚ)) / 2 := by positivity
          refine iht (k + 1) _ none ?_ ?_ (by simp)
          · rw [List.pairwise_append]
            refine ⟨hchain, List.pairwise_singleton _ _, ?_⟩
            intro x hx y hy
            rw [List.mem_singleton] at hy
            subst hy
            refine le_trans (hgb x hx) (mul_le_mul_of_nonneg_right ?_ hb)
            linarith
          · intro x hx
            rcases List.mem_append.mp hx with hx | hx
            · refine ⟨(hbound x hx).1, le_trans (hbound x hx).2
                (mul_le_mul_of_nonneg_right hkk hb)⟩
            · rw [List.mem_singleton] at hx
              subst hx
              constructor
              · exact mul_nonneg hcb hb
              · refine mul_le_mul_of_nonneg_right ?_ hb
                push_cast
                linarith
        · have hg : gapStep b pw th (acc, some gs) (k, h) = (acc, none) := by
            simp [gapStep, hth, hwide]
          rw [hg]
          refine iht (k + 1) acc none hchain ?_ (by simp)
          intro x hx
          exact ⟨(hbound x hx).1, le_trans (hbound x hx).2
            (mul_le_mul_of_nonneg_right hkk hb)⟩

/-- The emitted gap centers are sorted and lie within the page. -/
theorem pageGaps_sorted (lines : List PositionedLine) (pw : ℚ) (hpw : 0 < pw) :
    List.Pairwise (· ≤ ·) (pageGaps lines (pw / 50) pw) ∧
    ∀ x ∈ pageGaps lines (pw / 50) pw, 0 ≤ x ∧ x ≤ pw := by
  have hb : 0 ≤ pw / 50 := by positivity
  have hmain := gapFold_inv (pw / 50) pw
    ((((pageHistogram lines (pw / 50)).foldl (· + ·) 0 : ℕ) : ℚ) / 50 * 0.2)
    hb (pageHistogram lines (pw / 50)) 0 [] none (by simp) (by simp) (by simp)
  have hlen : (pageHistogram lines (pw / 50)).length = 50 := by
    simp [pageHistogram]
  rw [hlen] at hmain
  have henum : (pageHistogram lines (pw / 50)).enum =
      (pageHistogram lines (pw / 50)).enumFrom 0 := rfl
  constructor
  · have h1 := hmain.1
    simpa [pageGaps, henum] using h1
  · intro x hx
    have hx2 : x ∈ (List.foldl
        (gapStep (pw / 50) pw
          ((((pageHistogram lines (pw / 50)).foldl (· + ·) 0 : ℕ) : ℚ) / 50 * 0.2))
        ([], none) ((pageHistogram lines (pw / 50)).enumFrom 0)).1 := by
      simpa [pageGaps, henum] using hx
    have h2 := hmain.2 x hx2
    refine ⟨h2.1, le_trans h2.2 ?_⟩
    have : ((0 + 50 : ℕ):ℚ) * (pw / 50) = pw := by
      push_cast
      ring
    rw [this]

/-- First components of consecutive pairs are list elements. -/
theorem consecPairs_mem_fst : ∀ (L : List ℚ) (p : ℚ × ℚ), p ∈ consecPairs L → p.1 ∈ L := by
  intro L
  induction L with
  | nil => intro p hp; simp [consecPairs] at hp
  | cons a L ih =>
    intro p hp
    cases L with
    | nil => simp [consecPairs] at hp
    | cons bb rest =>
      rw [show consecPairs (a :: bb :: rest) = (a, bb) :: consecPairs (bb :: rest) from rfl,
        List.mem_cons] at hp
      rcases hp with hp | hp
      · rw [hp]; exact List.mem_cons_self a _
      · exact List.mem_cons_of_mem a (ih p hp)

/-- Consecutive pairs of a sorted boundary list are end-to-start
ordered. -/
theorem consecPairs_pairwise : ∀ L : List ℚ, List.Pairwise (· ≤ ·) L →
    List.Pairwise (fun p q : ℚ × ℚ => p.2 ≤ q.1) (consecPairs L) := by
  intro L
  induction L with
  | nil => intro _; simp [consecPairs]
  | cons a L ih =>
    cases L with
    | nil => intro _; simp [consecPairs]
    | cons bb rest =>
      intro h
      rw [List.pairwise_cons] at h
      rw [show consecPairs (a :: bb :: rest) = (a, bb) :: consecPairs (bb :: rest) from rfl,
        List.pairwise_cons]
      refine ⟨?_, ih h.2⟩
      intro q hq
      have hmem := consecPairs_mem_fst (bb :: rest) q hq
      rcases List.mem_cons.mp hmem with h1 | h1
      · rw [h1]
      · exact (List.pairwise_cons.mp h.2).1 q.1 h1

/-- Columns built from a sorted boundary list have pairwise disjoint
ranges. -/
theorem columnsFromGaps_pairwise (lines : List PositionedLine) (pw ph : ℚ) (gaps : List ℚ)
    (h : List.Pairwise (· ≤ ·) (0 :: (gaps ++ [pw]))) :
    List.Pairwise (fun c1 c2 : PageColumn => c1.x + c1.width ≤ c2.x)
      (columnsFromGaps lines pw ph gaps) := by
  have hp := consecPairs_pairwise _ h
  refine List.Pairwise.filterMap _ ?_ hp
  intro p q hpq c1 hc1 c2 hc2
  rw [Option.mem_def] at hc1 hc2
  simp only at hc1 hc2
  split at hc1
  · exact absurd hc1 (by simp)
  · split at hc1
    · exact absurd hc1 (by simp)
    · injection hc1 with hc1
      split at hc2
      · exact absurd hc2 (by simp)
      · split at hc2
        · exact absurd hc2 (by simp)
        · injection hc2 with hc2
          rw [← hc1, ← hc2]
          simp only
          linarith

/-- A point lies in at most one of pairwise disjoint column ranges. -/
theorem countP_le_one_cols (x : ℚ) :
    ∀ cols : List PageColumn,
      List.Pairwise (fun c1 c2 => c1.x + c1.width ≤ c2.x) cols →
      cols.countP (fun c => decide (c.x ≤ x) && decide (x < c.x + c.width)) ≤ 1 := by
  intro cols
  induction cols with
  | nil => intro _; simp
  | cons c cols ih =>
    intro h
    rw [List.pairwise_cons] at h
    rw [List.countP_cons]
    by_cases hin : (decide (c.x ≤ x) && decide (x < c.x + c.width)) = true
    · rw [if_pos hin]
      have hz : List.countP (fun c2 => decide (c2.x ≤ x) && decide (x < c2.x + c2.width))
          cols = 0 := by
        rw [List.countP_eq_zero]
        intro c2 hc2 hcon
        simp only [Bool.and_eq_true, decide_eq_true_eq] at hin hcon
        have hd := h.1 c2 hc2
        linarith [hin.2, hcon.1]
      rw [hz]
    · rw [if_neg hin]
      have hle := ih h.2
      omega

/-- Flattening the grouped blocks recovers the grouped lines in order. -/
theorem groupLinesAux_lines : ∀ (rest : List PositionedLine) (prev : PositionedLine)
    (acc : List PositionedLine),
    ((groupLinesAux prev acc rest).map createBlock).flatMap (fun b => b.lines) =
      acc.reverse ++ rest := by
  intro rest
  induction rest with
  | nil => intro prev acc; simp [groupLinesAux, createBlock]
  | cons curr rest2 ih =>
    intro prev acc
    rw [groupLinesAux]
    by_cases hc : curr.y - prev.y > (prev.avgFontSize + curr.avgFontSize) / 2 * 2.5
    · rw [if_pos hc]
      simp only [List.map_cons, List.flatMap_cons, ih]
      simp [createBlock]
    · rw [if_neg hc, ih]
      simp

/-- The fallback column carries every input line, up to permutation. -/
theorem fallback_column_perm (lines : List PositionedLine) (pw ph : ℚ) :
    (columnLines ⟨0, pw, groupLinesIntoBlocks lines ph⟩).Perm lines := by
  have hperm := List.mergeSort_perm lines (fun a b => decide (a.y ≤ b.y))
  rcases hsort : lines.mergeSort (fun a b => decide (a.y ≤ b.y)) with _ | ⟨first, rest⟩
  · rw [hsort] at hperm
    simp only [columnLines, groupLinesIntoBlocks, hsort]
    exact hperm
  · rw [hsort] at hperm
    simp only [columnLines, groupLinesIntoBlocks, hsort]
    have hj := groupLinesAux_lines rest first [first]
    rw [hj]
    simpa using hperm

/-- Claim C6 (amended): every line center lies in at most one returned
column (the boundary slices are pairwise disjoint, but a slice narrower
than a fifth of the page is dropped together with the centers inside it),
and when no candidate column survives the filters, the single fallback
column spans the page and carries every input line. -/
theorem C6_column_cover_amended (lines : List PositionedLine) (pageWidth pageHeight : ℚ)
    (hne : lines ≠ []) (hpw : 0 < pageWidth) :
    (∀ x : ℚ, (detectPageColumns lines pageWidth pageHeight).countP
        (fun c => decide (c.x ≤ x) && decide (x < c.x + c.width)) ≤ 1) ∧
    (columnsFromGaps lines pageWidth pageHeight
        (pageGaps lines (pageWidth / 50) pageWidth) = [] →
      detectPageColumns lines pageWidth pageHeight =
        [⟨0, pageWidth, groupLinesIntoBlocks lines pageHeight⟩] ∧
      (columnLines ⟨0, pageWidth, groupLinesIntoBlocks lines pageHeight⟩).Perm lines) := by
  constructor
  · intro x
    simp only [detectPageColumns, if_neg hne]
    by_cases hcols : columnsFromGaps lines pageWidth pageHeight
        (pageGaps lines (pageWidth / 50) pageWidth) = []
    · rw [if_pos hcols]
      simp [List.countP_cons]
      split <;> norm_num
    · rw [if_neg hcols]
      apply countP_le_one_cols
      apply columnsFromGaps_pairwise
      obtain ⟨hsorted, hbounds⟩ := pageGaps_sorted lines pageWidth hpw
      rw [List.pairwise_cons]
      constructor
      · intro y hy
        rcases List.mem_append.mp hy with hy | hy
        · exact (hbounds y hy).1
        · rw [List.mem_singleton.mp hy]
          exact le_of_lt hpw
      · rw [List.pairwise_append]
        refine ⟨hsorted, List.pairwise_singleton _ _, ?_⟩
        intro y hy z hz
        rw [List.mem_singleton.mp hz]
        exact (hbounds y hy).2
  · intro hcols
    refine ⟨?_, fallback_column_perm lines pageWidth pageHeight⟩
    simp only [detectPageColumns, if_neg hne]
    rw [if_pos hcols]

/-- The middle line of the column-coverage counterexample page. -/
def cexLine3 : PositionedLine := ⟨[], 0, 44, 50, [], 10⟩

/-- A five-line page whose histogram produces two wide gaps around a
narrow middle slice. -/
def cexLines : List PositionedLine :=
  [⟨[], 0, 0, 38, [], 10⟩, ⟨[], 0, 0, 38, [], 10⟩, cexLine3,
   ⟨[], 0, 56, 100, [], 10⟩, ⟨[], 0, 56, 100, [], 10⟩]

/-- Claim C6 (counterexample): on the five-line page the detector returns
the two outer columns, and the middle line's x-center lies inside no
returned column, because the middle boundary slice is narrower than a
fifth of the page and is dropped together with the line inside it. -/
theorem C6_counterexample :
    ((detectPageColumns cexLines 100 100).map (fun c => (c.x, c.width)) =
      [((0:ℚ), (42:ℚ)), ((54:ℚ), (46:ℚ))]) ∧
    cexLine3 ∈ cexLines ∧
    (detectPageColumns cexLines 100 100).countP
        (fun c => decide (c.x ≤ lineCenter cexLine3) &&
          decide (lineCenter cexLine3 < c.x + c.width)) = 0 := by
  refine ⟨by with_unfolding_all decide, by with_unfolding_all decide,
    by with_unfolding_all decide⟩

/-- Witness for the amended column-coverage claim at a concrete input. -/
theorem C6_column_cover_amended_witness :
    cexLines ≠ [] ∧ (0:ℚ) < 100 ∧
    ((∀ x : ℚ, (detectPageColumns cexLines 100 100).countP
        (fun c => decide (c.x ≤ x) && decide (x < c.x + c.width)) ≤ 1) ∧
      (columnsFromGaps cexLines 100 100 (pageGaps cexLines (100 / 50) 100) = [] →
        detectPageColumns cexLines 100 100 =
          [⟨0, 100, groupLinesIntoBlocks cexLines 100⟩] ∧
        (columnLines ⟨0, 100, groupLinesIntoBlocks cexLines 100⟩).Perm cexLines)) :=
  ⟨by with_unfolding_all decide, by norm_num,
    C6_column_cover_amended cexLines 100 100 (by with_unfolding_all decide) (by norm_num)⟩

-- =============================================================================
-- Theorems: claim C1 (prose-column relabeling on multi-column pages)
-- =============================================================================

/-- Every type in the merge loop output comes from the input regions. -/
theorem mergeAux_types : ∀ (rest : List ClassifiedRegion) (cur : ClassifiedRegion),
    ∀ r ∈ mergeRegionsAux cur rest, r.type = cur.type ∨ ∃ r0 ∈ rest, r.type = r0.type := by
  intro rest
  induction rest with
  | nil =>
    intro cur r hr
    rw [mergeRegionsAux, List.mem_singleton] at hr
    left
    rw [hr]
  | cons next rest2 ih =>
    intro cur r hr
    rw [mergeRegionsAux] at hr
    by_cases hc : cur.type = next.type ∧ cur.columnIndex = next.columnIndex
    · rw [if_pos hc] at hr
      rcases ih (mergeTwoRegions cur next) r hr with h1 | ⟨r0, hr0, ht⟩
      · left; exact h1
      · right; exact ⟨r0, List.mem_cons_of_mem next hr0, ht⟩
    · rw [if_neg hc] at hr
      rcases List.mem_cons.mp hr with h1 | h1
      · left; rw [h1]
      · rcases ih next r h1 with h2 | ⟨r0, hr0, ht⟩
        · right; exact ⟨next, List.mem_cons_self _ _, h2⟩
        · right; exact ⟨r0, List.mem_cons_of_mem next hr0, ht⟩

/-- Every input region of the merge loop ends inside an output region of
the same type that carries all its blocks. -/
theorem mergeAux_blocks : ∀ (rest : List ClassifiedRegion) (cur : ClassifiedRegion)
    (r0 : ClassifiedRegion), r0 ∈ cur :: rest →
    ∃ r ∈ mergeRegionsAux cur rest, r.type = r0.type ∧ ∀ b ∈ r0.blocks, b ∈ r.blocks := by
  intro rest
  induction rest with
  | nil =>
    intro cur r0 h
    rw [List.mem_singleton] at h
    subst h
    rw [mergeRegionsAux]
    exact ⟨r0, List.mem_singleton_self _, rfl, fun b hb => hb⟩
  | cons next rest2 ih =>
    intro cur r0 h
    rw [mergeRegionsAux]
    by_cases hc : cur.type = next.type ∧ cur.columnIndex = next.columnIndex
    · rw [if_pos hc]
      rcases List.mem_cons.mp h with h1 | h1
      · obtain ⟨r, hrm, hrt, hrb⟩ := ih (mergeTwoRegions cur next) (mergeTwoRegions cur next)
          (List.mem_cons_self _ _)
        refine ⟨r, hrm, ?_, ?_⟩
        · rw [h1]; exact hrt
        · intro b hb
          apply hrb
          rw [h1] at hb
          exact List.mem_append_left _ hb
      · rcases List.mem_cons.mp h1 with h2 | h2
        · obtain ⟨r, hrm, hrt, hrb⟩ := ih (mergeTwoRegions cur next) (mergeTwoRegions cur next)
            (List.mem_cons_self _ _)
          refine ⟨r, hrm, ?_, ?_⟩
          · rw [h2, ← hc.1]; exact hrt
          · intro b hb
            apply hrb
            rw [h2] at hb
            exact List.mem_append_right _ hb
        · exact ih (mergeTwoRegions cur next) r0 (List.mem_cons_of_mem _ h2)
    · rw [if_neg hc]
      rcases List.mem_cons.mp h with h1 | h1
      · refine ⟨cur, List.mem_cons_self _ _, by rw [h1], ?_⟩
        intro b hb
        rw [h1] at hb
        exact hb
      · obtain ⟨r, hrm, hrt, hrb⟩ := ih next r0 h1
        exact ⟨r, List.mem_cons_of_mem cur hrm, hrt, hrb⟩

/-- Types of merged regions come from the input regions. -/
theorem mergeAdjacentRegions_types (L : List ClassifiedRegion) :
    ∀ r ∈ mergeAdjacentRegions L, ∃ r0 ∈ L, r.type = r0.type := by
  intro r hr
  have hperm := List.mergeSort_perm L regionLe
  rcases hsort : L.mergeSort regionLe with _ | ⟨first, rest⟩
  · simp only [mergeAdjacentRegions, hsort] at hr
    simp at hr
  · simp only [mergeAdjacentRegions, hsort] at hr
    rw [hsort] at hperm
    rcases mergeAux_types rest first r hr with h1 | ⟨r0, hr0, ht⟩
    · exact ⟨first, hperm.subset (List.mem_cons_self _ _), h1⟩
    · exact ⟨r0, hperm.subset (List.mem_cons_of_mem _ hr0), ht⟩

/-- Every input region survives merging inside a region of the same type
holding all its blocks. -/
theorem mergeAdjacentRegions_blocks (L : List ClassifiedRegion) (r0 : ClassifiedRegion)
    (hr0 : r0 ∈ L) :
    ∃ r ∈ mergeAdjacentRegions L, r.type = r0.type ∧ ∀ b ∈ r0.blocks, b ∈ r.blocks := by
  have hperm := List.mergeSort_perm L regionLe
  rcases hsort : L.mergeSort regionLe with _ | ⟨first, rest⟩
  · rw [hsort] at hperm
    have h2 := hperm.symm.subset hr0
    simp at h2
  · rw [hsort] at hperm
    have hr0s : r0 ∈ first :: rest := hperm.symm.subset hr0
    obtain ⟨r, hrm, hrt, hrb⟩ := mergeAux_blocks rest first r0 hr0s
    refine ⟨r, ?_, hrt, hrb⟩
    simp only [mergeAdjacentRegions, hsort]
    exact hrm

/-- Claim C1: on a multi-column page every prose-classified block is
emitted inside a region of type prose-column, and no region of type prose
appears in the layout. -/
theorem C1_prose_column (lines : List PositionedLine) (pageWidth pageHeight : ℚ)
    (h : (analyzePageLayout lines pageWidth pageHeight).isMultiColumn = true) :
    (∀ r ∈ (analyzePageLayout lines pageWidth pageHeight).regions,
      r.type ≠ RegionType.prose) ∧
    (∀ ci ∈ (detectPageColumns lines pageWidth pageHeight).enum,
      ∀ block ∈ ci.2.blocks,
        (classifyBlock block pageWidth).1 = RegionType.prose →
        ∃ r ∈ (analyzePageLayout lines pageWidth pageHeight).regions,
          r.type = RegionType.proseColumn ∧ block ∈ r.blocks) := by
  have hm : decide ((detectPageColumns lines pageWidth pageHeight).length > 1) = true := by
    simpa [analyzePageLayout] using h
  constructor
  · intro r hr
    simp only [analyzePageLayout] at hr
    obtain ⟨r0, hr0, hty⟩ := mergeAdjacentRegions_types _ r hr
    rw [List.mem_flatMap] at hr0
    obtain ⟨ci, hci, hr0m⟩ := hr0
    rw [List.mem_map] at hr0m
    obtain ⟨block, hblock, heq⟩ := hr0m
    rw [hty, ← heq]
    by_cases hcp : (classifyBlock block pageWidth).1 = RegionType.prose
    · simp [hm, hcp]
    · simp [hcp]
  · intro ci hci block hblock hcp
    simp only [analyzePageLayout]
    have hr0 : (⟨if decide ((detectPageColumns lines pageWidth pageHeight).length > 1) &&
          decide ((classifyBlock block pageWidth).1 = RegionType.prose)
        then RegionType.proseColumn else (classifyBlock block pageWidth).1,
        [block], block.bbox, (classifyBlock block pageWidth).2,
        some ci.1⟩ : ClassifiedRegion) ∈
        (detectPageColumns lines pageWidth pageHeight).enum.flatMap (fun ci =>
          ci.2.blocks.map (fun block =>
            (⟨if decide ((detectPageColumns lines pageWidth pageHeight).length > 1) &&
                decide ((classifyBlock block pageWidth).1 = RegionType.prose)
              then RegionType.proseColumn else (classifyBlock block pageWidth).1,
              [block], block.bbox, (classifyBlock block pageWidth).2,
              some ci.1⟩ : ClassifiedRegion))) := by
      rw [List.mem_flatMap]
      exact ⟨ci, hci, List.mem_map.mpr ⟨block, hblock, rfl⟩⟩
    obtain ⟨r, hrm, hrt, hrb⟩ := mergeAdjacentRegions_blocks _ _ hr0
    refine ⟨r, hrm, ?_, ?_⟩
    · rw [hrt]
      simp [hm, hcp]
    · apply hrb
      simp

/-- A two-line page detected as two columns. -/
def c1Lines : List PositionedLine :=
  [⟨[], 0, 0, 38, [], 10⟩, ⟨[], 0, 56, 100, [], 10⟩]

/-- Witness for the prose-column claim at a concrete multi-column page. -/
theorem C1_prose_column_witness :
    (analyzePageLayout c1Lines 100 100).isMultiColumn = true ∧
    ((∀ r ∈ (analyzePageLayout c1Lines 100 100).regions, r.type ≠ RegionType.prose) ∧
      (∀ ci ∈ (detectPageColumns c1Lines 100 100).enum, ∀ block ∈ ci.2.blocks,
        (classifyBlock block 100).1 = RegionType.prose →
        ∃ r ∈ (analyzePageLayout c1Lines 100 100).regions,
          r.type = RegionType.proseColumn ∧ block ∈ r.blocks)) :=
  ⟨by with_unfolding_all decide,
   C1_prose_column c1Lines 100 100 (by with_unfolding_all decide)⟩

-- =============================================================================
-- Theorems: claim C2 (table acceptance gate and confidence)
-- =============================================================================

/-- A doubly negated boolean is true. -/
theorem bool_of_not_not (b : Bool) (h : ¬ ((!b) = true)) : b = true := by
  cases b
  · exact absurd rfl h
  · rfl

/-- Rebuilding the cell-text grid from the emitted rows returns the grid
the strategy profiled. -/
theorem tableGrid_roundtrip (g : List (List Str)) :
    (gridRows g).map (fun r => r.cells.map (fun c => c.text)) = g := by
  rw [gridRows, List.map_map]
  have h : ∀ ir ∈ g.enum, ((fun r : TableRow => r.cells.map (fun c => c.text)) ∘
      (fun ir : Nat × List Str =>
        ({ cells := ir.2.map (fun text => (⟨text⟩ : TableCell)),
           isHeader := ir.1 = 0 } : TableRow))) ir = Prod.snd ir := by
    intro ir _
    simp [Function.comp_def, List.map_map]
  rw [List.map_congr_left h]
  exact List.enum_map_snd g

/-- Inversion of the bordered parser: the emitted rows carry a grid whose
bonus-bumped profile passed the gate, and the confidence is the capped
tenth of that bumped score. -/
theorem parseBorderedTable_conf (lines : List Str) (st : Nat) (t : DetectedTable)
    (h : parseBorderedTable lines st = some t) :
    ∃ g : List (List Str),
      t.rows = gridRows g ∧
      gridPassesProfile { profileGrid g with score := (profileGrid g).score + 2.0 } = true ∧
      t.confidence = min 1 (((profileGrid g).score + 2.0) / 10) := by
  unfold parseBorderedTable at h
  lift_lets at h
  extract_lets nz pl g0 mc ng p0 p rws at h
  split at h
  · simp at h
  · split at h
    · simp at h
    · split at h
      · simp at h
      · split at h
        · simp at h
        · rename_i hgate
          injection h with h
          subst h
          exact ⟨ng, rfl, bool_of_not_not _ hgate, rfl⟩

/-- Inversion of the ASCII strategy: the emitted rows carry a grid whose
profile passed the gate, and the confidence is the capped tenth of the
profile score. -/
theorem detectAsciiTables_conf (lines : List TextLine) (pw : ℚ) (t : DetectedTable)
    (h : t ∈ detectAsciiTables lines pw) :
    ∃ g : List (List Str),
      t.rows = gridRows g ∧
      gridPassesProfile (profileGrid g) = true ∧
      t.confidence = min 1 ((profileGrid g).score / 10) := by
  unfold detectAsciiTables at h
  lift_lets at h
  extract_lets ts sl irw fr lr cl cf rc tc0 tcs g0 p rws at h
  split at h
  · simp at h
  · split at h
    · simp at h
    · split at h
      · simp at h
      · split at h
        · simp at h
        · split at h
          · simp at h
          · split at h
            · simp at h
            · split at h
              · simp at h
              · rename_i hgate
                rw [List.mem_singleton] at h
                subst h
                exact ⟨g0, rfl, bool_of_not_not _ hgate, rfl⟩

/-- Inversion of the positioned-row builder: the emitted rows carry a grid
whose profile passed the gate, and the confidence is the capped tenth of
the score floored at two fifths. -/
theorem tryBuildTable_conf (rows : List PositionedRow) (s e : Nat) (t : DetectedTable)
    (h : tryBuildTable rows s e = some t) :
    ∃ g : List (List Str),
      t.rows = gridRows g ∧
      gridPassesProfile (profileGrid g) = true ∧
      t.confidence = min 1 (max 0.4 ((profileGrid g).score / 10)) := by
  unfold tryBuildTable at h
  lift_lets at h
  extract_lets bd g0 p trs at h
  split at h
  · simp at h
  · split at h
    · simp at h
    · rename_i hgate
      split at h
      · simp at h
      · split at h
        · simp at h
        · injection h with h
          subst h
          exact ⟨g0, rfl, bool_of_not_not _ hgate, rfl⟩

/-- Every table of the bordered run loop comes from the bordered parser. -/
theorem detectBorderedAux_members :
    ∀ (lines : List TextLine) (i : Nat) (ts : Option Nat) (tl : List Str)
      (t : DetectedTable), t ∈ detectBorderedAux lines i ts tl →
      ∃ l0 s0, parseBorderedTable l0 s0 = some t := by
  intro lines
  induction lines with
  | nil =>
    intro i ts tl t ht
    rcases ts with _ | st
    · simp [detectBorderedAux] at ht
    · simp only [detectBorderedAux] at ht
      split at ht
      · rw [Option.mem_toList] at ht
        exact ⟨tl, st, ht⟩
      · simp at ht
  | cons l rest ih =>
    intro i ts tl t ht
    simp only [detectBorderedAux] at ht
    split at ht
    · rcases ts with _ | st
      · exact ih (i + 1) (some i) [l.text] t ht
      · exact ih (i + 1) (some st) (tl ++ [l.text]) t ht
    · rcases ts with _ | st
      · exact ih (i + 1) none [] t ht
      · rw [List.mem_append] at ht
        rcases ht with ht | ht
        · split at ht
          · rw [Option.mem_toList] at ht
            exact ⟨tl, st, ht⟩
          · simp at ht
        · exact ih (i + 1) none [] t ht

/-- Every table of the positioned-row loop comes from the row builder. -/
theorem dtfprAux_members :
    ∀ (n : Nat) (rows : List PositionedRow), rows.length = n → ∀ (idx : Nat)
      (t : DetectedTable), t ∈ dtfprAux rows idx →
      ∃ r0 s0 e0, tryBuildTable r0 s0 e0 = some t := by
  intro n
  induction n using Nat.strong_induction_on with
  | _ n ih =>
    intro rows hlen idx t ht
    match rows with
    | [] =>
      rw [dtfprAux] at ht
      simp at ht
    | r :: rest =>
      rw [dtfprAux] at ht
      split at ht
      · exact ih rest.length (by simp at hlen; omega) rest rfl (idx + 1) t ht
      · rw [List.mem_append] at ht
        rcases ht with ht | ht
        · split at ht
          · lift_lets at ht
            extract_lets at ht
            split at ht
            · rw [Option.mem_toList] at ht
              exact ⟨_, _, _, ht⟩
            · simp at ht
          · simp at ht
        · refine ih (rest.drop (regionExtent r rest r.cells.length)).length ?_
            _ rfl _ t ht
          simp only [List.length_drop, List.length_cons] at hlen ⊢
          omega

/-- Claim C2 (amended): every emitted table's rows carry a cell-text grid
whose recomputed profile passed the acceptance gate (with the fixed bonus
of two added to the score for the bordered strategy), and the confidence
is the capped tenth of that gated score for the bordered and ASCII
strategies, but is additionally floored at two fifths for the
positioned-row strategy. -/
theorem C2_table_confidence_amended :
    (∀ (lines : List Str) (st : Nat) (t : DetectedTable),
      parseBorderedTable lines st = some t →
      gridPassesProfile { profileGrid (tableGrid t) with
          score := (profileGrid (tableGrid t)).score + 2.0 } = true ∧
      t.confidence = min 1 (((profileGrid (tableGrid t)).score + 2.0) / 10)) ∧
    (∀ (lines : List TextLine) (t : DetectedTable), t ∈ detectBorderedTables lines →
      gridPassesProfile { profileGrid (tableGrid t) with
          score := (profileGrid (tableGrid t)).score + 2.0 } = true ∧
      t.confidence = min 1 (((profileGrid (tableGrid t)).score + 2.0) / 10)) ∧
    (∀ (lines : List TextLine) (pw : ℚ) (t : DetectedTable), t ∈ detectAsciiTables lines pw →
      gridPassesProfile (profileGrid (tableGrid t)) = true ∧
      t.confidence = min 1 ((profileGrid (tableGrid t)).score / 10)) ∧
    (∀ (rows : List PositionedRow) (s e : Nat) (t : DetectedTable),
      tryBuildTable rows s e = some t →
      gridPassesProfile (profileGrid (tableGrid t)) = true ∧
      t.confidence = min 1 (max 0.4 ((profileGrid (tableGrid t)).score / 10))) ∧
    (∀ (rows : List PositionedRow) (t : DetectedTable),
      t ∈ detectTablesFromPositionedRows rows →
      gridPassesProfile (profileGrid (tableGrid t)) = true ∧
      t.confidence = min 1 (max 0.4 ((profileGrid (tableGrid t)).score / 10))) := by
  have hb : ∀ (lines : List Str) (st : Nat) (t : DetectedTable),
      parseBorderedTable lines st = some t →
      gridPassesProfile { profileGrid (tableGrid t) with
          score := (profileGrid (tableGrid t)).score + 2.0 } = true ∧
      t.confidence = min 1 (((profileGrid (tableGrid t)).score + 2.0) / 10) := by
    intro lines st t h
    obtain ⟨g, hrows, hgate, hconf⟩ := parseBorderedTable_conf lines st t h
    have htg : tableGrid t = g := by
      rw [tableGrid, hrows, tableGrid_roundtrip]
    rw [htg]
    exact ⟨hgate, hconf⟩
  have hv : ∀ (rows : List PositionedRow) (s e : Nat) (t : DetectedTable),
      tryBuildTable rows s e = some t →
      gridPassesProfile (profileGrid (tableGrid t)) = true ∧
      t.confidence = min 1 (max 0.4 ((profileGrid (tableGrid t)).score / 10)) := by
    intro rows s e t h
    obtain ⟨g, hrows, hgate, hconf⟩ := tryBuildTable_conf rows s e t h
    have htg : tableGrid t = g := by
      rw [tableGrid, hrows, tableGrid_roundtrip]
    rw [htg]
    exact ⟨hgate, hconf⟩
  refine ⟨hb, ?_, ?_, hv, ?_⟩
  · intro lines t ht
    obtain ⟨l0, s0, h⟩ := detectBorderedAux_members lines 0 none [] t ht
    exact hb l0 s0 t h
  · intro lines pw t ht
    obtain ⟨g, hrows, hgate, hconf⟩ := detectAsciiTables_conf lines pw t ht
    have htg : tableGrid t = g := by
      rw [tableGrid, hrows, tableGrid_roundtrip]
    rw [htg]
    exact ⟨hgate, hconf⟩
  · intro rows t ht
    rw [detectTablesFromPositionedRows] at ht
    split at ht
    · simp at ht
    · obtain ⟨r0, s0, e0, h⟩ := dtfprAux_members _ _ rfl 0 t ht
      exact hv r0 s0 e0 t h

/-- Two positioned rows whose grid passes the gate with a score below
four. -/
def c2Rows : List PositionedRow :=
  [⟨[⟨str "ab", 0, 10⟩, ⟨List.replicate 110 'x', 100, 10⟩], 0⟩,
   ⟨[⟨str "ab", 0, 10⟩, ⟨List.replicate 110 'x', 100, 10⟩], 10⟩]

/-- Claim C2 (counterexample): the positioned-row strategy emits a table
whose grid passes the gate, yet its confidence is the
floored two fifths, not the tenth of the score. -/
theorem C2_counterexample :
    (tryBuildTable c2Rows 0 1).map (fun t => t.confidence) = some (2/5) ∧
    gridPassesProfile (profileGrid (buildGridFromPositionedRows c2Rows
      (findColumnBoundaries c2Rows 15))) = true ∧
    min 1 ((profileGrid (buildGridFromPositionedRows c2Rows
      (findColumnBoundaries c2Rows 15))).score / 10) ≠ (2/5 : ℚ) := by
  refine ⟨?_, ?_, ?_⟩ <;> with_unfolding_all decide

/-- Witness for the amended table-confidence claim at a concrete bordered
input. -/
theorem C2_table_confidence_amended_witness :
    ∃ t : DetectedTable,
      parseBorderedTable [str "| a | b |", str "| 1 | 2 |"] 0 = some t ∧
      gridPassesProfile { profileGrid (tableGrid t) with
          score := (profileGrid (tableGrid t)).score + 2.0 } = true ∧
      t.confidence = min 1 (((profileGrid (tableGrid t)).score + 2.0) / 10) := by
  rcases h : parseBorderedTable [str "| a | b |", str "| 1 | 2 |"] 0 with _ | t
  · have h2 : (parseBorderedTable [str "| a | b |", str "| 1 | 2 |"] 0).isSome = true := by
      with_unfolding_all decide
    rw [h] at h2
    simp at h2
  · obtain ⟨h1, h2⟩ :=
      C2_table_confidence_amended.1 [str "| a | b |", str "| 1 | 2 |"] 0 t h
    exact ⟨t, rfl, h1, h2⟩

-- =============================================================================
-- Theorems: claim C3 (segmentation is a contiguous partition)
-- =============================================================================

/-- Exact tiling of a region: the segments cover the string in order, with
indices that advance by each segment's text length from the base. -/
def tiles (base : Nat) : List MathSegment → Str → Prop
  | [], s => s = []
  | seg :: more, s =>
    seg.startIndex = base ∧ seg.endIndex = base + seg.text.length ∧
    ∃ s2 : Str, s = seg.text ++ s2 ∧ tiles (base + seg.text.length) more s2

/-- Well-formed span list: starts never before the previous end, starts
before ends, ends within the string. -/
def spansOK (slen : Nat) : Nat → List (Nat × Nat × Str) → Prop
  | _, [] => True
  | lastEnd, sp :: more =>
    lastEnd ≤ sp.1 ∧ sp.1 ≤ sp.2.1 ∧ sp.2.1 ≤ slen ∧ spansOK slen sp.2.1 more

/-- A dropped prefix splits as the slice up to b and the remainder. -/
theorem slice_decomp (s : Str) (a b : Nat) (hab : a ≤ b) :
    s.drop a = strSlice s a b ++ s.drop b := by
  have h1 := List.take_append_drop (b - a) (s.drop a)
  conv_lhs => rw [← h1]
  congr 1
  · rw [strSlice, List.drop_take]
  · rw [List.drop_drop]
    congr 1
    omega

/-- Length of an in-range slice. -/
theorem slice_len (s : Str) (a b : Nat) (hab : a ≤ b) (hb : b ≤ s.length) :
    (strSlice s a b).length = b - a := by
  simp only [strSlice, List.length_drop, List.length_take]
  omega

/-- Tiling concatenates: two adjacent tilings tile the concatenation. -/
theorem tiles_append : ∀ (segs1 : List MathSegment) (base : Nat) (s1 : Str)
    (segs2 : List MathSegment) (s2 : Str),
    tiles base segs1 s1 → tiles (base + s1.length) segs2 s2 →
    tiles base (segs1 ++ segs2) (s1 ++ s2) := by
  intro segs1
  induction segs1 with
  | nil =>
    intro base s1 segs2 s2 h1 h2
    rw [tiles] at h1
    subst h1
    simpa using h2
  | cons seg more ih =>
    intro base s1 segs2 s2 h1 h2
    rw [tiles] at h1
    obtain ⟨hst, hen, s3, hs1, h3⟩ := h1
    rw [List.cons_append, tiles]
    refine ⟨hst, hen, s3 ++ s2, by rw [hs1]; simp, ?_⟩
    apply ih
    · exact h3
    · rw [hs1] at h2
      simp only [List.length_append] at h2
      have he : base + seg.text.length + s3.length = base + (seg.text.length + s3.length) := by
        omega
      rw [he]
      exact h2

/-- A tiling reproduces the string by concatenation. -/
theorem tiles_flatten : ∀ (segs : List MathSegment) (base : Nat) (s : Str),
    tiles base segs s → (segs.map (fun seg => seg.text)).flatten = s := by
  intro segs
  induction segs with
  | nil => intro base s h; rw [tiles] at h; simp [h]
  | cons seg more ih =>
    intro base s h
    rw [tiles] at h
    obtain ⟨_, _, s2, hs, h2⟩ := h
    simp only [List.map_cons, List.flatten_cons]
    rw [hs, ih (base + seg.text.length) s2 h2]

/-- The first segment of a tiling starts at the base. -/
theorem tiles_head_start (seg : MathSegment) (more : List MathSegment) (base : Nat) (s : Str)
    (h : tiles base (seg :: more) s) : seg.startIndex = base := by
  rw [tiles] at h
  exact h.1

/-- Consecutive segments of a tiling abut. -/
theorem tiles_chain : ∀ (segs : List MathSegment) (base : Nat) (s : Str),
    tiles base segs s →
    List.Chain' (fun a b => a.endIndex = b.startIndex) segs := by
  intro segs
  induction segs with
  | nil => intro base s _; simp
  | cons seg more ih =>
    intro base s h
    rw [tiles] at h
    obtain ⟨hst, hen, s2, hs, h2⟩ := h
    rw [List.chain'_cons']
    refine ⟨?_, ih (base + seg.text.length) s2 h2⟩
    intro nxt hnxt
    cases more with
    | nil => simp at hnxt
    | cons n2 m2 =>
      simp only [List.head?_cons, Option.mem_def, Option.some.injEq] at hnxt
      rw [hen, ← hnxt]
      exact (tiles_head_start n2 m2 _ s2 h2).symm

/-- Segment indices of a tiling are ordered and bounded. -/
theorem tiles_bounds : ∀ (segs : List MathSegment) (base : Nat) (s : Str),
    tiles base segs s → ∀ seg ∈ segs,
      base ≤ seg.startIndex ∧ seg.startIndex ≤ seg.endIndex ∧
      seg.endIndex ≤ base + s.length := by
  intro segs
  induction segs with
  | nil => intro base s _ seg hseg; simp at hseg
  | cons sg more ih =>
    intro base s h seg hseg
    rw [tiles] at h
    obtain ⟨hst, hen, s2, hs, h2⟩ := h
    rcases List.mem_cons.mp hseg with h1 | h1
    · subst h1
      refine ⟨le_of_eq hst.symm, by omega, ?_⟩
      rw [hs]
      simp only [List.length_append]
      omega
    · have h3 := ih (base + sg.text.length) s2 h2 seg h1
      refine ⟨le_trans (by omega) h3.1, h3.2.1, ?_⟩
      rw [hs]
      simp only [List.length_append]
      omega

/-- Each segment of a tiling is the slice of the full string at its
indices. -/
theorem tiles_slice : ∀ (segs : List MathSegment) (pre s : Str),
    tiles pre.length segs s → ∀ seg ∈ segs,
      seg.text = strSlice (pre ++ s) seg.startIndex seg.endIndex := by
  intro segs
  induction segs with
  | nil => intro pre s _ seg hseg; simp at hseg
  | cons sg more ih =>
    intro pre s h seg hseg
    rw [tiles] at h
    obtain ⟨hst, hen, s2, hs, h2⟩ := h
    rcases List.mem_cons.mp hseg with h1 | h1
    · subst h1
      rw [hst, hen, hs, strSlice]
      have ht : (pre ++ (seg.text ++ s2)).take (pre.length + seg.text.length) =
          pre ++ seg.text := by
        rw [List.take_append, List.take_left]
      rw [ht, List.drop_left]
    · have hlen : (pre ++ sg.text).length = pre.length + sg.text.length := by simp
      have h3 := ih (pre ++ sg.text) s2 (by rw [hlen]; exact h2) seg h1
      rw [h3, hs]
      congr 1
      simp

/-- A single non-math segment tiles its region. -/
theorem plainSegment_tiles (s : Str) (base : Nat) : tiles base (plainSegment s base) s := by
  rw [plainSegment, tiles]
  exact ⟨rfl, rfl, [], by simp, by rw [tiles]⟩

/-- The common tail of the plain-text detector tiles its region. -/
theorem plainTail_tiles (s : Str) (base : Nat) (sc : Nat) (d : ℚ) :
    tiles base (plainTail s base sc d) s := by
  rw [plainTail]
  split
  · exact plainSegment_tiles s base
  · split
    · exact plainSegment_tiles s base
    · rw [tiles]
      exact ⟨rfl, rfl, [], by simp, by rw [tiles]⟩

/-- Weakening of the span lower bound. -/
theorem spansOK_weaken (slen : Nat) (a b : Nat) (l : List (Nat × Nat × Str))
    (h : spansOK slen a l) (hba : b ≤ a) : spansOK slen b l := by
  cases l with
  | nil => rw [spansOK]; trivial
  | cons sp more =>
    rw [spansOK] at h ⊢
    exact ⟨le_trans hba h.1, h.2⟩

/-- The span segmentation tiles the remainder of the string. -/
theorem spanSegments_tiles (s : Str) (base : Nat) :
    ∀ (spans : List (Nat × Nat × Str)) (lastEnd : Nat),
      spansOK s.length lastEnd spans → lastEnd ≤ s.length →
      tiles (base + lastEnd) (spanSegments s base spans lastEnd) (s.drop lastEnd) := by
  intro spans
  induction spans with
  | nil =>
    intro lastEnd _ hle
    rw [spanSegments]
    split
    · rw [tiles]
      refine ⟨rfl, ?_, [], by simp, by rw [tiles]⟩
      simp only [List.length_drop]
      omega
    · rename_i hge
      rw [tiles]
      exact List.drop_eq_nil_of_le (by omega)
  | cons sp more ih =>
    intro lastEnd hok hle
    rw [spansOK] at hok
    obtain ⟨h1, h2, h3, h4⟩ := hok
    rw [spanSegments]
    have hdec1 : s.drop lastEnd = strSlice s lastEnd sp.1 ++ s.drop sp.1 :=
      slice_decomp s lastEnd sp.1 h1
    have hdec2 : s.drop sp.1 = strSlice s sp.1 sp.2.1 ++ s.drop sp.2.1 :=
      slice_decomp s sp.1 sp.2.1 h2
    have hlen1 : (strSlice s lastEnd sp.1).length = sp.1 - lastEnd :=
      slice_len s lastEnd sp.1 h1 (by omega)
    have hlen2 : (strSlice s sp.1 sp.2.1).length = sp.2.1 - sp.1 :=
      slice_len s sp.1 sp.2.1 h2 h3
    have hrec := ih sp.2.1 h4 h3
    have hmath : tiles (base + sp.1)
        ((⟨strSlice s sp.1 sp.2.1, true, false, base + sp.1, base + sp.2.1⟩ : MathSegment) ::
          spanSegments s base more sp.2.1) (s.drop sp.1) := by
      rw [tiles]
      refine ⟨rfl, ?_, s.drop sp.2.1, hdec2, ?_⟩
      · show base + sp.2.1 = base + sp.1 + (strSlice s sp.1 sp.2.1).length
        rw [hlen2]
        omega
      · show tiles (base + sp.1 + (strSlice s sp.1 sp.2.1).length) _ _
        have he2 : base + sp.2.1 = base + sp.1 + (strSlice s sp.1 sp.2.1).length := by
          rw [hlen2]
          omega
        rw [← he2]
        exact hrec
    split
    · rename_i hgt
      rw [List.singleton_append, tiles]
      refine ⟨rfl, ?_, s.drop sp.1, hdec1, ?_⟩
      · show base + sp.1 = base + lastEnd + (strSlice s lastEnd sp.1).length
        rw [hlen1]
        omega
      · show tiles (base + lastEnd + (strSlice s lastEnd sp.1).length) _ _
        have he1 : base + sp.1 = base + lastEnd + (strSlice s lastEnd sp.1).length := by
          rw [hlen1]
          omega
        rw [← he1]
        exact hmath
    · rename_i hng
      have heq : lastEnd = sp.1 := by omega
      subst heq
      rw [List.nil_append]
      exact hmath

/-- An inline match consumes at least one and at most all characters. -/
theorem inlineMatchLen_bounds (s : Str) (len : Nat) (h : inlineMatchLen s = some len) :
    1 ≤ len ∧ len ≤ s.length := by
  unfold inlineMatchLen at h
  lift_lets at h
  extract_lets w1 at h
  split at h
  · rename_i c r heq
    split at h
    · lift_lets at h
      extract_lets ctx r2 extra at h
      have hextraAll : ∀ l : List Char, (match l with
          | d :: r3 => if isMathKey d = true then 1 + (List.takeWhile isWordCh r3).length else 0
          | [] => 0) ≤ l.length := by
        intro l
        rcases l with _ | ⟨d, r3⟩
        · simp
        · have h3 : (r3.takeWhile isWordCh).length ≤ r3.length :=
            (List.takeWhile_prefix _).length_le
          show (if isMathKey d = true then 1 + (List.takeWhile isWordCh r3).length else 0) ≤
            (d :: r3).length
          split
          · simp only [List.length_cons]
            omega
          · omega
      have hle : w1.length ≤ s.length := by
        rw [show w1 = s.takeWhile isWordCh from rfl]
        exact (List.takeWhile_prefix _).length_le
      have hlen1 : r.length + 1 + w1.length = s.length := by
        have hd : (s.drop w1.length).length = s.length - w1.length := by
          simp [List.length_drop]
        rw [heq] at hd
        simp only [List.length_cons] at hd
        omega
      have f2 : ctx.length ≤ r.length := by
        rw [show ctx = r.takeWhile isCtxCh from rfl]
        exact (List.takeWhile_prefix _).length_le
      have f3 : r2.length = r.length - ctx.length := by
        rw [show r2 = r.drop ctx.length from rfl]
        simp [List.length_drop]
      have f4 : extra ≤ r2.length := hextraAll r2
      injection h with h
      constructor
      · omega
      · omega
    · simp at h
  · simp at h

/-- Raw spans are ordered after the scan position, within the scanned
suffix. -/
theorem findSpansAux_bounds :
    ∀ (n : Nat) (s : Str), s.length = n → ∀ (pos : Nat) (sp : Nat × Nat × Str),
      sp ∈ findSpansAux s pos → pos ≤ sp.1 ∧ sp.1 ≤ sp.2.1 ∧ sp.2.1 ≤ pos + s.length := by
  intro n
  induction n using Nat.strong_induction_on with
  | _ n ih =>
    intro s hlen pos sp hsp
    match s with
    | [] =>
      rw [findSpansAux] at hsp
      simp at hsp
    | c :: rest =>
      rw [findSpansAux] at hsp
      split at hsp
      · rename_i len hm
        obtain ⟨h1, h2⟩ := inlineMatchLen_bounds _ _ hm
        rw [List.mem_append] at hsp
        rcases hsp with hsp | hsp
        · split at hsp
          · rw [List.mem_singleton] at hsp
            subst hsp
            simp only [List.length_cons] at h2 ⊢
            exact ⟨le_refl _, by omega, by omega⟩
          · simp at hsp
        · have hmax : len.max 1 = len := Nat.max_eq_left h1
          have h3 := ih ((c :: rest).drop (len.max 1)).length
            (by
              simp only [List.length_drop, List.length_cons]
              have hge : 1 ≤ len.max 1 := Nat.le_max_right len 1
              simp only [List.length_cons] at hlen
              omega)
            _ rfl (pos + len.max 1) sp hsp
          simp only [List.length_drop] at h3
          refine ⟨by omega, h3.2.1, by omega⟩
      · have h3 := ih rest.length (by simp at hlen; omega) rest rfl (pos + 1) sp hsp
        refine ⟨by omega, h3.2.1, ?_⟩
        simp only [List.length_cons]
        omega

/-- The merge loop produces a well-formed span list. -/
theorem mergeSpansAux_ok (orig : Str) (slen : Nat) :
    ∀ (more : List (Nat × Nat × Str)) (cur : Nat × Nat × Str),
      cur.1 ≤ cur.2.1 → cur.2.1 ≤ slen →
      (∀ q ∈ more, cur.1 ≤ q.1 ∧ q.1 ≤ q.2.1 ∧ q.2.1 ≤ slen) →
      List.Pairwise (fun a b : Nat × Nat × Str => a.1 ≤ b.1) more →
      spansOK slen cur.1 (mergeSpansAux orig cur more) := by
  intro more
  induction more with
  | nil =>
    intro cur h1 h2 _ _
    rw [mergeSpansAux, spansOK]
    exact ⟨le_refl _, h1, h2, trivial⟩
  | cons sp more2 ih =>
    intro cur h1 h2 hall hpw
    rw [mergeSpansAux]
    rw [List.pairwise_cons] at hpw
    have hsp := hall sp (List.mem_cons_self _ _)
    split
    · rename_i hgt
      rw [spansOK]
      refine ⟨le_refl _, h1, h2, ?_⟩
      refine spansOK_weaken slen sp.1 cur.2.1 _ ?_ (le_of_lt hgt)
      exact ih sp hsp.2.1 hsp.2.2
        (fun q hq => ⟨hpw.1 q hq, (hall q (List.mem_cons_of_mem _ hq)).2⟩) hpw.2
    · rename_i hng
      exact ih (cur.1, max cur.2.1 sp.2.1, strSlice orig cur.1 (max cur.2.1 sp.2.1))
        (by simp; omega) (by simp; omega)
        (fun q hq => ⟨le_trans hsp.1 (hpw.1 q hq), (hall q (List.mem_cons_of_mem _ hq)).2⟩)
        hpw.2

/-- The merged inline spans are well formed from position zero. -/
theorem findInlineMathSpans_ok (s : Str) :
    spansOK s.length 0 (findInlineMathSpans s) := by
  have hb : ∀ q ∈ (findSpansAux s 0).mergeSort
      (fun a b : Nat × Nat × Str => decide (a.1 ≤ b.1)),
      q.1 ≤ q.2.1 ∧ q.2.1 ≤ s.length := by
    intro q hq
    have hq2 : q ∈ findSpansAux s 0 := (List.mergeSort_perm _ _).subset hq
    have h3 := findSpansAux_bounds s.length s rfl 0 q hq2
    exact ⟨h3.2.1, by have := h3.2.2; omega⟩
  have hsorted : List.Pairwise
      (fun a b : Nat × Nat × Str => decide (a.1 ≤ b.1) = true)
      ((findSpansAux s 0).mergeSort (fun a b : Nat × Nat × Str => decide (a.1 ≤ b.1))) :=
    List.sorted_mergeSort
      (fun a b c hab hbc => by
        simp only [decide_eq_true_eq] at *
        omega)
      (fun a b => by
        simp only [Bool.or_eq_true, decide_eq_true_eq]
        omega)
      (findSpansAux s 0)
  simp only [findInlineMathSpans]
  rcases hsort : (findSpansAux s 0).mergeSort
      (fun a b : Nat × Nat × Str => decide (a.1 ≤ b.1)) with _ | ⟨sp, more⟩
  · rw [spansOK]
    trivial
  · have hmem : sp ∈ (findSpansAux s 0).mergeSort
        (fun a b : Nat × Nat × Str => decide (a.1 ≤ b.1)) := by
      rw [hsort]
      exact List.mem_cons_self _ _
    have hbsp := hb sp hmem
    rw [hsort] at hsorted
    rw [List.pairwise_cons] at hsorted
    refine spansOK_weaken s.length sp.1 0 _ ?_ (Nat.zero_le _)
    refine mergeSpansAux_ok s s.length more sp hbsp.1 hbsp.2 ?_ ?_
    · intro q hq
      refine ⟨by have := hsorted.1 q hq; simpa using this, ?_⟩
      exact hb q (by rw [hsort]; exact List.mem_cons_of_mem _ hq)
    · refine List.Pairwise.imp ?_ hsorted.2
      intro a b hh
      simpa using hh

/-- The plain-text detector tiles its region. -/
theorem detectMathInPlainText_tiles (s : Str) (base : Nat) :
    tiles base (detectMathInPlainText s base) s := by
  unfold detectMathInPlainText
  split
  · exact plainSegment_tiles s base
  · lift_lets
    extract_lets strongCount density inlineSpans
    split
    · exact plainSegment_tiles s base
    · split
      · split
        · have h0 := spanSegments_tiles s base inlineSpans 0
            (by
              rw [show inlineSpans = findInlineMathSpans s from rfl]
              exact findInlineMathSpans_ok s)
            (Nat.zero_le _)
          rw [Nat.add_zero, List.drop_zero] at h0
          exact h0
        · split
          · exact plainSegment_tiles s base
          · exact plainTail_tiles s base _ _
      · exact plainTail_tiles s base _ _

/-- A prefix test bounds the pattern length. -/
theorem beginsWith_len : ∀ (pat s : Str), beginsWith pat s = true → pat.length ≤ s.length := by
  intro pat
  induction pat with
  | nil => intro s _; simp
  | cons p ps ih =>
    intro s h
    cases s with
    | nil => simp [beginsWith] at h
    | cons c cs =>
      simp only [beginsWith, Bool.and_eq_true] at h
      simp only [List.length_cons]
      exact Nat.succ_le_succ (ih cs h.2)

/-- A found pattern fits in the string. -/
theorem findSub_bound (pat : Str) :
    ∀ (s : Str) (j : Nat), findSub pat s = some j → j + pat.length ≤ s.length := by
  intro s
  induction s with
  | nil =>
    intro j h
    rw [findSub] at h
    split at h
    · rename_i hb
      injection h with h
      subst h
      simpa using beginsWith_len pat [] hb
    · simp at h
  | cons c rest ih =>
    intro j h
    rw [findSub] at h
    split at h
    · rename_i hb
      injection h with h
      subst h
      simpa using beginsWith_len pat (c :: rest) hb
    · rw [Option.map_eq_some'] at h
      obtain ⟨j0, hj0, hj⟩ := h
      have h2 := ih j0 hj0
      subst hj
      simp only [List.length_cons]
      omega

/-- A delimiter match consumes at least one and at most all characters. -/
theorem delimMatchLen_bounds (t : Str) (len : Nat) (h : delimMatchLen t = some len) :
    1 ≤ len ∧ len ≤ t.length := by
  rw [delimMatchLen] at h
  have ha1 : ∀ n, delimAlt1 t = some n → 1 ≤ n ∧ n ≤ t.length := by
    intro n h1
    rw [delimAlt1] at h1
    split at h1
    · rename_i hb
      rw [Option.map_eq_some'] at h1
      obtain ⟨j, hj, hn⟩ := h1
      have h2 := findSub_bound _ _ _ hj
      have h3 : (t.drop 3).length = t.length - 3 := by simp
      have h4 := beginsWith_len _ _ hb
      simp [str] at h4
      subst hn
      simp [str] at h2
      omega
    · simp at h1
  have ha2 : ∀ (u : Str) (n : Nat), delimAlt2 u = some n → 1 ≤ n ∧ n ≤ u.length := by
    intro u n h1
    rcases u with _ | ⟨c, rest⟩
    · simp [delimAlt2] at h1
    · by_cases hch : c = '$'
      · subst hch
        simp only [delimAlt2] at h1
        split at h1
        · rename_i hc
          injection h1 with h1
          have h2 := beginsWith_len _ _ hc.2
          have hl1 : (str "$").length = 1 := rfl
          rw [hl1, List.length_drop] at h2
          have h3 : (rest.takeWhile (fun c => c ≠ '$' && c ≠ '
')).length ≤ rest.length :=
            (List.takeWhile_prefix _).length_le
          subst h1
          simp only [List.length_cons]
          omega
        · simp at h1
      · simp [delimAlt2, hch] at h1
  have ha3 : ∀ n, delimAlt3 t = some n → 1 ≤ n ∧ n ≤ t.length := by
    intro n h1
    rw [delimAlt3] at h1
    split at h1
    · rename_i hb
      rw [Option.map_eq_some'] at h1
      obtain ⟨j, hj, hn⟩ := h1
      have h2 := findSub_bound _ _ _ hj
      have h4 := beginsWith_len _ _ hb
      simp [str] at h4
      subst hn
      simp [str] at h2
      omega
    · simp at h1
  have ha4 : ∀ n, delimAlt4 t = some n → 1 ≤ n ∧ n ≤ t.length := by
    intro n h1
    rw [delimAlt4] at h1
    split at h1
    · rename_i hb
      lift_lets at h1
      extract_lets run at h1
      split at h1
      · rename_i hc
        injection h1 with h1
        have h2 := beginsWith_len _ _ hc.2.2
        have h3 : run.length ≤ (t.drop 2).length := by
          rw [show run = (t.drop 2).takeWhile (fun c => c ≠ ')') from rfl]
          exact (List.takeWhile_prefix _).length_le
        have h4 := beginsWith_len _ _ hb
        simp [str] at h4
        simp only [List.length_drop, str] at h2 h3
        subst h1
        simp [str] at h2
        omega
      · simp at h1
    · simp at h1
  rcases h1 : delimAlt1 t with _ | n1
  · simp only [h1] at h
    rcases h2 : delimAlt2 t with _ | n2
    · simp only [h2] at h
      rcases h3 : delimAlt3 t with _ | n3
      · simp only [h3] at h
        exact ha4 _ h
      · simp only [h3] at h
        injection h with h
        subst h
        exact ha3 _ h3
    · simp only [h2] at h
      injection h with h
      subst h
      exact ha2 t _ h2
  · simp only [h1] at h
    injection h with h
    subst h
    exact ha1 _ h1

/-- The leftmost delimiter scan reports a match of the suffix at its
offset. -/
theorem scanDelim_some :
    ∀ (s : Str) (off len : Nat), scanDelim s = some (off, len) →
      delimMatchLen (s.drop off) = some len := by
  intro s
  induction s with
  | nil => intro off len h; rw [scanDelim] at h; simp at h
  | cons c rest ih =>
    intro off len h
    rw [scanDelim] at h
    split at h
    · rename_i n hm
      injection h with h
      rw [Prod.mk.injEq] at h
      obtain ⟨h1, h2⟩ := h
      rw [← h1, ← h2, List.drop_zero]
      exact hm
    · rw [Option.map_eq_some'] at h
      obtain ⟨p, hp, hpe⟩ := h
      have h3 := ih p.1 p.2 hp
      rw [Prod.mk.injEq] at hpe
      obtain ⟨he1, he2⟩ := hpe
      rw [← he1, ← he2, List.drop_succ_cons]
      exact h3

/-- The segmentation loop tiles the string it scans. -/
theorem detectMathSegmentsAux_tiles :
    ∀ (n : Nat) (s : Str), s.length = n → ∀ base : Nat,
      tiles base (detectMathSegmentsAux s base) s := by
  intro n
  induction n using Nat.strong_induction_on with
  | _ n ih =>
    intro s hlen base
    match s with
    | [] =>
      rw [detectMathSegmentsAux, tiles]
    | c :: rest =>
      rw [detectMathSegmentsAux]
      split
      · exact detectMathInPlainText_tiles _ base
      · rename_i p off len hscan
        have hd := scanDelim_some _ _ _ hscan
        obtain ⟨hl1, hl2⟩ := delimMatchLen_bounds _ _ hd
        simp only [List.length_drop] at hl2
        have hoff : off < (c :: rest).length := by
          by_contra hge
          have : ((c :: rest).drop off).length = 0 := by
            simp only [List.length_drop]
            omega
          have h0 : (c :: rest).drop off = [] := List.eq_nil_of_length_eq_zero this
          rw [h0] at hd
          rw [show delimMatchLen [] = none from rfl] at hd
          simp at hd
        have hmax : len.max 1 = len := Nat.max_eq_left hl1
        rw [hmax]
        have hsplit1 : c :: rest = (c :: rest).take off ++ (c :: rest).drop off :=
          (List.take_append_drop off (c :: rest)).symm
        conv_rhs => rw [hsplit1]
        have htl : ((c :: rest).take off).length = off := by
          simp only [List.length_take]
          omega
        apply tiles_append
        · split
          · exact detectMathInPlainText_tiles _ base
          · rename_i hno
            have hoff0 : off = 0 := by omega
            rw [hoff0, List.take_zero, tiles]
        · rw [htl]
          rw [tiles]
          have hmtl : (((c :: rest).drop off).take len).length = len := by
            simp only [List.length_take, List.length_drop]
            omega
          refine ⟨rfl, ?_, (c :: rest).drop (off + len), ?_, ?_⟩
          · show base + off + len = base + off + (((c :: rest).drop off).take len).length
            rw [hmtl]
          · have hs2 := (List.take_append_drop len ((c :: rest).drop off)).symm
            rw [List.drop_drop] at hs2
            exact hs2
          · show tiles (base + off + (((c :: rest).drop off).take len).length) _ _
            rw [hmtl]
            have hcr : (c :: rest).length = rest.length + 1 := by simp
            have hlt : ((c :: rest).drop (off + len)).length < n := by
              simp only [List.length_drop]
              omega
            have hrec := ih _ hlt ((c :: rest).drop (off + len)) rfl (base + off + len)
            exact hrec

/-- Claim C3: the segment list of detectMathSegments is a contiguous
partition of its input: each segment text is the slice of the input at its
indices, consecutive segments abut, and the concatenation of the segment
texts reproduces the input exactly. -/
theorem C3_segments_partition (text : Str) :
    (∀ seg ∈ detectMathSegments text,
      seg.text = strSlice text seg.startIndex seg.endIndex ∧
      seg.startIndex ≤ seg.endIndex ∧ seg.endIndex ≤ text.length) ∧
    List.Chain' (fun a b => a.endIndex = b.startIndex) (detectMathSegments text) ∧
    ((detectMathSegments text).map (fun seg => seg.text)).flatten = text := by
  have ht : tiles 0 (detectMathSegments text) text := by
    rw [detectMathSegments]
    exact detectMathSegmentsAux_tiles text.length text rfl 0
  refine ⟨?_, tiles_chain _ 0 text ht, tiles_flatten _ 0 text ht⟩
  intro seg hseg
  have hs := tiles_slice (detectMathSegments text) [] text ht seg hseg
  have hb := tiles_bounds (detectMathSegments text) 0 text ht seg hseg
  exact ⟨by simpa using hs, hb.2.1, by simpa using hb.2.2⟩
